import Mathlib

/-!
# PoissonImageEditing: the sparse Poisson system of `SparseSolve.cpp`

A shallow embedding of `src/PoissonImageEditing/SparseSolve.cpp` and the
properties of it that the specification states.

Modelling conventions.

* `int` quantities that the program keeps non-negative (`rows`, `maxCols`,
  `count[row]`, loop counters) are `Nat`; column indices, which carry the
  sentinel `-1`, and the index grid are `Int`.  Sizes are assumed to stay
  below `2^31`, so no `int` operation wraps.
* `double` has two readings.  `solveDouble` is `solve` in IEEE 754 binary64
  arithmetic: every sum, difference, product and quotient is rounded to
  nearest, ties to even, with overflow to an infinity and with NaN; it is the
  program as it runs.  `solve` is the same code over exact rational
  arithmetic (`ℚ`); it serves the statements that are made over exact
  arithmetic, and those in which every value is a small integer, which a
  `double` holds exactly, as is everything `getEquation` stores.
* `SparseMat::buf` is one contiguous list of `rows * maxCols` slots, and a
  read or write through `rowPtr(row)[k]` is the access to position
  `row * maxCols + k` of it.  An access outside the buffer is undefined
  behaviour in C++: the embedding returns `none` there, and so does every
  function that calls it.
* `cv::Mat` (OpenCV, not part of the repository) is a grid with its two
  dimensions; every pixel access of the program sits under a bounds guard on
  its own coordinates, all grids having one size by the `CV_Assert`s.
* `for (int i = 0; i < n; i++) body` is `forLoop n body`; with a body that
  can fail it is `forLoopM n body`.
-/

set_option autoImplicit false

namespace PoissonImageEditing

/-! ## Loops -/

/-- The loop `for (int i = 0; i < n; i++) s = body(i, s)`. -/
def forLoop {σ : Type} (n : Nat) (body : Nat → σ → σ) (s : σ) : σ :=
  match n with
  | 0 => s
  | k + 1 => body k (forLoop k body s)

/-- The loop `for (int i = 0; i < n; i++) s = body(i, s)` with a body that
may fail; the first failure ends the run. -/
def forLoopM {σ : Type} (n : Nat) (body : Nat → σ → Option σ) (s : σ) : Option σ :=
  match n with
  | 0 => some s
  | k + 1 => (forLoopM k body s).bind (body k)

/-! ## `IndexedValue` and `SparseMat` -/

/-- The struct `IndexedValue`: a column index and a coefficient. -/
structure IndexedValue where
  index : Int
  value : ℚ
deriving DecidableEq

/-- The slot that `memset(data, -1, ...)` leaves behind: all bytes `0xFF`, so
the `int` reads `-1`.  The eight `0xFF` bytes of the `double` are a NaN, which
has no rational value; the embedding keeps `0` there, and nothing below
depends on that number. -/
def memsetSlot : IndexedValue := ⟨-1, 0⟩

/-- The struct `SparseMat`: `buf` holds `rows * maxCols` slots, row after row,
and `count[r]` is the number of used slots of row `r`. -/
structure SparseMat where
  rows : Nat
  maxCols : Nat
  buf : List IndexedValue
  count : List Nat
deriving DecidableEq

namespace SparseMat

/-- The default constructor `SparseMat()`. -/
def empty : SparseMat := ⟨0, 0, [], []⟩

/-- The method `create(rows_, cols_)`: negative dimensions leave the matrix as it
was; otherwise the storage is resized and wiped.  `&buf[0]` and `&count[0]`
only form the address of the storage, also when it is empty, and the
`memset`s then cover zero bytes. -/
def create (m : SparseMat) (rows_ cols_ : Int) : SparseMat :=
  if rows_ < 0 ∨ cols_ < 0 then m
  else
    { rows := rows_.toNat
      maxCols := cols_.toNat
      buf := List.replicate (rows_.toNat * cols_.toNat) memsetSlot
      count := List.replicate rows_.toNat 0 }

/-- The search loop of `insert`,
`for (i = 1; i < currCount; i++) if (index > rowData[i-1].index && index < rowData[i].index) break;`
with `n` iterations still to go, so `i = currCount - n`; the result is the
value of `i` after the loop. -/
def insertSearch (buf : List IndexedValue) (base currCount : Nat) (index : Int) :
    Nat → Option Nat
  | 0 => some currCount
  | n + 1 =>
    let i := currCount - (n + 1)
    match buf[base + (i - 1)]? with
    | none => none
    | some p =>
      if index > p.index then
        match buf[base + i]? with
        | none => none
        | some q =>
          if index < q.index then some i
          else insertSearch buf base currCount index n
      else insertSearch buf base currCount index n

/-- The shift loop of `insert`,
`for (int j = currCount; j >= i; j--) rowData[j + 1] = rowData[j];`
with `n` iterations still to go, so `j = i + n - 1`. -/
def insertShift (base i : Nat) : Nat → List IndexedValue → Option (List IndexedValue)
  | 0, buf => some buf
  | n + 1, buf =>
    match buf[base + (i + n)]? with
    | none => none
    | some v =>
      if base + (i + n) + 1 < buf.length then
        insertShift base i n (buf.set (base + (i + n) + 1) v)
      else none

/-- The method `insert(row, index, value)`. -/
def insert (m : SparseMat) (row : Int) (index : Int) (value : ℚ) : Option SparseMat :=
  if row < 0 ∨ row ≥ (m.rows : Int) then some m
  else
    match m.count[row.toNat]? with
    | none => none
    | some currCount =>
      if currCount = m.maxCols then some m
      else
        let base := row.toNat * m.maxCols
        -- int i = 0; if ((currCount > 0) && (index > rowData[0].index)) { search loop }
        let found : Option Nat :=
          if currCount > 0 then
            match m.buf[base]? with
            | none => none
            | some first =>
              if index > first.index then
                insertSearch m.buf base currCount index (currCount - 1)
              else some 0
          else some 0
        match found with
        | none => none
        | some i =>
          -- if (i < currCount) { shift loop }
          let shifted : Option (List IndexedValue) :=
            if i < currCount then insertShift base i (currCount + 1 - i) m.buf
            else some m.buf
          match shifted with
          | none => none
          | some buf1 =>
            -- rowData[i] = IndexedValue(index, value); ++count[row];
            if base + i < buf1.length then
              some { m with
                buf := buf1.set (base + i) ⟨index, value⟩
                count := m.count.set row.toNat (currCount + 1) }
            else none

/-- The used entries of row `r`, in slot order: the first `count[r]` slots of
the row. -/
def rowEntries (m : SparseMat) (r : Nat) : List IndexedValue :=
  (m.buf.drop (r * m.maxCols)).take (m.count.getD r 0)

/-- The columns of the used entries of row `r`, in slot order. -/
def rowCols (m : SparseMat) (r : Nat) : List Int :=
  (m.rowEntries r).map IndexedValue.index

/-- Insert a list of `(column, value)` pairs into row `row`, first pair first. -/
def insertAll (m : SparseMat) (row : Int) : List (Int × ℚ) → Option SparseMat
  | [] => some m
  | p :: ps => (m.insert row p.1 p.2).bind (fun m1 => insertAll m1 row ps)

end SparseMat

/-- The method `calcSplit`, inner loop: the first `j < cnt` with
`ptrRow[j].index == i`, with `n` iterations still to go (`j = cnt - n`);
`some none` when the loop ends without a `break`. -/
def SparseMat.findDiag (m : SparseMat) (i cnt : Nat) : Nat → Option (Option Nat)
  | 0 => some none
  | n + 1 =>
    match m.buf[i * m.maxCols + (cnt - (n + 1))]? with
    | none => none
    | some e =>
      if e.index = (i : Int) then some (some (cnt - (n + 1)))
      else SparseMat.findDiag m i cnt n

/-- The call `split.resize(rows, -1)`: keep the first `rows` elements, pad with `-1`. -/
def resizeSplit (split : List Int) (rows : Nat) : List Int :=
  split.take rows ++ List.replicate (rows - split.length) (-1)

/-- The method `calcSplit(split)`. -/
def SparseMat.calcSplit (m : SparseMat) (split : List Int) : Option (List Int) :=
  forLoopM m.rows
    (fun i sp =>
      match m.count[i]? with
      | none => none
      | some cnt =>
        match m.findDiag i cnt cnt with
        | none => none
        | some none => some sp
        | some (some j) => if i < sp.length then some (sp.set i (j : Int)) else none)
    (resizeSplit split m.rows)

/-! ## Images -/

/-- A single-channel `cv::Mat`: its two dimensions and its pixels.  Only
pixels `(i, j)` with `i < rows` and `j < cols` are ever looked at. -/
structure Mat (α : Type) where
  rows : Nat
  cols : Nat
  px : Nat → Nat → α

/-- The write `m.at(i, j) = v`. -/
def Mat.set {α : Type} (m : Mat α) (i j : Nat) (v : α) : Mat α :=
  { m with px := fun a b => if a = i ∧ b = j then v else m.px a b }

/-- A matrix given by its rows; `d` fills what the rows do not cover. -/
def Mat.ofRows {α : Type} (d : α) (l : List (List α)) : Mat α :=
  { rows := l.length, cols := (l.headD []).length, px := fun i j => (l.getD i []).getD j d }

/-- The test `m.data != 0`: a matrix without pixels has no data. -/
def Mat.hasData {α : Type} (m : Mat α) : Bool := decide (m.rows ≠ 0 ∧ m.cols ≠ 0)

/-- The function `makeIndex(mask, index, numElems)`; the result is `(index, numElems)`. -/
def makeIndex (mask : Mat Nat) : Option (Mat Int × Nat) :=
  if mask.hasData = false then none
  else
    some (forLoop mask.rows
      (fun i st =>
        forLoop mask.cols
          (fun j st => if mask.px i j ≠ 0 then (st.1.set i j (st.2 : Int), st.2 + 1) else st)
          st)
      (({ rows := mask.rows, cols := mask.cols, px := fun _ _ => -1 } : Mat Int), 0))

/-- A checked write `v.at<double>(k) = a` into a vector. -/
def setAt (v : List ℚ) (k : Int) (a : ℚ) : Option (List ℚ) :=
  if 0 ≤ k ∧ k.toNat < v.length then some (v.set k.toNat a) else none

/-- One of the four neighbour blocks of `getEquation`, for the neighbour
`(ni, nj)`; the state is `(A, neighborCount, bVal)`.
```
neighborCount++;
if (mask(ni, nj)) A.insert(currIndex, index(ni, nj), -1);
else bVal += dst(ni, nj);
bVal += (currSrcVal - src(ni, nj));
``` -/
def neighbourBlock (src dst mask : Mat Nat) (index : Mat Int) (currIndex currSrcVal : Int)
    (ni nj : Nat) (s : SparseMat × Nat × Int) : Option (SparseMat × Nat × Int) :=
  if mask.px ni nj ≠ 0 then
    (s.1.insert currIndex (index.px ni nj) (-1)).map
      (fun A1 => (A1, s.2.1 + 1, s.2.2 + (currSrcVal - (src.px ni nj : Int))))
  else
    some (s.1, s.2.1 + 1, s.2.2 + (dst.px ni nj : Int) + (currSrcVal - (src.px ni nj : Int)))

/-- The body of the pixel loop of `getEquation` at `(i, j)`; the state is `(A, b, x)`.
The guards `i < rows - 1` and `j < cols - 1` are written `i + 1 < rows` and `j + 1 < cols`. -/
def getEquationPixel (src dst mask : Mat Nat) (index : Mat Int) (i j : Nat)
    (st : SparseMat × List ℚ × List ℚ) : Option (SparseMat × List ℚ × List ℚ) :=
  if mask.px i j ≠ 0 then
    let currIndex : Int := index.px i j
    let currSrcVal : Int := (src.px i j : Int)
    let blk := neighbourBlock src dst mask index currIndex currSrcVal
    (if i > 0 then blk (i - 1) j (st.1, 0, 0) else some (st.1, 0, 0)).bind fun s1 =>
    (if i + 1 < src.rows then blk (i + 1) j s1 else some s1).bind fun s2 =>
    (if j > 0 then blk i (j - 1) s2 else some s2).bind fun s3 =>
    (if j + 1 < src.cols then blk i (j + 1) s3 else some s3).bind fun s4 =>
    (s4.1.insert currIndex currIndex (s4.2.1 : ℚ)).bind fun A5 =>
    (setAt st.2.1 currIndex (s4.2.2 : ℚ)).bind fun b1 =>
    (setAt st.2.2 currIndex ((dst.px i j : Nat) : ℚ)).bind fun x1 =>
    some (A5, b1, x1)
  else some st

/-- The function `getEquation(src, dst, mask, index, count, A, b, x)`; `A` is the
matrix object handed in, and the result is `(A, b, x)`. -/
def getEquation (src dst mask : Mat Nat) (index : Mat Int) (count : Nat) (A : SparseMat) :
    Option (SparseMat × List ℚ × List ℚ) :=
  if src.hasData = false ∨ dst.hasData = false ∨ mask.hasData = false ∨ index.hasData = false then
    none
  else if ¬ (src.rows = dst.rows ∧ src.cols = dst.cols ∧ src.rows = mask.rows ∧
      src.cols = mask.cols ∧ src.rows = index.rows ∧ src.cols = index.cols) then none
  else
    forLoopM src.rows
      (fun i st => forLoopM src.cols (fun j st => getEquationPixel src dst mask index i j st) st)
      (A.create (count : Int) 8, List.replicate count 0, List.replicate count 0)

/-! ## The solver -/

/-- A checked read `A[pos]` through a raw pointer. -/
def readAt {α : Type} (A : List α) (pos : Int) : Option α :=
  if pos < 0 then none else A[pos.toNat]?

/-- The loop `for (j = start; j < start + n; j++) val += ptrRow[j].value * x[ptrRow[j].index];`
where `ptrRow = A + rowBase`. -/
def dotLoop (A : List IndexedValue) (x : List ℚ) (rowBase start : Int) (n : Nat) (val : ℚ) :
    Option ℚ :=
  forLoopM n
    (fun t acc =>
      (readAt A (rowBase + (start + (t : Int)))).bind fun e =>
      (readAt x e.index).bind fun xv =>
      some (acc + e.value * xv))
    val

/-- The body of the row loop of `solve` for row `i`; the state is `(x, count)`.
A zero divisor has no quotient in exact arithmetic and gives `none`. -/
def solveRow (A : List IndexedValue) (length : List Nat) (split : List Int) (b : List ℚ)
    (cols : Nat) (eps : ℚ) (i : Nat) (st : List ℚ × Nat) : Option (List ℚ × Nat) :=
  match split[i]?, length[i]?, b[i]?, st.1[i]? with
  | some s, some len, some bi, some xi =>
    let rowBase : Int := (cols : Int) * (i : Int)
    (dotLoop A st.1 rowBase 0 s.toNat 0).bind fun v1 =>
    (dotLoop A st.1 rowBase (s + 1) ((len : Int) - (s + 1)).toNat v1).bind fun v2 =>
    (readAt A (rowBase + s)).bind fun d =>
    if d.value = 0 then none
    else
      let val := (bi - v2) / d.value
      some (st.1.set i val, if |val - xi| < eps then st.2 + 1 else st.2)
  | _, _, _, _ => none

/-- One sweep of `solve`: the row loop, started with `count = 0`. -/
def sweep (A : List IndexedValue) (length : List Nat) (split : List Int) (b : List ℚ)
    (rows cols : Nat) (eps : ℚ) (x : List ℚ) : Option (List ℚ × Nat) :=
  forLoopM rows (solveRow A length split b cols eps) (x, 0)

/-- What a run of `solve` leaves: the vector `x`, the number of sweeps it made
(the number that `printf("count = %d, end\n", iter + 1)` reports at a
`break`), and whether it ended by that `break`. -/
structure SolveResult where
  x : List ℚ
  sweeps : Nat
  converged : Bool
deriving DecidableEq

/-- The iteration loop of `solve` with `n` iterations still to go and `iter`
sweeps made. -/
def solveLoop (A : List IndexedValue) (length : List Nat) (split : List Int) (b : List ℚ)
    (rows cols : Nat) (eps : ℚ) : Nat → Nat → List ℚ → Option SolveResult
  | 0, iter, x => some ⟨x, iter, false⟩
  | n + 1, iter, x =>
    match sweep A length split b rows cols eps x with
    | none => none
    | some (x1, count) =>
      if count = rows then some ⟨x1, iter + 1, true⟩
      else solveLoop A length split b rows cols eps n (iter + 1) x1

/-- The function `solve(A, length, split, b, x, rows, cols, maxIters, eps)` over
exact rational arithmetic; `solveDouble` below is the same function in the
machine's `double` arithmetic. -/
def solve (A : List IndexedValue) (length : List Nat) (split : List Int) (b : List ℚ)
    (x : List ℚ) (rows cols : Nat) (maxIters : Int) (eps : ℚ) : Option SolveResult :=
  solveLoop A length split b rows cols eps maxIters.toNat 0 x

/-! ## Writing the result back -/

/-- Modelled from the spec: `cv::saturate_cast<unsigned char>(double)`, an OpenCV
function that is not in the repository.  The value is rounded to the nearest
integer (a tie goes to the even neighbour, as OpenCV rounds) and saturated to
the 8-bit range `[0, 255]`. -/
def saturate_cast (v : ℚ) : Nat :=
  let f : Int := Rat.floor v
  let r : ℚ := v - (f : ℚ)
  let iv : Int := if r < 1 / 2 then f else if 1 / 2 < r then f + 1 else if f % 2 = 0 then f else f + 1
  if iv < 0 then 0 else if 255 < iv then 255 else iv.toNat

/-- The function `copy(val, mask, index, dst)`; the result is the new `dst`, and
`none` stands for a failed `CV_Assert` or a read outside `val`. -/
def copy (val : List ℚ) (mask : Mat Nat) (index : Mat Int) (dst : Mat Nat) : Option (Mat Nat) :=
  if val.length = 0 ∨ mask.hasData = false ∨ index.hasData = false ∨ dst.hasData = false then none
  else if ¬ (mask.rows = index.rows ∧ mask.cols = index.cols ∧ mask.rows = dst.rows ∧
      mask.cols = dst.cols) then none
  else
    forLoopM mask.rows
      (fun i d =>
        forLoopM mask.cols
          (fun j d =>
            if mask.px i j ≠ 0 then
              (readAt val (index.px i j)).map fun v => d.set i j (saturate_cast v)
            else some d)
          d)
      dst

/-! ## The vocabulary of the statements -/

/-- The column held by slot `k` of row `r` (the sentinel's for a slot outside the buffer). -/
def SparseMat.colAt (m : SparseMat) (r k : Nat) : Int :=
  (m.buf[r * m.maxCols + k]?.getD memsetSlot).index

/-- The storage invariant of `SparseMat`: the buffer and the count vector have
their sizes, and no row holds more than `maxCols` entries. -/
def SparseMat.WF (m : SparseMat) : Prop :=
  m.buf.length = m.rows * m.maxCols ∧ m.count.length = m.rows ∧
    ∀ r, r < m.rows → m.count.getD r 0 ≤ m.maxCols

instance (m : SparseMat) : Decidable m.WF := by
  unfold SparseMat.WF
  infer_instance

/-- Where the search of `insert` may end, for a row with the columns `cols`:
at `0` when the row is empty or its first column is not below `idx`;
otherwise at the first gap `cols[i-1] < idx < cols[i]`, or at the end when
there is no gap. -/
def SearchPos (cols : List Int) (idx : Int) (i : Nat) : Prop :=
  (i = 0 ∧ (cols.length = 0 ∨ idx ≤ cols.getD 0 (-1))) ∨
  (0 < cols.length ∧ cols.getD 0 (-1) < idx ∧ 1 ≤ i ∧
    (i < cols.length → cols.getD (i - 1) (-1) < idx ∧ idx < cols.getD i (-1)) ∧
    ∀ k, 1 ≤ k → k < i → ¬ (cols.getD (k - 1) (-1) < idx ∧ idx < cols.getD k (-1)))

/-- Whether the cell at row-major position `p` of the mask is true (non-zero);
position `p` is the cell `(p / cols, p % cols)`, and the cell `(i, j)` has
position `i * cols + j`. -/
def maskAt (mask : Mat Nat) (p : Nat) : Bool :=
  decide (mask.px (p / mask.cols) (p % mask.cols) ≠ 0)

/-- The number of true cells of the mask among the row-major positions below `p`. -/
def trueBefore (mask : Mat Nat) (p : Nat) : Nat :=
  (List.range p).countP (maskAt mask)

/-- The in-bounds 4-neighbours of the pixel `(i, j)` in a `rows × cols` image, in
the order top, bottom, left, right. -/
def neighbours (rows cols i j : Nat) : List (Nat × Nat) :=
  (if i > 0 then [(i - 1, j)] else []) ++ (if i + 1 < rows then [(i + 1, j)] else []) ++
    (if j > 0 then [(i, j - 1)] else []) ++ (if j + 1 < cols then [(i, j + 1)] else [])

/-- The pairs that the neighbour blocks insert for the neighbours `L`: one
`(index(n), -1)` for every neighbour `n` with a true mask. -/
def neighbourPairs (mask : Mat Nat) (index : Mat Int) (L : List (Nat × Nat)) : List (Int × ℚ) :=
  (L.filter (fun n => decide (mask.px n.1 n.2 ≠ 0))).map (fun n => (index.px n.1 n.2, (-1 : ℚ)))

/-- The right-hand side for the pixel `(i, j)` over the neighbours `L`: the
source differences to all of them, plus the destination values of those
with a false mask. -/
def rhsOver (src dst mask : Mat Nat) (i j : Nat) (L : List (Nat × Nat)) : Int :=
  (L.map (fun n => (src.px i j : Int) - (src.px n.1 n.2 : Int))).sum +
    ((L.filter (fun n => decide (mask.px n.1 n.2 = 0))).map (fun n => (dst.px n.1 n.2 : Int))).sum

/-- The neighbour blocks run over a list of neighbours, first one first. -/
def blockFold (src dst mask : Mat Nat) (index : Mat Int) (currIndex currSrcVal : Int) :
    List (Nat × Nat) → SparseMat × Nat × Int → Option (SparseMat × Nat × Int)
  | [], s => some s
  | n :: L, s =>
    (neighbourBlock src dst mask index currIndex currSrcVal n.1 n.2 s).bind
      (blockFold src dst mask index currIndex currSrcVal L)

/-- The index grid that `makeIndex` builds for the mask: the mask's size, `-1` at
the false cells and the running count of true cells at the true ones. -/
def IndexOK (mask : Mat Nat) (index : Mat Int) : Prop :=
  index.rows = mask.rows ∧ index.cols = mask.cols ∧
    ∀ i j, i < mask.rows → j < mask.cols →
      index.px i j = if mask.px i j ≠ 0 then (trueBefore mask (i * mask.cols + j) : Int) else -1

/-- The entries that the row of the masked pixel `(i, j)` is to hold: `(index(n), -1)`
for every in-bounds neighbour `n` with a true mask, and the diagonal entry
`(index(i, j), number of in-bounds neighbours)`. -/
def expectedRow (mask : Mat Nat) (index : Mat Int) (i j : Nat) : List IndexedValue :=
  ((neighbours mask.rows mask.cols i j).filter (fun n => decide (mask.px n.1 n.2 ≠ 0))).map
      (fun n => (⟨index.px n.1 n.2, -1⟩ : IndexedValue)) ++
    [⟨index.px i j, ((neighbours mask.rows mask.cols i j).length : ℚ)⟩]

/-- The state of the pixel loop of `getEquation` before the pixel at row-major
position `p`: the rows, right-hand sides and starting values of the masked
pixels before `p` are final, the rows of the others are still empty. -/
def GEInv (src dst mask : Mat Nat) (index : Mat Int) (p : Nat)
    (st : SparseMat × List ℚ × List ℚ) : Prop :=
  st.1.WF ∧ st.1.rows = trueBefore mask (mask.rows * mask.cols) ∧ st.1.maxCols = 8 ∧
  st.2.1.length = trueBefore mask (mask.rows * mask.cols) ∧
  st.2.2.length = trueBefore mask (mask.rows * mask.cols) ∧
  ∀ i j, i < mask.rows → j < mask.cols → mask.px i j ≠ 0 →
    (i * mask.cols + j < p →
      (st.1.rowEntries (trueBefore mask (i * mask.cols + j))).Perm (expectedRow mask index i j) ∧
      (st.1.rowCols (trueBefore mask (i * mask.cols + j))).Pairwise (· < ·) ∧
      st.1.count.getD (trueBefore mask (i * mask.cols + j)) 0 =
        (expectedRow mask index i j).length ∧
      st.2.1[trueBefore mask (i * mask.cols + j)]? =
        some ((rhsOver src dst mask i j (neighbours mask.rows mask.cols i j) : Int) : ℚ) ∧
      st.2.2[trueBefore mask (i * mask.cols + j)]? = some ((dst.px i j : Nat) : ℚ)) ∧
    (p ≤ i * mask.cols + j → st.1.count.getD (trueBefore mask (i * mask.cols + j)) 0 = 0)

/-- The system handed to `solve` is well formed: the three tables have one
element per row, the buffer covers `rows * cols` slots, and in every row the
used entries fit the row, `split` points at a used entry with a non-zero
coefficient, and every used column is a row number. -/
def SolveWF (A : List IndexedValue) (length : List Nat) (split : List Int) (b : List ℚ)
    (rows cols : Nat) : Prop :=
  length.length = rows ∧ split.length = rows ∧ b.length = rows ∧ rows * cols ≤ A.length ∧
  ∀ i, i < rows →
    length.getD i 0 ≤ cols ∧ 0 ≤ split.getD i (-1) ∧
    split.getD i (-1) < (length.getD i 0 : Int) ∧
    (A.getD (cols * i + (split.getD i (-1)).toNat) memsetSlot).value ≠ 0 ∧
    ∀ j, j < length.getD i 0 →
      0 ≤ (A.getD (cols * i + j) memsetSlot).index ∧
      (A.getD (cols * i + j) memsetSlot).index < (rows : Int)

instance (A : List IndexedValue) (length : List Nat) (split : List Int) (b : List ℚ)
    (rows cols : Nat) : Decidable (SolveWF A length split b rows cols) := by
  unfold SolveWF
  infer_instance

/-- The sum of `value * x[index]` over a list of entries. -/
def dot (es : List IndexedValue) (x : List ℚ) : ℚ :=
  (es.map (fun e => e.value * x.getD e.index.toNat 0)).sum

/-- The used entries of row `i` of the system handed to `solve`. -/
def rowOf (A : List IndexedValue) (length : List Nat) (cols i : Nat) : List IndexedValue :=
  (A.drop (cols * i)).take (length.getD i 0)

/-- The value that the row loop of `solve` writes to `x[i]`: the right-hand side
less the products of the entries other than the one at `split[i]`, divided by
the coefficient at `split[i]`. -/
def rowUpdate (A : List IndexedValue) (length : List Nat) (split : List Int) (b : List ℚ)
    (cols i : Nat) (x : List ℚ) : ℚ :=
  (b.getD i 0 - dot ((rowOf A length cols i).eraseIdx (split.getD i (-1)).toNat) x) /
    (A.getD (cols * i + (split.getD i (-1)).toNat) memsetSlot).value

/-- The vector after the first `n` rows of a sweep from `x`. -/
def gsRows (A : List IndexedValue) (length : List Nat) (split : List Int) (b : List ℚ)
    (cols : Nat) (n : Nat) (x : List ℚ) : List ℚ :=
  forLoop n (fun i xs => xs.set i (rowUpdate A length split b cols i xs)) x

/-- Every unknown of `y` is within `eps` of its value in `x`. -/
def AllClose (rows : Nat) (eps : ℚ) (x y : List ℚ) : Prop :=
  ∀ i, i < rows → |y.getD i 0 - x.getD i 0| < eps

/-- Weak diagonal dominance with respect to `split`: in every row the absolute
values of the coefficients other than the one at `split[i]` sum to at most the
absolute value of that one. -/
def WeakDiagDominant (A : List IndexedValue) (length : List Nat) (split : List Int)
    (rows cols : Nat) : Prop :=
  ∀ i, i < rows →
    (((rowOf A length cols i).eraseIdx (split.getD i (-1)).toNat).map
      (fun e => |e.value|)).sum ≤
      |(A.getD (cols * i + (split.getD i (-1)).toNat) memsetSlot).value|

instance (A : List IndexedValue) (length : List Nat) (split : List Int) (rows cols : Nat) :
    Decidable (WeakDiagDominant A length split rows cols) := by
  unfold WeakDiagDominant
  infer_instance

/-- The state of the pixel loop of `copy` before the pixel at row-major position `p`. -/
def CopyInv (val : List ℚ) (mask : Mat Nat) (index : Mat Int) (dst : Mat Nat) (p : Nat)
    (d : Mat Nat) : Prop :=
  d.rows = dst.rows ∧ d.cols = dst.cols ∧
  ∀ a c, d.px a c =
    if a < mask.rows ∧ c < mask.cols ∧ mask.px a c ≠ 0 ∧ a * mask.cols + c < p then
      saturate_cast (val.getD (index.px a c).toNat 0)
    else dst.px a c

/-- A 3 × 3 mask with two true cells in the middle row. -/
def maskA : Mat Nat := Mat.ofRows 0 [[0, 0, 0], [0, 255, 255], [0, 0, 0]]

/-- The index grid that `makeIndex` builds for `maskA`. -/
def indexA : Mat Int :=
  match makeIndex maskA with
  | some r => r.1
  | none => { rows := 0, cols := 0, px := fun _ _ => -1 }

/-- A constant 3 × 3 source. -/
def srcA : Mat Nat := Mat.ofRows 0 [[10, 10, 10], [10, 10, 10], [10, 10, 10]]

/-- A 3 × 3 destination that is 7 outside `maskA`. -/
def dstA : Mat Nat := Mat.ofRows 0 [[7, 7, 7], [7, 99, 98], [7, 7, 7]]

/-- A 1 × 1 image whose only pixel is masked. -/
def maskOne : Mat Nat := Mat.ofRows 0 [[255]]

/-- The index grid that `makeIndex` builds for `maskOne`. -/
def indexOne : Mat Int :=
  match makeIndex maskOne with
  | some r => r.1
  | none => { rows := 0, cols := 0, px := fun _ _ => -1 }

/-- A row holding the columns 1, 3, 5 in a 1 × 8 matrix. -/
def rowOneThreeFive : SparseMat :=
  { rows := 1, maxCols := 8,
    buf := [⟨1, 1⟩, ⟨3, 1⟩, ⟨5, 1⟩, memsetSlot, memsetSlot, memsetSlot, memsetSlot, memsetSlot],
    count := [3] }

/-- The 2 × 2 system `x0 + 2 x1 = 0`, `2 x0 + x1 = 0`, stored with two slots per row. -/
def growA : List IndexedValue := [⟨0, 1⟩, ⟨1, 2⟩, ⟨0, 2⟩, ⟨1, 1⟩]

/-- The 1 × 1 system `2 x0 = 4`. -/
def oneA : List IndexedValue := [⟨0, 2⟩]

/-- A 1 × 2 matrix whose only row is full, with the columns 1 and 3. -/
def fullRow : SparseMat :=
  { rows := 1, maxCols := 2, buf := [⟨1, 1⟩, ⟨3, 1⟩], count := [2] }

/-- A 2 × 2 matrix with column 5 in row 0 and column 7 in row 1: what
`SparseMat(2, 2)` holds after `insert(1, 7, 1.0)` and `insert(0, 5, 1.0)`. -/
def twoRows : SparseMat :=
  { rows := 2, maxCols := 2, buf := [⟨5, 1⟩, memsetSlot, ⟨7, 1⟩, memsetSlot], count := [1, 1] }

/-- A 3 × 4 mask with a masked corner `(0, 0)` whose two neighbours are not
masked, and a masked interior pixel `(1, 2)` whose four neighbours are masked. -/
def maskPlus : Mat Nat := Mat.ofRows 0 [[255, 0, 255, 0], [0, 255, 255, 255], [0, 0, 255, 0]]

/-- The index grid that `makeIndex` builds for `maskPlus`. -/
def indexPlus : Mat Int :=
  match makeIndex maskPlus with
  | some r => r.1
  | none => { rows := 0, cols := 0, px := fun _ _ => -1 }

/-- A 3 × 3 mask whose only true cell is the middle one. -/
def maskDot : Mat Nat := Mat.ofRows 0 [[0, 0, 0], [0, 255, 0], [0, 0, 0]]

/-- The index grid that `makeIndex` builds for `maskDot`. -/
def indexDot : Mat Int :=
  match makeIndex maskDot with
  | some r => r.1
  | none => { rows := 0, cols := 0, px := fun _ _ => -1 }

/-- A 3 × 3 destination that is 7 around the middle pixel and 99 there. -/
def dstDot : Mat Nat := Mat.ofRows 0 [[7, 7, 7], [7, 99, 7], [7, 7, 7]]

/-- A second 3 × 3 destination: `dstDot` with 5 at the middle pixel. -/
def dstDotFive : Mat Nat := Mat.ofRows 0 [[7, 7, 7], [7, 5, 7], [7, 7, 7]]

/-! ## `solve` in `double` arithmetic -/

/-- A value of type `double` (IEEE 754 binary64): a finite number, an infinity
(`neg` for the negative one) or a NaN.  The sign of a zero is not kept: it
shows only in a quotient by a zero, which `solve` is guarded against below. -/
inductive Double where
  | fin (q : ℚ)
  | inf (neg : Bool)
  | nan
deriving DecidableEq

/-- The number of binary digits of `n`, for `fuel` at least that number. -/
def bitLength : Nat → Nat → Nat
  | 0, _ => 0
  | fuel + 1, n => if n = 0 then 0 else bitLength fuel (n / 2) + 1

/-- The integer nearest to `p / q`, the even one of two that are equally near. -/
def roundHalfEven (p q : Nat) : Nat :=
  if 2 * (p % q) < q then p / q
  else if q < 2 * (p % q) then p / q + 1
  else if (p / q) % 2 = 0 then p / q else p / q + 1

/-- The binary64 number nearest to `n / d` for positive `n` and `d`, ties to
even, as a pair `(m, k)` that stands for `m * 2^k`: with `2^e ≤ n / d < 2^(e+1)`
the unit in the last place is `2^k` for `k = max e (-1022) - 52`, which gives 53
significant bits to a normal number and the fixed unit `2^(-1074)` to a
subnormal one. -/
def roundMagnitude (n d : Nat) : Nat × Int :=
  let e0 : Int := (bitLength n n : Int) - (bitLength d d : Int)
  let e : Int := if n * 2 ^ (-e0).toNat < d * 2 ^ e0.toNat then e0 - 1 else e0
  let k : Int := max e (-1022) - 52
  (roundHalfEven (n * 2 ^ (-k).toNat) (d * 2 ^ k.toNat), k)

/-- The result of an operation whose exact value is `q`, rounded to nearest,
ties to even; a rounded magnitude of `2^1024` or more, which has more than 1024
binary digits, is an infinity. -/
def roundDouble (q : ℚ) : Double :=
  if q = 0 then Double.fin 0
  else
    let r := roundMagnitude q.num.natAbs q.den
    if 1024 < bitLength (r.1 * 2 ^ r.2.toNat) (r.1 * 2 ^ r.2.toNat) then Double.inf (decide (q < 0))
    else
      let a : ℚ := ((r.1 * 2 ^ r.2.toNat : Nat) : ℚ) / ((2 ^ (-r.2).toNat : Nat) : ℚ)
      Double.fin (if q < 0 then -a else a)

/-- The sum `a + b` of two `double`s. -/
def Double.add : Double → Double → Double
  | Double.fin a, Double.fin b => roundDouble (a + b)
  | Double.fin _, Double.inf s => Double.inf s
  | Double.inf s, Double.fin _ => Double.inf s
  | Double.inf s, Double.inf t => if s = t then Double.inf s else Double.nan
  | _, _ => Double.nan

/-- The difference `a - b` of two `double`s. -/
def Double.sub : Double → Double → Double
  | Double.fin a, Double.fin b => roundDouble (a - b)
  | Double.fin _, Double.inf s => Double.inf (!s)
  | Double.inf s, Double.fin _ => Double.inf s
  | Double.inf s, Double.inf t => if s = t then Double.nan else Double.inf s
  | _, _ => Double.nan

/-- The product `a * b` of two `double`s. -/
def Double.mul : Double → Double → Double
  | Double.fin a, Double.fin b => roundDouble (a * b)
  | Double.fin a, Double.inf s => if a = 0 then Double.nan else Double.inf (xor s (decide (a < 0)))
  | Double.inf s, Double.fin b => if b = 0 then Double.nan else Double.inf (xor s (decide (b < 0)))
  | Double.inf s, Double.inf t => Double.inf (xor s t)
  | _, _ => Double.nan

/-- The quotient `a / b` of two `double`s for a divisor other than zero; the
callers test the divisor, and the value given for a zero divisor is not used. -/
def Double.div : Double → Double → Double
  | Double.fin a, Double.fin b => if b = 0 then Double.nan else roundDouble (a / b)
  | Double.fin _, Double.inf _ => Double.fin 0
  | Double.inf s, Double.fin b => if b = 0 then Double.nan else Double.inf (xor s (decide (b < 0)))
  | _, _ => Double.nan

/-- The test `fabs(a) < eps` for a finite `eps`: false for an infinity and for a NaN. -/
def Double.absLt (a : Double) (eps : ℚ) : Bool :=
  match a with
  | Double.fin q => decide (|q| < eps)
  | _ => false

/-- The loop `for (j = start; j < start + n; j++) val += ptrRow[j].value * x[ptrRow[j].index];`
in `double` arithmetic: the product is rounded, then the sum (two operations,
not one fused multiply-add). -/
def dotLoopDouble (A : List IndexedValue) (x : List Double) (rowBase start : Int) (n : Nat)
    (val : Double) : Option Double :=
  forLoopM n
    (fun t acc =>
      (readAt A (rowBase + (start + (t : Int)))).bind fun e =>
      (readAt x e.index).bind fun xv =>
      some (acc.add ((Double.fin e.value).mul xv)))
    val

/-- The body of the row loop of `solve` for row `i` in `double` arithmetic; the
state is `(x, count)`.  The coefficients and right-hand sides are finite
`double`s.  A zero divisor gives `none`: the quotient by a zero depends on the
sign of the zero. -/
def solveRowDouble (A : List IndexedValue) (length : List Nat) (split : List Int) (b : List ℚ)
    (cols : Nat) (eps : ℚ) (i : Nat) (st : List Double × Nat) : Option (List Double × Nat) :=
  match split[i]?, length[i]?, b[i]?, st.1[i]? with
  | some s, some len, some bi, some xi =>
    let rowBase : Int := (cols : Int) * (i : Int)
    (dotLoopDouble A st.1 rowBase 0 s.toNat (Double.fin 0)).bind fun v1 =>
    (dotLoopDouble A st.1 rowBase (s + 1) ((len : Int) - (s + 1)).toNat v1).bind fun v2 =>
    (readAt A (rowBase + s)).bind fun d =>
    if d.value = 0 then none
    else
      let val := ((Double.fin bi).sub v2).div (Double.fin d.value)
      some (st.1.set i val, if (val.sub xi).absLt eps = true then st.2 + 1 else st.2)
  | _, _, _, _ => none

/-- One sweep of `solve` in `double` arithmetic: the row loop, started with `count = 0`. -/
def sweepDouble (A : List IndexedValue) (length : List Nat) (split : List Int) (b : List ℚ)
    (rows cols : Nat) (eps : ℚ) (x : List Double) : Option (List Double × Nat) :=
  forLoopM rows (solveRowDouble A length split b cols eps) (x, 0)

/-- What a run of `solve` in `double` arithmetic leaves: the vector `x`, the
number of sweeps it made, and whether it ended by its `break`. -/
structure SolveResultDouble where
  x : List Double
  sweeps : Nat
  converged : Bool
deriving DecidableEq

/-- The iteration loop of `solve` in `double` arithmetic with `n` iterations
still to go and `iter` sweeps made. -/
def solveLoopDouble (A : List IndexedValue) (length : List Nat) (split : List Int) (b : List ℚ)
    (rows cols : Nat) (eps : ℚ) : Nat → Nat → List Double → Option SolveResultDouble
  | 0, iter, x => some ⟨x, iter, false⟩
  | n + 1, iter, x =>
    match sweepDouble A length split b rows cols eps x with
    | none => none
    | some (x1, count) =>
      if count = rows then some ⟨x1, iter + 1, true⟩
      else solveLoopDouble A length split b rows cols eps n (iter + 1) x1

/-- The function `solve(A, length, split, b, x, rows, cols, maxIters, eps)` in
`double` arithmetic, every operation rounded as the machine rounds it. -/
def solveDouble (A : List IndexedValue) (length : List Nat) (split : List Int) (b : List ℚ)
    (x : List Double) (rows cols : Nat) (maxIters : Int) (eps : ℚ) : Option SolveResultDouble :=
  solveLoopDouble A length split b rows cols eps maxIters.toNat 0 x

/-- The sum that the two summation loops of `solve` leave in `val`, in `double`
arithmetic: starting from `acc`, each entry of `es` in turn adds its rounded
product `value * x[index]`, and the sum is rounded. -/
def sumDouble (es : List IndexedValue) (x : List Double) (acc : Double) : Double :=
  es.foldl (fun acc e => acc.add ((Double.fin e.value).mul (x.getD e.index.toNat Double.nan))) acc

/-- The value that the row loop of `solve` writes to `x[i]` in `double`
arithmetic: the right-hand side less the sum over the entries other than the
one at `split[i]`, in slot order, divided by the coefficient at `split[i]`. -/
def rowUpdateDouble (A : List IndexedValue) (length : List Nat) (split : List Int) (b : List ℚ)
    (cols i : Nat) (x : List Double) : Double :=
  ((Double.fin (b.getD i 0)).sub
      (sumDouble ((rowOf A length cols i).eraseIdx (split.getD i (-1)).toNat) x (Double.fin 0))).div
    (Double.fin (A.getD (cols * i + (split.getD i (-1)).toNat) memsetSlot).value)

/-- The vector after the first `n` rows of a sweep from `x`, in `double` arithmetic. -/
def gsRowsDouble (A : List IndexedValue) (length : List Nat) (split : List Int) (b : List ℚ)
    (cols : Nat) (n : Nat) (x : List Double) : List Double :=
  forLoop n (fun i xs => xs.set i (rowUpdateDouble A length split b cols i xs)) x

/-- Every unknown of `y` passes the test `fabs(y[i] - x[i]) < eps` of `solve`. -/
def AllCloseDouble (rows : Nat) (eps : ℚ) (x y : List Double) : Prop :=
  ∀ i, i < rows → ((y.getD i Double.nan).sub (x.getD i Double.nan)).absLt eps = true

/-- The 2 × 2 system `3 x0 + x1 = 1`, `x0 + 3 x1 = 1`, stored with two slots per row. -/
def thirdA : List IndexedValue := [⟨0, 3⟩, ⟨1, 1⟩, ⟨0, 1⟩, ⟨1, 3⟩]

/-- The 2 × 2 system `x0 + x1 = 10^16`, `x1 = 1`, stored with two slots per row. -/
def bigA : List IndexedValue := [⟨0, 1⟩, ⟨1, 1⟩, ⟨1, 1⟩, memsetSlot]

/-! ## Facts about `insert` -/

theorem insertShift_spec (base i : Nat) : ∀ (n : Nat) (buf : List IndexedValue),
    base + i + n < buf.length →
    ∃ buf', SparseMat.insertShift base i n buf = some buf' ∧ buf'.length = buf.length ∧
      ∀ p, buf'[p]? = if base + i < p ∧ p ≤ base + i + n then buf[p - 1]? else buf[p]? := by
  intro n
  induction n with
  | zero =>
    intro buf _
    refine ⟨buf, rfl, rfl, fun p => ?_⟩
    have : ¬ (base + i < p ∧ p ≤ base + i + 0) := by omega
    rw [if_neg this]
  | succ n ih =>
    intro buf h
    have h1 : base + (i + n) < buf.length := by omega
    have h2 : base + (i + n) + 1 < buf.length := by omega
    obtain ⟨buf', hb, hl, hp⟩ :=
      ih (buf.set (base + (i + n) + 1) buf[base + (i + n)]) (by rw [List.length_set]; omega)
    refine ⟨buf', ?_, ?_, ?_⟩
    · rw [SparseMat.insertShift, List.getElem?_eq_getElem h1]
      simp only [h2, if_true]
      exact hb
    · rw [hl, List.length_set]
    · intro p
      rw [hp p]
      by_cases hq : base + i < p ∧ p ≤ base + i + n
      · have hq2 : base + i < p ∧ p ≤ base + i + (n + 1) := by omega
        rw [if_pos hq, if_pos hq2, List.getElem?_set_ne (by omega)]
      · rw [if_neg hq]
        by_cases hq3 : p = base + (i + n) + 1
        · have hq2 : base + i < p ∧ p ≤ base + i + (n + 1) := by omega
          rw [if_pos hq2, hq3, List.getElem?_set_self h2]
          simp [List.getElem?_eq_getElem h1]
        · have hq2 : ¬ (base + i < p ∧ p ≤ base + i + (n + 1)) := by omega
          rw [if_neg hq2, List.getElem?_set_ne (by omega)]

theorem insertSearch_spec (buf : List IndexedValue) (base c : Nat) (index : Int)
    (hbuf : base + c ≤ buf.length) : ∀ n, n < c →
    ∃ i, SparseMat.insertSearch buf base c index n = some i ∧ c - n ≤ i ∧ i ≤ c ∧
      (i < c → (buf[base + (i - 1)]?.getD memsetSlot).index < index ∧
        index < (buf[base + i]?.getD memsetSlot).index) ∧
      ∀ k, c - n ≤ k → k < i →
        ¬ ((buf[base + (k - 1)]?.getD memsetSlot).index < index ∧
          index < (buf[base + k]?.getD memsetSlot).index) := by
  intro n
  induction n with
  | zero =>
    intro _
    exact ⟨c, rfl, by omega, le_refl _, fun h => absurd h (lt_irrefl _), fun k h1 h2 => by omega⟩
  | succ n ih =>
    intro hn
    obtain ⟨i, hi, h1, h2, h3, h4⟩ := ih (by omega)
    have ha : base + (c - (n + 1) - 1) < buf.length := by omega
    have hb : base + (c - (n + 1)) < buf.length := by omega
    rw [SparseMat.insertSearch]
    simp only [List.getElem?_eq_getElem ha, List.getElem?_eq_getElem hb]
    by_cases hg : buf[base + (c - (n + 1) - 1)].index < index ∧
        index < buf[base + (c - (n + 1))].index
    · refine ⟨c - (n + 1), ?_, le_refl _, by omega, ?_, fun k h5 h6 => by omega⟩
      · simp [hg.1, hg.2]
      · intro _
        simpa [List.getElem?_eq_getElem ha, List.getElem?_eq_getElem hb] using hg
    · refine ⟨i, ?_, by omega, h2, h3, ?_⟩
      · by_cases hg1 : buf[base + (c - (n + 1) - 1)].index < index
        · have hg2 : ¬ index < buf[base + (c - (n + 1))].index := fun h => hg ⟨hg1, h⟩
          simp [hg1, hg2, hi]
        · simp [hg1, hi]
      · intro k h5 h6
        by_cases hk : k = c - (n + 1)
        · subst hk
          simpa [List.getElem?_eq_getElem ha, List.getElem?_eq_getElem hb] using hg
        · exact h4 k (by omega) h6

theorem row_end_le (m : SparseMat) (r : Nat) (hlen : m.buf.length = m.rows * m.maxCols)
    (hr : r < m.rows) : r * m.maxCols + m.maxCols ≤ m.buf.length := by
  rw [hlen]
  calc r * m.maxCols + m.maxCols = (r + 1) * m.maxCols := by ring
    _ ≤ m.rows * m.maxCols := Nat.mul_le_mul_right _ hr

/-- The tail of `insert` once the search has ended at `i`: the shift and the two writes. -/
theorem insert_tail_spec (buf : List IndexedValue) (base c i : Nat) (e : IndexedValue)
    (hi : i ≤ c) (hb : base + c + 1 < buf.length) :
    ∃ buf1, (if i < c then SparseMat.insertShift base i (c + 1 - i) buf else some buf) = some buf1 ∧
      base + i < buf1.length ∧ (buf1.set (base + i) e).length = buf.length ∧
      ∀ p, (buf1.set (base + i) e)[p]? =
        if p = base + i then some e
        else if i < c ∧ base + i < p ∧ p ≤ base + c + 1 then buf[p - 1]?
        else buf[p]? := by
  by_cases hic : i < c
  · obtain ⟨buf1, h1, h2, h3⟩ := insertShift_spec base i (c + 1 - i) buf (by omega)
    refine ⟨buf1, by rw [if_pos hic]; exact h1, by omega, by rw [List.length_set, h2], ?_⟩
    intro p
    by_cases hp : p = base + i
    · subst hp
      rw [if_pos rfl, List.getElem?_set_self (by omega)]
    · rw [if_neg hp, List.getElem?_set_ne (fun h => hp h.symm), h3 p]
      by_cases hq : base + i < p ∧ p ≤ base + i + (c + 1 - i)
      · rw [if_pos hq, if_pos ⟨hic, hq.1, by omega⟩]
      · rw [if_neg hq, if_neg (by omega)]
  · refine ⟨buf, by rw [if_neg hic], by omega, by rw [List.length_set], ?_⟩
    intro p
    by_cases hp : p = base + i
    · subst hp
      rw [if_pos rfl, List.getElem?_set_self (by omega)]
    · rw [if_neg hp, List.getElem?_set_ne (fun h => hp h.symm), if_neg (by omega)]

/-- What `insert` does to a row that is not within one slot of being full: where
the new entry lands (`i`), and the buffer afterwards, position by position. -/
theorem insert_spec (m : SparseMat) (r c : Nat) (idx : Int) (v : ℚ)
    (hlen : m.buf.length = m.rows * m.maxCols) (hr : r < m.rows)
    (hc : m.count[r]? = some c) (hcap : c + 1 < m.maxCols) :
    ∃ i m', i ≤ c ∧ m.insert (r : Int) idx v = some m' ∧
      m'.rows = m.rows ∧ m'.maxCols = m.maxCols ∧ m'.count = m.count.set r (c + 1) ∧
      m'.buf.length = m.buf.length ∧
      (∀ p, m'.buf[p]? =
        if p = r * m.maxCols + i then some ⟨idx, v⟩
        else if i < c ∧ r * m.maxCols + i < p ∧ p ≤ r * m.maxCols + c + 1 then m.buf[p - 1]?
        else m.buf[p]?) ∧
      ((i = 0 ∧ (c = 0 ∨ idx ≤ m.colAt r 0)) ∨
       (0 < c ∧ m.colAt r 0 < idx ∧ 1 ≤ i ∧
         (i < c → m.colAt r (i - 1) < idx ∧ idx < m.colAt r i) ∧
         ∀ k, 1 ≤ k → k < i → ¬ (m.colAt r (k - 1) < idx ∧ idx < m.colAt r k))) := by
  have hend := row_end_le m r hlen hr
  have hguard : ¬ ((r : Int) < 0 ∨ (r : Int) ≥ (m.rows : Int)) := by omega
  have hne : c ≠ m.maxCols := by omega
  -- the search
  have hfound : ∃ i, i ≤ c ∧
      (if c > 0 then
        match m.buf[r * m.maxCols]? with
        | none => none
        | some first =>
          if idx > first.index then SparseMat.insertSearch m.buf (r * m.maxCols) c idx (c - 1)
          else some 0
      else some 0) = some i ∧
      ((i = 0 ∧ (c = 0 ∨ idx ≤ m.colAt r 0)) ∨
       (0 < c ∧ m.colAt r 0 < idx ∧ 1 ≤ i ∧
         (i < c → m.colAt r (i - 1) < idx ∧ idx < m.colAt r i) ∧
         ∀ k, 1 ≤ k → k < i → ¬ (m.colAt r (k - 1) < idx ∧ idx < m.colAt r k))) := by
    by_cases hc0 : c > 0
    · have h0 : r * m.maxCols < m.buf.length := by omega
      rw [if_pos hc0, List.getElem?_eq_getElem h0]
      have hcol0 : m.colAt r 0 = m.buf[r * m.maxCols].index := by
        simp [SparseMat.colAt, List.getElem?_eq_getElem h0]
      by_cases hgt : idx > m.buf[r * m.maxCols].index
      · obtain ⟨i, h1, h2, h3, h4, h5⟩ :=
          insertSearch_spec m.buf (r * m.maxCols) c idx (by omega) (c - 1) (by omega)
        refine ⟨i, h3, by simp only [hgt, if_true]; exact h1, Or.inr ⟨hc0, ?_, by omega, ?_, ?_⟩⟩
        · rw [hcol0]; exact hgt
        · intro hic
          exact h4 hic
        · intro k hk1 hk2
          exact h5 k (by omega) hk2
      · refine ⟨0, Nat.zero_le _, by simp only [hgt, if_false], Or.inl ⟨rfl, Or.inr ?_⟩⟩
        rw [hcol0]; omega
    · exact ⟨0, Nat.zero_le _, by rw [if_neg hc0], Or.inl ⟨rfl, Or.inl (by omega)⟩⟩
  obtain ⟨i, hic, hf, hchar⟩ := hfound
  obtain ⟨buf1, hs, hlt, hl, hp⟩ :=
    insert_tail_spec m.buf (r * m.maxCols) c i ⟨idx, v⟩ hic (by omega)
  refine ⟨i, { m with buf := buf1.set (r * m.maxCols + i) ⟨idx, v⟩, count := m.count.set r (c + 1) },
    hic, ?_, rfl, rfl, rfl, hl, hp, hchar⟩
  rw [SparseMat.insert, if_neg hguard]
  simp only [Int.toNat_ofNat, hc, hne, if_false]
  rw [hf]
  simp only [hs, hlt, if_true]

/-! ### Rows as lists -/

theorem getElem?_insertAt {α : Type} (l : List α) (a : α) (i k : Nat) (hi : i ≤ l.length) :
    (l.take i ++ a :: l.drop i)[k]? =
      if k < i then l[k]? else if k = i then some a else l[k - 1]? := by
  have hlen : (l.take i).length = i := by rw [List.length_take]; omega
  rw [List.getElem?_append, hlen]
  by_cases h1 : k < i
  · rw [if_pos h1, if_pos h1, List.getElem?_take_of_lt h1]
  · rw [if_neg h1, if_neg h1]
    by_cases h2 : k = i
    · subst h2; simp
    · rw [if_neg h2]
      obtain ⟨d, hd⟩ : ∃ d, k - i = d + 1 := ⟨k - i - 1, by omega⟩
      rw [hd, List.getElem?_cons_succ, List.getElem?_drop]
      congr 1
      omega

theorem rowEntries_getElem? (m : SparseMat) (r k : Nat) :
    (m.rowEntries r)[k]? = if k < m.count.getD r 0 then m.buf[r * m.maxCols + k]? else none := by
  rw [SparseMat.rowEntries, List.getElem?_take, List.getElem?_drop]

theorem rowEntries_length (m : SparseMat) (r : Nat) (hwf : m.WF) (hr : r < m.rows) :
    (m.rowEntries r).length = m.count.getD r 0 := by
  have h1 := row_end_le m r hwf.1 hr
  have h2 := hwf.2.2 r hr
  rw [SparseMat.rowEntries, List.length_take, List.length_drop]
  omega

theorem rowEntries_length_le (m : SparseMat) (r : Nat) :
    (m.rowEntries r).length ≤ m.count.getD r 0 := by
  rw [SparseMat.rowEntries, List.length_take]
  omega

theorem count_getD_of_some (l : List Nat) (r c : Nat) (h : l[r]? = some c) : l.getD r 0 = c := by
  rw [List.getD_eq_getElem?_getD, h]; rfl

theorem count_getD_set (l : List Nat) (r r1 c : Nat) (hr : r < l.length) :
    (l.set r c).getD r1 0 = if r1 = r then c else l.getD r1 0 := by
  rw [List.getD_eq_getElem?_getD, List.getD_eq_getElem?_getD, List.getElem?_set]
  by_cases h : r = r1
  · subst h; simp [hr]
  · rw [if_neg h, if_neg (fun h1 => h h1.symm)]

theorem rowCols_getD (m : SparseMat) (r k : Nat) (hk : k < m.count.getD r 0) :
    (m.rowCols r).getD k (-1) = m.colAt r k := by
  rw [SparseMat.rowCols, List.getD_eq_getElem?_getD, List.getElem?_map, rowEntries_getElem?,
    if_pos hk, SparseMat.colAt]
  cases m.buf[r * m.maxCols + k]? <;> rfl

/-- The master fact about `insert` on rows: with room for two more entries the
call succeeds, the new entry lands at a position `i` the search allows, the
other used entries of the row keep their order around it, and every other row
keeps its entries. -/
theorem insert_row (m : SparseMat) (r : Nat) (idx : Int) (v : ℚ) (hwf : m.WF)
    (hr : r < m.rows) (hcap : m.count.getD r 0 + 1 < m.maxCols) :
    ∃ i m', m.insert (r : Int) idx v = some m' ∧ m'.WF ∧ m'.rows = m.rows ∧
      m'.maxCols = m.maxCols ∧ m'.count = m.count.set r (m.count.getD r 0 + 1) ∧
      i ≤ (m.rowEntries r).length ∧
      m'.rowEntries r = (m.rowEntries r).take i ++ ⟨idx, v⟩ :: (m.rowEntries r).drop i ∧
      (∀ r1, r1 ≠ r → m'.rowEntries r1 = m.rowEntries r1) ∧
      SearchPos (m.rowCols r) idx i := by
  obtain ⟨hlen, hcl, hcnt⟩ := hwf
  have hrc : r < m.count.length := by omega
  have hc : m.count[r]? = some (m.count.getD r 0) := by
    rw [List.getD_eq_getElem?_getD, List.getElem?_eq_getElem hrc]; rfl
  generalize hcdef : m.count.getD r 0 = c at hc hcap
  obtain ⟨i, m', hic, hins, hrows, hmc, hcount, hbl, hp, hchar⟩ :=
    insert_spec m r c idx v hlen hr hc hcap
  have hend := row_end_le m r hlen hr
  have hesl : (m.rowEntries r).length = c := by
    rw [rowEntries_length m r ⟨hlen, hcl, hcnt⟩ hr, hcdef]
  have hcolsl : (m.rowCols r).length = c := by rw [SparseMat.rowCols, List.length_map, hesl]
  refine ⟨i, m', hins, ⟨?_, ?_, ?_⟩, hrows, hmc, hcount, by omega, ?_, ?_, ?_⟩
  · rw [hbl, hlen, hrows, hmc]
  · rw [hcount, List.length_set, hcl, hrows]
  · intro r1 hr1
    rw [hcount, count_getD_set _ _ _ _ hrc, hmc]
    by_cases h : r1 = r
    · rw [if_pos h]; omega
    · rw [if_neg h]; exact hcnt r1 (by omega)
  · apply List.ext_getElem?
    intro k
    rw [getElem?_insertAt _ _ _ _ (by omega)]
    simp only [rowEntries_getElem?, hcount, count_getD_set _ _ _ _ hrc, hmc, hp, hcdef,
      if_true]
    split_ifs <;> first | rfl | (exfalso; omega) | (congr 1; omega)
  · intro r1 hr1
    apply List.ext_getElem?
    intro k
    rw [rowEntries_getElem?, rowEntries_getElem?, hcount, count_getD_set _ _ _ _ hrc,
      if_neg hr1, hmc]
    by_cases hk : k < m.count.getD r1 0
    · rw [if_pos hk, if_pos hk, hp]
      have hr1rows : r1 < m.rows := by
        by_contra hge
        have : m.count.getD r1 0 = 0 := by
          rw [List.getD_eq_getElem?_getD, List.getElem?_eq_none (by omega)]; rfl
        omega
      have hk2 := hcnt r1 hr1rows
      rcases Nat.lt_or_gt_of_ne hr1 with hlt | hgt
      · have : r1 * m.maxCols + m.maxCols ≤ r * m.maxCols := by
          calc r1 * m.maxCols + m.maxCols = (r1 + 1) * m.maxCols := by ring
            _ ≤ r * m.maxCols := Nat.mul_le_mul_right _ hlt
        rw [if_neg (by omega), if_neg (by omega)]
      · have : r * m.maxCols + m.maxCols ≤ r1 * m.maxCols := by
          calc r * m.maxCols + m.maxCols = (r + 1) * m.maxCols := by ring
            _ ≤ r1 * m.maxCols := Nat.mul_le_mul_right _ hgt
        rw [if_neg (by omega), if_neg (by omega)]
    · rw [if_neg hk, if_neg hk]
  · have hcol : ∀ k, k < c → (m.rowCols r).getD k (-1) = m.colAt r k :=
      fun k hk => rowCols_getD m r k (by omega)
    rcases hchar with ⟨h0, h1⟩ | ⟨h0, h1, h2, h3, h4⟩
    · left
      refine ⟨h0, ?_⟩
      rcases h1 with h1 | h1
      · left; omega
      · by_cases hc0 : c = 0
        · left; omega
        · right; rw [hcol 0 (by omega)]; exact h1
    · right
      refine ⟨by omega, by rw [hcol 0 h0]; exact h1, h2, ?_, ?_⟩
      · intro hi
        rw [hcol (i - 1) (by omega), hcol i (by omega)]
        exact h3 (by omega)
      · intro k hk1 hk2
        rw [hcol (k - 1) (by omega), hcol k (by omega)]
        exact h4 k hk1 hk2

/-! ### Order after an insert -/

theorem getD_mem (cols : List Int) (k : Nat) (hk : k < cols.length) : cols.getD k (-1) ∈ cols := by
  rw [List.getD_eq_getElem?_getD, List.getElem?_eq_getElem hk]
  exact List.getElem_mem hk

theorem getD_mono (cols : List Int) (hs : cols.Pairwise (· ≤ ·)) (a b : Nat) (hab : a ≤ b)
    (hb : b < cols.length) : cols.getD a (-1) ≤ cols.getD b (-1) := by
  rcases Nat.eq_or_lt_of_le hab with h | h
  · subst h; exact le_refl _
  · have ha : a < cols.length := by omega
    rw [List.getD_eq_getElem?_getD, List.getD_eq_getElem?_getD, List.getElem?_eq_getElem ha,
      List.getElem?_eq_getElem hb]
    exact List.pairwise_iff_getElem.mp hs a b ha hb h

theorem mem_take_getD (cols : List Int) (i : Nat) (a : Int) (h : a ∈ cols.take i) :
    ∃ k, k < i ∧ k < cols.length ∧ a = cols.getD k (-1) := by
  obtain ⟨k, hk, rfl⟩ := List.getElem_of_mem h
  rw [List.length_take] at hk
  refine ⟨k, by omega, by omega, ?_⟩
  rw [List.getElem_take, List.getD_eq_getElem?_getD, List.getElem?_eq_getElem (by omega)]
  rfl

theorem mem_drop_getD (cols : List Int) (i : Nat) (a : Int) (h : a ∈ cols.drop i) :
    ∃ k, i ≤ k ∧ k < cols.length ∧ a = cols.getD k (-1) := by
  obtain ⟨k, hk, rfl⟩ := List.getElem_of_mem h
  rw [List.length_drop] at hk
  refine ⟨i + k, by omega, by omega, ?_⟩
  rw [List.getElem_drop, List.getD_eq_getElem?_getD, List.getElem?_eq_getElem (by omega)]
  rfl

/-- In an ascending row that lacks the column `idx`, the position the search
ends at has every smaller column before it and every larger one after it. -/
theorem searchPos_splits (cols : List Int) (idx : Int) (i : Nat) (hpos : SearchPos cols idx i)
    (hs : cols.Pairwise (· ≤ ·)) (hn : idx ∉ cols) :
    (∀ a ∈ cols.take i, a < idx) ∧ (∀ b ∈ cols.drop i, idx < b) := by
  have hne : ∀ k, k < cols.length → cols.getD k (-1) ≠ idx :=
    fun k hk h => hn (h ▸ getD_mem cols k hk)
  rcases hpos with ⟨h0, h1⟩ | ⟨h0, h1, h2, h3, h4⟩
  · subst h0
    refine ⟨fun a ha => by simp at ha, ?_⟩
    intro b hb
    obtain ⟨k, _, hk, rfl⟩ := mem_drop_getD cols 0 b hb
    rcases h1 with h1 | h1
    · omega
    · have := getD_mono cols hs 0 k (Nat.zero_le _) hk
      have := hne k hk
      omega
  · have hL : ∀ k, k < i → k < cols.length → cols.getD k (-1) < idx := by
      intro k
      induction k with
      | zero => intro _ _; exact h1
      | succ k ih =>
        intro hk1 hk2
        have h5 := ih (by omega) (by omega)
        have h6 := h4 (k + 1) (by omega) hk1
        have h7 := hne (k + 1) hk2
        simp only [Nat.add_sub_cancel] at h6
        omega
    refine ⟨?_, ?_⟩
    · intro a ha
      obtain ⟨k, hk1, hk2, rfl⟩ := mem_take_getD cols i a ha
      exact hL k hk1 hk2
    · intro b hb
      obtain ⟨k, hk1, hk2, rfl⟩ := mem_drop_getD cols i b hb
      have h5 := (h3 (by omega)).2
      have := getD_mono cols hs i k hk1 hk2
      omega

theorem pairwise_insertAt (R : Int → Int → Prop) (hR1 : ∀ a b, R a b → a ≤ b)
    (hR2 : ∀ a b, a < b → R a b) (cols : List Int) (idx : Int) (i : Nat)
    (hpos : SearchPos cols idx i) (hs : cols.Pairwise R) (hn : idx ∉ cols) :
    (cols.take i ++ idx :: cols.drop i).Pairwise R := by
  have hle : cols.Pairwise (· ≤ ·) := hs.imp (fun {a b} h => hR1 a b h)
  obtain ⟨hL, hRt⟩ := searchPos_splits cols idx i hpos hle hn
  have hsplit : (cols.take i ++ cols.drop i).Pairwise R := by rw [List.take_append_drop]; exact hs
  rw [List.pairwise_append] at hsplit
  obtain ⟨h1, h2, h3⟩ := hsplit
  rw [List.pairwise_append]
  refine ⟨h1, List.pairwise_cons.mpr ⟨fun b hb => hR2 _ _ (hRt b hb), h2⟩, ?_⟩
  intro a ha b hb
  rcases List.mem_cons.mp hb with hb | hb
  · subst hb; exact hR2 _ _ (hL a ha)
  · exact h3 a ha b hb

/-- An `insert` of a column the row does not hold yet, with room for two more
entries: the call succeeds, the row gains exactly the new entry, an ascending
row stays ascending and a strictly ascending row stays strictly ascending;
the other rows keep their entries. -/
theorem insert_new_column (m : SparseMat) (r : Nat) (idx : Int) (v : ℚ) (hwf : m.WF)
    (hr : r < m.rows) (hcap : m.count.getD r 0 + 1 < m.maxCols) (hn : idx ∉ m.rowCols r) :
    ∃ m', m.insert (r : Int) idx v = some m' ∧ m'.WF ∧ m'.rows = m.rows ∧
      m'.maxCols = m.maxCols ∧ m'.count = m.count.set r (m.count.getD r 0 + 1) ∧
      (m'.rowEntries r).Perm (⟨idx, v⟩ :: m.rowEntries r) ∧
      (∀ r1, r1 ≠ r → m'.rowEntries r1 = m.rowEntries r1) ∧
      ((m.rowCols r).Pairwise (· ≤ ·) → (m'.rowCols r).Pairwise (· ≤ ·)) ∧
      ((m.rowCols r).Pairwise (· < ·) → (m'.rowCols r).Pairwise (· < ·)) := by
  obtain ⟨i, m', h1, h2, h3, h4, h5, h6, h7, h8, h9⟩ := insert_row m r idx v hwf hr hcap
  have hcols : m'.rowCols r = (m.rowCols r).take i ++ idx :: (m.rowCols r).drop i := by
    simp only [SparseMat.rowCols, h7, List.map_append, List.map_cons, List.map_take,
      List.map_drop]
  refine ⟨m', h1, h2, h3, h4, h5, ?_, h8, ?_, ?_⟩
  · rw [h7]
    refine List.perm_middle.trans ?_
    rw [List.take_append_drop]
  · intro hs
    rw [hcols]
    exact pairwise_insertAt (· ≤ ·) (fun _ _ h => h) (fun _ _ h => le_of_lt h) _ _ _ h9 hs hn
  · intro hs
    rw [hcols]
    exact pairwise_insertAt (· < ·) (fun _ _ h => le_of_lt h) (fun _ _ h => h) _ _ _ h9 hs hn

/-- Claim C4 as amended.  In a well-formed matrix, for a row whose used entries
are in ascending column order and which holds fewer than `maxCols - 1`
entries, and for a column that the row does not hold yet: `insert` succeeds,
the row gains exactly the new entry, and its used entries are in ascending
column order again (strictly ascending if they were). -/
theorem insert_keeps_ascending (m : SparseMat) (r : Nat) (idx : Int) (v : ℚ) (hwf : m.WF)
    (hr : r < m.rows) (hcap : m.count.getD r 0 + 1 < m.maxCols) (hn : idx ∉ m.rowCols r)
    (hs : (m.rowCols r).Pairwise (· ≤ ·)) :
    ∃ m', m.insert (r : Int) idx v = some m' ∧
      (m'.rowCols r).Pairwise (· ≤ ·) ∧
      (m'.rowEntries r).Perm (⟨idx, v⟩ :: m.rowEntries r) ∧
      ((m.rowCols r).Pairwise (· < ·) → (m'.rowCols r).Pairwise (· < ·)) :=
  let ⟨m', h1, _, _, _, _, h6, _, h8, h9⟩ := insert_new_column m r idx v hwf hr hcap hn
  ⟨m', h1, h8 hs, h6, h9⟩

/-! ## Facts about `makeIndex` -/

theorem trueBefore_succ (mask : Mat Nat) (p : Nat) :
    trueBefore mask (p + 1) = trueBefore mask p + if maskAt mask p then 1 else 0 := by
  simp only [trueBefore, List.range_succ, List.countP_append, List.countP_cons, List.countP_nil,
    Nat.zero_add]

theorem trueBefore_mono (mask : Mat Nat) (p q : Nat) (h : p ≤ q) :
    trueBefore mask p ≤ trueBefore mask q := by
  induction q with
  | zero => have : p = 0 := by omega
            subst this; exact le_refl _
  | succ q ih =>
    rcases Nat.eq_or_lt_of_le h with h1 | h1
    · subst h1; exact le_refl _
    · have := ih (by omega)
      rw [trueBefore_succ]
      omega

theorem trueBefore_lt (mask : Mat Nat) (p q : Nat) (h : p < q) (hp : maskAt mask p = true) :
    trueBefore mask p < trueBefore mask q := by
  have h1 := trueBefore_mono mask (p + 1) q h
  rw [trueBefore_succ, hp] at h1
  simp only [if_true] at h1
  omega

theorem trueBefore_inj (mask : Mat Nat) (p q : Nat) (hp : maskAt mask p = true)
    (hq : maskAt mask q = true) (h : trueBefore mask p = trueBefore mask q) : p = q := by
  rcases Nat.lt_trichotomy p q with h1 | h1 | h1
  · have := trueBefore_lt mask p q h1 hp; omega
  · exact h1
  · have := trueBefore_lt mask q p h1 hq; omega

theorem trueBefore_surj (mask : Mat Nat) (n v : Nat) (hv : v < trueBefore mask n) :
    ∃ p, p < n ∧ maskAt mask p = true ∧ trueBefore mask p = v := by
  induction n with
  | zero => simp [trueBefore] at hv
  | succ n ih =>
    by_cases h : v < trueBefore mask n
    · obtain ⟨p, h1, h2, h3⟩ := ih h
      exact ⟨p, by omega, h2, h3⟩
    · rw [trueBefore_succ] at hv
      by_cases hb : maskAt mask n = true
      · rw [hb] at hv
        simp only [if_true] at hv
        exact ⟨n, by omega, hb, by omega⟩
      · rw [Bool.not_eq_true] at hb
        rw [hb] at hv
        simp at hv
        omega

theorem pos_div (c i j : Nat) (hj : j < c) : (i * c + j) / c = i := by
  rw [Nat.mul_comm, Nat.mul_add_div (by omega), Nat.div_eq_of_lt hj, Nat.add_zero]

theorem pos_mod (c i j : Nat) (hj : j < c) : (i * c + j) % c = j := by
  rw [Nat.mul_comm, Nat.mul_add_mod, Nat.mod_eq_of_lt hj]

theorem maskAt_pos (mask : Mat Nat) (i j : Nat) (hj : j < mask.cols) :
    maskAt mask (i * mask.cols + j) = decide (mask.px i j ≠ 0) := by
  rw [maskAt, pos_div _ _ _ hj, pos_mod _ _ _ hj]

/-- The inner loop of `makeIndex` over the first `n` cells of row `i`. -/
theorem makeIndex_row (mask : Mat Nat) (i : Nat) (st : Mat Int × Nat)
    (hst : st.2 = trueBefore mask (i * mask.cols)) : ∀ n, n ≤ mask.cols →
    (forLoop n
      (fun j st => if mask.px i j ≠ 0 then (st.1.set i j (st.2 : Int), st.2 + 1) else st)
      st).2 = trueBefore mask (i * mask.cols + n) ∧
    (forLoop n
      (fun j st => if mask.px i j ≠ 0 then (st.1.set i j (st.2 : Int), st.2 + 1) else st)
      st).1.rows = st.1.rows ∧
    (forLoop n
      (fun j st => if mask.px i j ≠ 0 then (st.1.set i j (st.2 : Int), st.2 + 1) else st)
      st).1.cols = st.1.cols ∧
    ∀ a b, (forLoop n
      (fun j st => if mask.px i j ≠ 0 then (st.1.set i j (st.2 : Int), st.2 + 1) else st)
      st).1.px a b =
        if a = i ∧ b < n ∧ mask.px i b ≠ 0 then (trueBefore mask (i * mask.cols + b) : Int)
        else st.1.px a b := by
  intro n
  induction n with
  | zero =>
    intro _
    refine ⟨hst, rfl, rfl, fun a b => ?_⟩
    rw [if_neg (by omega)]
    rfl
  | succ n ih =>
    intro hn
    obtain ⟨h1, h2, h3, h4⟩ := ih (by omega)
    have hbit := maskAt_pos mask i n (by omega)
    simp only [forLoop]
    by_cases hm : mask.px i n ≠ 0
    · rw [if_pos hm]
      refine ⟨?_, h2, h3, fun a b => ?_⟩
      · show _ + 1 = _
        rw [h1, ← Nat.add_assoc, trueBefore_succ, hbit]
        simp [hm]
      · show (if a = i ∧ b = n then _ else _) = _
        by_cases hab : a = i ∧ b = n
        · rw [if_pos hab, h1, hab.1, hab.2, if_pos ⟨rfl, by omega, hm⟩]
        · rw [if_neg hab, h4]
          by_cases hc : a = i ∧ b < n ∧ mask.px i b ≠ 0
          · rw [if_pos hc, if_pos ⟨hc.1, by omega, hc.2.2⟩]
          · rw [if_neg hc, if_neg]
            intro hd
            apply hc
            refine ⟨hd.1, ?_, hd.2.2⟩
            have : b ≠ n := fun hbn => hab ⟨hd.1, hbn⟩
            omega
    · rw [if_neg hm]
      refine ⟨?_, h2, h3, fun a b => ?_⟩
      · rw [h1, ← Nat.add_assoc, trueBefore_succ, hbit]
        simp [hm]
      · rw [h4]
        by_cases hc : a = i ∧ b < n ∧ mask.px i b ≠ 0
        · rw [if_pos hc, if_pos ⟨hc.1, by omega, hc.2.2⟩]
        · rw [if_neg hc, if_neg]
          intro hd
          apply hc
          refine ⟨hd.1, ?_, hd.2.2⟩
          have : b ≠ n := by
            intro hbn
            rw [hbn] at hd
            exact hm hd.2.2
          omega

/-- The outer loop of `makeIndex` over the first `n` rows. -/
theorem makeIndex_rows (mask : Mat Nat) : ∀ n, n ≤ mask.rows →
    (forLoop n
      (fun i st =>
        forLoop mask.cols
          (fun j st => if mask.px i j ≠ 0 then (st.1.set i j (st.2 : Int), st.2 + 1) else st)
          st)
      (({ rows := mask.rows, cols := mask.cols, px := fun _ _ => -1 } : Mat Int), (0 : Nat))).2 =
        trueBefore mask (n * mask.cols) ∧
    (forLoop n
      (fun i st =>
        forLoop mask.cols
          (fun j st => if mask.px i j ≠ 0 then (st.1.set i j (st.2 : Int), st.2 + 1) else st)
          st)
      (({ rows := mask.rows, cols := mask.cols, px := fun _ _ => -1 } : Mat Int), (0 : Nat))).1.rows =
        mask.rows ∧
    (forLoop n
      (fun i st =>
        forLoop mask.cols
          (fun j st => if mask.px i j ≠ 0 then (st.1.set i j (st.2 : Int), st.2 + 1) else st)
          st)
      (({ rows := mask.rows, cols := mask.cols, px := fun _ _ => -1 } : Mat Int), (0 : Nat))).1.cols =
        mask.cols ∧
    ∀ a b, (forLoop n
      (fun i st =>
        forLoop mask.cols
          (fun j st => if mask.px i j ≠ 0 then (st.1.set i j (st.2 : Int), st.2 + 1) else st)
          st)
      (({ rows := mask.rows, cols := mask.cols, px := fun _ _ => -1 } : Mat Int), (0 : Nat))).1.px a b =
        if a < n ∧ b < mask.cols ∧ mask.px a b ≠ 0 then
          (trueBefore mask (a * mask.cols + b) : Int)
        else -1 := by
  intro n
  induction n with
  | zero =>
    intro _
    refine ⟨by simp [forLoop, trueBefore], rfl, rfl, fun a b => ?_⟩
    rw [if_neg (by omega)]
    rfl
  | succ n ih =>
    intro hn
    obtain ⟨h1, h2, h3, h4⟩ := ih (by omega)
    simp only [forLoop]
    obtain ⟨g1, g2, g3, g4⟩ := makeIndex_row mask n _ h1 mask.cols (le_refl _)
    refine ⟨?_, g2.trans h2, g3.trans h3, fun a b => ?_⟩
    · rw [g1]
      congr 1
      ring
    · rw [g4, h4]
      by_cases hc : a = n ∧ b < mask.cols ∧ mask.px n b ≠ 0
      · obtain ⟨rfl, hc2, hc3⟩ := hc
        rw [if_pos ⟨rfl, hc2, hc3⟩, if_pos ⟨by omega, hc2, hc3⟩]
      · rw [if_neg hc]
        by_cases hd : a < n ∧ b < mask.cols ∧ mask.px a b ≠ 0
        · rw [if_pos hd, if_pos ⟨by omega, hd.2⟩]
        · rw [if_neg hd, if_neg]
          intro he
          by_cases han : a = n
          · subst han; exact hc ⟨rfl, he.2⟩
          · exact hd ⟨by omega, he.2⟩

/-- What `makeIndex` returns on a mask with data, in one statement. -/
theorem makeIndex_eq (mask : Mat Nat) (h : mask.hasData = true) :
    ∃ index, makeIndex mask = some (index, trueBefore mask (mask.rows * mask.cols)) ∧
      index.rows = mask.rows ∧ index.cols = mask.cols ∧
      ∀ i j, i < mask.rows → j < mask.cols →
        index.px i j =
          if mask.px i j ≠ 0 then (trueBefore mask (i * mask.cols + j) : Int) else -1 := by
  obtain ⟨h1, h2, h3, h4⟩ := makeIndex_rows mask mask.rows (le_refl _)
  refine ⟨_, ?_, h2, h3, ?_⟩
  · rw [makeIndex]
    simp only [h, Bool.true_eq_false, if_false]
    rw [← h1]
  · intro i j hi hj
    rw [h4]
    by_cases hm : mask.px i j ≠ 0
    · rw [if_pos hm, if_pos ⟨hi, hj, hm⟩]
    · rw [if_neg hm, if_neg (fun hc => hm hc.2.2)]

theorem pos_lt (rows cols i j : Nat) (hi : i < rows) (hj : j < cols) :
    i * cols + j < rows * cols := by
  calc i * cols + j < i * cols + cols := by omega
    _ = (i + 1) * cols := by ring
    _ ≤ rows * cols := Nat.mul_le_mul_right _ hi

/-- Claim C5.  On every non-empty mask `makeIndex` returns a grid of the
mask's size and a count such that every false cell holds `-1`, every true
cell holds the number of true cells before it in row-major order, the count
is the number of true cells, every true cell's value lies in `[0, count)`,
and every value of `[0, count)` is held by exactly one cell. -/
theorem makeIndex_spec (mask : Mat Nat) (h : mask.hasData = true) :
    ∃ index numElems, makeIndex mask = some (index, numElems) ∧
      index.rows = mask.rows ∧ index.cols = mask.cols ∧
      numElems = trueBefore mask (mask.rows * mask.cols) ∧
      (∀ i j, i < mask.rows → j < mask.cols → mask.px i j = 0 → index.px i j = -1) ∧
      (∀ i j, i < mask.rows → j < mask.cols → mask.px i j ≠ 0 →
        index.px i j = (trueBefore mask (i * mask.cols + j) : Int) ∧
        0 ≤ index.px i j ∧ index.px i j < (numElems : Int)) ∧
      (∀ v : Nat, v < numElems →
        ∃ i j, (i < mask.rows ∧ j < mask.cols ∧ index.px i j = (v : Int)) ∧
          ∀ i1 j1, i1 < mask.rows → j1 < mask.cols → index.px i1 j1 = (v : Int) →
            i1 = i ∧ j1 = j) := by
  obtain ⟨index, h1, h2, h3, h4⟩ := makeIndex_eq mask h
  refine ⟨index, _, h1, h2, h3, rfl, ?_, ?_, ?_⟩
  · intro i j hi hj hm
    rw [h4 i j hi hj, if_neg (by simp [hm])]
  · intro i j hi hj hm
    rw [h4 i j hi hj, if_pos hm]
    refine ⟨rfl, Int.natCast_nonneg _, ?_⟩
    have hb : maskAt mask (i * mask.cols + j) = true := by
      rw [maskAt_pos mask i j hj]; simpa using hm
    exact_mod_cast trueBefore_lt mask _ _ (pos_lt _ _ i j hi hj) hb
  · intro v hv
    obtain ⟨p, hp1, hp2, hp3⟩ := trueBefore_surj mask _ v hv
    have hcpos : 0 < mask.cols := by
      rcases Nat.eq_zero_or_pos mask.cols with h0 | h0
      · rw [h0] at hp1; simp at hp1
      · exact h0
    have hi : p / mask.cols < mask.rows := Nat.div_lt_of_lt_mul (by rw [Nat.mul_comm]; exact hp1)
    have hj : p % mask.cols < mask.cols := Nat.mod_lt _ hcpos
    have hpe : p / mask.cols * mask.cols + p % mask.cols = p := by
      rw [Nat.mul_comm]; exact Nat.div_add_mod p mask.cols
    have hm : mask.px (p / mask.cols) (p % mask.cols) ≠ 0 := by
      simpa [maskAt] using hp2
    refine ⟨p / mask.cols, p % mask.cols, ⟨hi, hj, ?_⟩, ?_⟩
    · rw [h4 _ _ hi hj, if_pos hm, hpe, hp3]
    · intro i1 j1 hi1 hj1 he
      rw [h4 _ _ hi1 hj1] at he
      by_cases hm1 : mask.px i1 j1 ≠ 0
      · rw [if_pos hm1] at he
        have hb1 : maskAt mask (i1 * mask.cols + j1) = true := by
          rw [maskAt_pos mask i1 j1 hj1]; simpa using hm1
        have hq : i1 * mask.cols + j1 = p :=
          trueBefore_inj mask _ _ hb1 hp2 (by rw [hp3]; exact_mod_cast he)
        rw [← hq]
        exact ⟨(pos_div _ _ _ hj1).symm, (pos_mod _ _ _ hj1).symm⟩
      · rw [if_neg hm1] at he
        omega

/-! ## Several inserts into one row -/

theorem insertAll_append (m : SparseMat) (row : Int) (l1 l2 : List (Int × ℚ)) :
    m.insertAll row (l1 ++ l2) = (m.insertAll row l1).bind (fun m1 => m1.insertAll row l2) := by
  induction l1 generalizing m with
  | nil => rfl
  | cons p ps ih =>
    simp only [List.cons_append, SparseMat.insertAll]
    cases m.insert row p.1 p.2 with
    | none => rfl
    | some m1 => exact ih m1

theorem count_getD_lt_length (l : List Nat) (r : Nat) (h : r < l.length) :
    l[r]? = some (l.getD r 0) := by
  rw [List.getD_eq_getElem?_getD, List.getElem?_eq_getElem h]; rfl

/-- Inserting pairs with pairwise distinct columns, none of them in the row
yet, into a row that keeps one slot of slack: every insert succeeds, the row
gains exactly the pairs, a strictly ascending row stays strictly ascending,
and the other rows keep their entries and counts. -/
theorem insertAll_new_columns (r : Nat) (pairs : List (Int × ℚ)) : ∀ (m : SparseMat),
    m.WF → r < m.rows → m.count.getD r 0 + pairs.length < m.maxCols →
    (pairs.map Prod.fst).Nodup → (∀ p ∈ pairs, p.1 ∉ m.rowCols r) →
    ∃ m', m.insertAll (r : Int) pairs = some m' ∧ m'.WF ∧ m'.rows = m.rows ∧
      m'.maxCols = m.maxCols ∧
      m'.count.getD r 0 = m.count.getD r 0 + pairs.length ∧
      (∀ r1, r1 ≠ r → m'.count.getD r1 0 = m.count.getD r1 0) ∧
      (m'.rowEntries r).Perm (pairs.map (fun p => ⟨p.1, p.2⟩) ++ m.rowEntries r) ∧
      (∀ r1, r1 ≠ r → m'.rowEntries r1 = m.rowEntries r1) ∧
      ((m.rowCols r).Pairwise (· < ·) → (m'.rowCols r).Pairwise (· < ·)) := by
  induction pairs with
  | nil =>
    intro m hwf _ _ _ _
    exact ⟨m, rfl, hwf, rfl, rfl, rfl, fun _ _ => rfl, List.Perm.refl _, fun _ _ => rfl,
      fun h => h⟩
  | cons p ps ih =>
    intro m hwf hr hcap hnd hnot
    simp only [List.length_cons] at hcap
    simp only [List.map_cons, List.nodup_cons] at hnd
    obtain ⟨m1, h1, h2, h3, h4, h5, h6, h7, _, h9⟩ :=
      insert_new_column m r p.1 p.2 hwf hr (by omega) (hnot p (List.mem_cons_self _ _))
    have hrc : r < m.count.length := by rw [hwf.2.1]; exact hr
    have hc1 : m1.count.getD r 0 = m.count.getD r 0 + 1 := by
      rw [h5, count_getD_set _ _ _ _ hrc, if_pos rfl]
    have hcols1 : (m1.rowCols r).Perm (p.1 :: m.rowCols r) := by
      have := h6.map IndexedValue.index
      simpa [SparseMat.rowCols] using this
    obtain ⟨m', g1, g2, g3, g4, g5, g6, g7, g8, g9⟩ := ih m1 h2 (by rw [h3]; exact hr)
      (by rw [hc1, h4]; omega) hnd.2
      (by
        intro q hq hmem
        rcases List.mem_cons.mp (hcols1.mem_iff.mp hmem) with h | h
        · exact hnd.1 (h ▸ List.mem_map_of_mem Prod.fst hq)
        · exact hnot q (List.mem_cons_of_mem _ hq) h)
    refine ⟨m', ?_, g2, g3.trans h3, g4.trans h4, ?_, ?_, ?_, ?_, fun hs => g9 (h9 hs)⟩
    · simp only [SparseMat.insertAll, h1, Option.some_bind]
      exact g1
    · rw [g5, hc1, List.length_cons]; omega
    · intro r1 hr1
      rw [g6 r1 hr1, h5, count_getD_set _ _ _ _ hrc, if_neg hr1]
    · refine g7.trans ?_
      simp only [List.map_cons, List.cons_append]
      refine (List.Perm.append_left _ h6).trans ?_
      exact List.perm_middle
    · intro r1 hr1
      rw [g8 r1 hr1, h7 r1 hr1]

/-! ## Facts about `getEquation` -/

theorem blockFold_append (src dst mask : Mat Nat) (index : Mat Int) (currIndex currSrcVal : Int)
    (L1 L2 : List (Nat × Nat)) (s : SparseMat × Nat × Int) :
    blockFold src dst mask index currIndex currSrcVal (L1 ++ L2) s =
      (blockFold src dst mask index currIndex currSrcVal L1 s).bind
        (blockFold src dst mask index currIndex currSrcVal L2) := by
  induction L1 generalizing s with
  | nil => rfl
  | cons n L ih =>
    simp only [List.cons_append, blockFold]
    cases neighbourBlock src dst mask index currIndex currSrcVal n.1 n.2 s with
    | none => rfl
    | some s1 => exact ih s1

theorem blockFold_eq (src dst mask : Mat Nat) (index : Mat Int) (currIndex : Int) (i j : Nat)
    (L : List (Nat × Nat)) : ∀ (s : SparseMat × Nat × Int),
    blockFold src dst mask index currIndex (src.px i j : Int) L s =
      (s.1.insertAll currIndex (neighbourPairs mask index L)).map
        (fun A1 => (A1, s.2.1 + L.length, s.2.2 + rhsOver src dst mask i j L)) := by
  induction L with
  | nil =>
    intro s
    simp [blockFold, neighbourPairs, SparseMat.insertAll, rhsOver]
  | cons n L ih =>
    intro s
    simp only [blockFold, neighbourBlock]
    have e3 : (n :: L).length = L.length + 1 := rfl
    by_cases hm : mask.px n.1 n.2 ≠ 0
    · have hd : decide (mask.px n.1 n.2 ≠ 0) = true := decide_eq_true hm
      have hd0 : decide (mask.px n.1 n.2 = 0) = false := decide_eq_false hm
      have e1 : neighbourPairs mask index (n :: L) =
          (index.px n.1 n.2, (-1 : ℚ)) :: neighbourPairs mask index L := by
        simp only [neighbourPairs, List.filter_cons, hd, if_true, List.map_cons]
      have e2 : rhsOver src dst mask i j (n :: L) =
          ((src.px i j : Int) - (src.px n.1 n.2 : Int)) + rhsOver src dst mask i j L := by
        simp only [rhsOver, List.map_cons, List.sum_cons, List.filter_cons, hd0,
          Bool.false_eq_true, if_false]
        ring
      rw [if_pos hm, e1, e2, e3, SparseMat.insertAll]
      cases s.1.insert currIndex (index.px n.1 n.2) (-1) with
      | none => rfl
      | some A1 =>
        simp only [Option.map_some', Option.some_bind, ih]
        cases A1.insertAll currIndex (neighbourPairs mask index L) with
        | none => rfl
        | some A2 =>
          simp only [Option.map_some', Option.some.injEq, Prod.mk.injEq, true_and]
          constructor
          · omega
          · ring
    · have hm0 : mask.px n.1 n.2 = 0 := by
        by_contra h; exact hm h
      have hd : decide (mask.px n.1 n.2 ≠ 0) = false := decide_eq_false hm
      have hd0 : decide (mask.px n.1 n.2 = 0) = true := decide_eq_true hm0
      have e1 : neighbourPairs mask index (n :: L) = neighbourPairs mask index L := by
        simp only [neighbourPairs, List.filter_cons, hd, Bool.false_eq_true, if_false]
      have e2 : rhsOver src dst mask i j (n :: L) =
          (dst.px n.1 n.2 : Int) + ((src.px i j : Int) - (src.px n.1 n.2 : Int)) +
            rhsOver src dst mask i j L := by
        simp only [rhsOver, List.map_cons, List.sum_cons, List.filter_cons, hd0, if_true]
        ring
      rw [if_neg hm, e1, e2, e3]
      simp only [Option.some_bind, ih]
      cases s.1.insertAll currIndex (neighbourPairs mask index L) with
      | none => rfl
      | some A2 =>
        simp only [Option.map_some', Option.some.injEq, Prod.mk.injEq, true_and]
        constructor
        · omega
        · ring

theorem guard_block (src dst mask : Mat Nat) (index : Mat Int) (currIndex currSrcVal : Int)
    (g : Prop) [Decidable g] (a b : Nat) (s : SparseMat × Nat × Int) :
    (if g then neighbourBlock src dst mask index currIndex currSrcVal a b s else some s) =
      blockFold src dst mask index currIndex currSrcVal (if g then [(a, b)] else []) s := by
  by_cases h : g
  · rw [if_pos h, if_pos h]
    simp only [blockFold]
    cases neighbourBlock src dst mask index currIndex currSrcVal a b s <;> rfl
  · rw [if_neg h, if_neg h]
    rfl

/-- The body of the pixel loop at a masked pixel, as one batch of inserts into
the pixel's row followed by the two vector writes. -/
theorem getEquationPixel_eq (src dst mask : Mat Nat) (index : Mat Int) (i j : Nat)
    (st : SparseMat × List ℚ × List ℚ) (hm : mask.px i j ≠ 0) :
    getEquationPixel src dst mask index i j st =
      (st.1.insertAll (index.px i j)
        (neighbourPairs mask index (neighbours src.rows src.cols i j) ++
          [(index.px i j, ((neighbours src.rows src.cols i j).length : ℚ))])).bind fun A5 =>
      (setAt st.2.1 (index.px i j)
        ((rhsOver src dst mask i j (neighbours src.rows src.cols i j) : Int) : ℚ)).bind fun b1 =>
      (setAt st.2.2 (index.px i j) ((dst.px i j : Nat) : ℚ)).bind fun x1 =>
      some (A5, b1, x1) := by
  rw [getEquationPixel, if_pos hm]
  simp only [guard_block]
  rw [← Option.bind_assoc, ← blockFold_append, ← Option.bind_assoc, ← blockFold_append,
    ← Option.bind_assoc, ← blockFold_append, blockFold_eq, insertAll_append]
  show _ = _
  rw [neighbours]
  cases st.1.insertAll (index.px i j) (neighbourPairs mask index
      ((if i > 0 then [(i - 1, j)] else []) ++ (if i + 1 < src.rows then [(i + 1, j)] else []) ++
        (if j > 0 then [(i, j - 1)] else []) ++ (if j + 1 < src.cols then [(i, j + 1)] else []))) with
  | none => rfl
  | some A4 =>
    simp only [Option.map_some', Option.some_bind, SparseMat.insertAll, Nat.zero_add, zero_add]
    cases A4.insert (index.px i j) (index.px i j) _ <;> rfl

theorem neighbours_mem (rows cols i j : Nat) (hi : i < rows) (hj : j < cols) (n : Nat × Nat)
    (h : n ∈ neighbours rows cols i j) :
    n.1 < rows ∧ n.2 < cols ∧ n ≠ (i, j) := by
  obtain ⟨a, b⟩ := n
  simp only [neighbours, List.mem_append] at h
  simp only [ne_eq, Prod.mk.injEq]
  rcases h with ((h | h) | h) | h
  · by_cases g : i > 0
    · rw [if_pos g] at h
      simp only [List.mem_singleton, Prod.mk.injEq] at h
      omega
    · rw [if_neg g] at h; simp at h
  · by_cases g : i + 1 < rows
    · rw [if_pos g] at h
      simp only [List.mem_singleton, Prod.mk.injEq] at h
      omega
    · rw [if_neg g] at h; simp at h
  · by_cases g : j > 0
    · rw [if_pos g] at h
      simp only [List.mem_singleton, Prod.mk.injEq] at h
      omega
    · rw [if_neg g] at h; simp at h
  · by_cases g : j + 1 < cols
    · rw [if_pos g] at h
      simp only [List.mem_singleton, Prod.mk.injEq] at h
      omega
    · rw [if_neg g] at h; simp at h

theorem neighbours_nodup (rows cols i j : Nat) : (neighbours rows cols i j).Nodup := by
  rw [neighbours]
  by_cases g1 : i > 0 <;> by_cases g2 : i + 1 < rows <;> by_cases g3 : j > 0 <;>
    by_cases g4 : j + 1 < cols <;>
    simp only [g1, g2, g3, g4, if_true, if_false, List.nil_append, List.append_nil,
      List.singleton_append, List.cons_append, List.nodup_cons, List.mem_cons,
      List.mem_singleton, Prod.mk.injEq, List.not_mem_nil, List.nodup_nil, not_false_eq_true,
      and_true, or_false, not_or] <;>
    omega

theorem neighbours_length_le (rows cols i j : Nat) : (neighbours rows cols i j).length ≤ 4 := by
  rw [neighbours]
  by_cases g1 : i > 0 <;> by_cases g2 : i + 1 < rows <;> by_cases g3 : j > 0 <;>
    by_cases g4 : j + 1 < cols <;>
    simp [g1, g2, g3, g4]

theorem neighbours_length_pos (rows cols i j : Nat) (hi : i < rows) (hj : j < cols)
    (h2 : 2 ≤ rows * cols) : 1 ≤ (neighbours rows cols i j).length := by
  have hsmall : ¬ (rows = 1 ∧ cols = 1) := by
    rintro ⟨h, h1⟩
    rw [h, h1] at h2
    omega
  rw [neighbours]
  by_cases g1 : i > 0 <;> by_cases g2 : i + 1 < rows <;> by_cases g3 : j > 0 <;>
    by_cases g4 : j + 1 < cols <;>
    (simp [g1, g2, g3, g4]; try omega)

theorem expectedRow_eq (mask : Mat Nat) (index : Mat Int) (i j : Nat) :
    (neighbourPairs mask index (neighbours mask.rows mask.cols i j) ++
      [(index.px i j, ((neighbours mask.rows mask.cols i j).length : ℚ))]).map
        (fun p => (⟨p.1, p.2⟩ : IndexedValue)) = expectedRow mask index i j := by
  simp only [neighbourPairs, expectedRow, List.map_append, List.map_map, List.map_cons,
    List.map_nil]
  rfl

theorem expectedRow_length_le (mask : Mat Nat) (index : Mat Int) (i j : Nat) :
    (expectedRow mask index i j).length ≤ 5 := by
  have h1 := neighbours_length_le mask.rows mask.cols i j
  have h2 := List.length_filter_le (fun n : Nat × Nat => decide (mask.px n.1 n.2 ≠ 0))
    (neighbours mask.rows mask.cols i j)
  simp only [expectedRow, List.length_append, List.length_map, List.length_singleton]
  omega

theorem pos_inj (cols i j a c : Nat) (hj : j < cols) (hc : c < cols)
    (h : i * cols + j = a * cols + c) : i = a ∧ j = c := by
  have h1 := pos_div cols i j hj
  have h2 := pos_mod cols i j hj
  rw [h, pos_div cols a c hc] at h1
  rw [h, pos_mod cols a c hc] at h2
  exact ⟨h1.symm, h2.symm⟩

theorem maskAt_true (mask : Mat Nat) (i j : Nat) (hj : j < mask.cols) (hm : mask.px i j ≠ 0) :
    maskAt mask (i * mask.cols + j) = true := by
  rw [maskAt_pos mask i j hj]; exact decide_eq_true hm

theorem index_inj (mask : Mat Nat) (index : Mat Int) (hix : IndexOK mask index) (i j a c : Nat)
    (hi : i < mask.rows) (hj : j < mask.cols) (ha : a < mask.rows) (hc : c < mask.cols)
    (hm : mask.px i j ≠ 0) (hm1 : mask.px a c ≠ 0) (h : index.px i j = index.px a c) :
    i = a ∧ j = c := by
  rw [hix.2.2 i j hi hj, hix.2.2 a c ha hc, if_pos hm, if_pos hm1] at h
  exact pos_inj _ _ _ _ _ hj hc
    (trueBefore_inj mask _ _ (maskAt_true mask i j hj hm) (maskAt_true mask a c hc hm1)
      (by exact_mod_cast h))

/-- The columns that the pixel body inserts into the row of a masked pixel are
pairwise distinct. -/
theorem cell_cols_nodup (mask : Mat Nat) (index : Mat Int) (hix : IndexOK mask index) (i j : Nat)
    (hi : i < mask.rows) (hj : j < mask.cols) (hm : mask.px i j ≠ 0) (d : ℚ) :
    ((neighbourPairs mask index (neighbours mask.rows mask.cols i j) ++
      [(index.px i j, d)]).map Prod.fst).Nodup := by
  have e : (neighbourPairs mask index (neighbours mask.rows mask.cols i j) ++
      [(index.px i j, d)]).map Prod.fst =
      (((neighbours mask.rows mask.cols i j).filter (fun n => decide (mask.px n.1 n.2 ≠ 0))) ++
        [(i, j)]).map (fun n => index.px n.1 n.2) := by
    simp only [neighbourPairs, List.map_append, List.map_map, List.map_cons, List.map_nil]
    rfl
  rw [e]
  have hcell : ∀ n ∈ ((neighbours mask.rows mask.cols i j).filter
      (fun n => decide (mask.px n.1 n.2 ≠ 0))) ++ [(i, j)],
      n.1 < mask.rows ∧ n.2 < mask.cols ∧ mask.px n.1 n.2 ≠ 0 := by
    intro n hn
    rcases List.mem_append.mp hn with h | h
    · obtain ⟨h1, h2⟩ := List.mem_filter.mp h
      obtain ⟨g1, g2, _⟩ := neighbours_mem _ _ i j hi hj n h1
      exact ⟨g1, g2, of_decide_eq_true h2⟩
    · rw [List.mem_singleton] at h
      subst h
      exact ⟨hi, hj, hm⟩
  apply List.Nodup.map_on
  · intro x hx y hy hxy
    obtain ⟨x1, x2, x3⟩ := hcell x hx
    obtain ⟨y1, y2, y3⟩ := hcell y hy
    obtain ⟨g1, g2⟩ := index_inj mask index hix _ _ _ _ x1 x2 y1 y2 x3 y3 hxy
    exact Prod.ext g1 g2
  · rw [List.nodup_append]
    refine ⟨(neighbours_nodup _ _ i j).filter _, List.nodup_singleton _, ?_⟩
    intro n hn hn2
    rw [List.mem_singleton] at hn2
    exact (neighbours_mem _ _ i j hi hj n (List.mem_filter.mp hn).1).2.2 hn2

theorem setAt_natCast (v : List ℚ) (k : Nat) (a : ℚ) (hk : k < v.length) :
    setAt v (k : Int) a = some (v.set k a) := by
  have h : 0 ≤ (k : Int) ∧ (k : Int).toNat < v.length := ⟨Int.natCast_nonneg _, by simpa using hk⟩
  rw [setAt, if_pos h, Int.toNat_ofNat]

theorem rowEntries_of_count_zero (m : SparseMat) (r : Nat) (h : m.count.getD r 0 = 0) :
    m.rowEntries r = [] := by
  have := rowEntries_length_le m r
  exact List.length_eq_zero.mp (by omega)

/-- One pass of the pixel body of `getEquation` keeps the loop invariant. -/
theorem getEquation_step (src dst mask : Mat Nat) (index : Mat Int) (hix : IndexOK mask index)
    (hs1 : src.rows = mask.rows) (hs2 : src.cols = mask.cols) (i j : Nat) (hi : i < mask.rows)
    (hj : j < mask.cols) (st : SparseMat × List ℚ × List ℚ)
    (hinv : GEInv src dst mask index (i * mask.cols + j) st) :
    ∃ st', getEquationPixel src dst mask index i j st = some st' ∧
      GEInv src dst mask index (i * mask.cols + j + 1) st' := by
  obtain ⟨hwf, hrows, hmc, hbl, hxl, hcells⟩ := hinv
  by_cases hm : mask.px i j ≠ 0
  · -- a masked pixel: its row is filled
    have hbit := maskAt_true mask i j hj hm
    have hk : trueBefore mask (i * mask.cols + j) < trueBefore mask (mask.rows * mask.cols) :=
      trueBefore_lt mask _ _ (pos_lt _ _ i j hi hj) hbit
    have hidx : index.px i j = (trueBefore mask (i * mask.cols + j) : Int) := by
      rw [hix.2.2 i j hi hj, if_pos hm]
    have hc0 := (hcells i j hi hj hm).2 (le_refl _)
    have hrow0 := rowEntries_of_count_zero st.1 _ hc0
    have hlen5 := expectedRow_length_le mask index i j
    rw [← expectedRow_eq, List.length_map] at hlen5
    have hnd := cell_cols_nodup mask index hix i j hi hj hm
      ((neighbours mask.rows mask.cols i j).length : ℚ)
    rw [hidx] at hnd hlen5
    obtain ⟨A', g1, g2, g3, g4, g5, g6, g7, g8, g9⟩ :=
      insertAll_new_columns (trueBefore mask (i * mask.cols + j)) _ st.1 hwf
        (by rw [hrows]; exact hk) (by rw [hc0, hmc]; omega) hnd
        (by intro q _; rw [SparseMat.rowCols, hrow0]; simp)
    refine ⟨(A', st.2.1.set (trueBefore mask (i * mask.cols + j))
        ((rhsOver src dst mask i j (neighbours mask.rows mask.cols i j) : Int) : ℚ),
      st.2.2.set (trueBefore mask (i * mask.cols + j)) ((dst.px i j : Nat) : ℚ)), ?_, ?_⟩
    · rw [getEquationPixel_eq _ _ _ _ _ _ _ hm, hs1, hs2, hidx, g1]
      simp only [Option.some_bind]
      rw [setAt_natCast _ _ _ (by rw [hbl]; exact hk), setAt_natCast _ _ _ (by rw [hxl]; exact hk)]
      rfl
    · refine ⟨g2, g3.trans hrows, g4.trans hmc, by simp only [List.length_set]; exact hbl,
        by simp only [List.length_set]; exact hxl, ?_⟩
      intro a c ha hc hm1
      by_cases hq : a * mask.cols + c = i * mask.cols + j
      · obtain ⟨rfl, rfl⟩ := pos_inj _ _ _ _ _ hc hj hq
        refine ⟨fun _ => ⟨?_, ?_, ?_, ?_, ?_⟩, fun h => by omega⟩
        · rw [hrow0, List.append_nil, ← hidx, expectedRow_eq] at g7
          exact g7
        · apply g9
          rw [SparseMat.rowCols, hrow0]
          exact List.Pairwise.nil
        · rw [g5, hc0, Nat.zero_add, ← hidx, ← expectedRow_eq, List.length_map]
        · show (st.2.1.set _ _)[_]? = _
          rw [List.getElem?_set_self (by rw [hbl]; exact hk)]
        · show (st.2.2.set _ _)[_]? = _
          rw [List.getElem?_set_self (by rw [hxl]; exact hk)]
      · have hkne : trueBefore mask (a * mask.cols + c) ≠ trueBefore mask (i * mask.cols + j) :=
          fun h => hq (trueBefore_inj mask _ _ (maskAt_true mask a c hc hm1) hbit h)
        obtain ⟨f1, f2⟩ := hcells a c ha hc hm1
        refine ⟨fun hlt => ?_, fun hle => ?_⟩
        · obtain ⟨e1, e2, e3, e4, e5⟩ := f1 (by omega)
          refine ⟨?_, ?_, ?_, ?_, ?_⟩
          · rw [g8 _ hkne]; exact e1
          · rw [SparseMat.rowCols, g8 _ hkne]; exact e2
          · rw [g6 _ hkne]; exact e3
          · show (st.2.1.set _ _)[_]? = _
            rw [List.getElem?_set_ne (fun h => hkne h.symm)]; exact e4
          · show (st.2.2.set _ _)[_]? = _
            rw [List.getElem?_set_ne (fun h => hkne h.symm)]; exact e5
        · rw [g6 _ hkne]
          exact f2 (by omega)
  · -- a pixel outside the mask: nothing happens
    refine ⟨st, by rw [getEquationPixel, if_neg hm], hwf, hrows, hmc, hbl, hxl, ?_⟩
    intro a c ha hc hm1
    have hq : a * mask.cols + c ≠ i * mask.cols + j := by
      intro hq
      obtain ⟨rfl, rfl⟩ := pos_inj _ _ _ _ _ hc hj hq
      exact hm hm1
    obtain ⟨f1, f2⟩ := hcells a c ha hc hm1
    exact ⟨fun hlt => f1 (by omega), fun hle => f2 (by omega)⟩

/-- A loop in a loop that keeps an invariant indexed by the row-major position. -/
theorem nested_forLoopM {σ : Type} (rows cols : Nat) (body : Nat → Nat → σ → Option σ)
    (Inv : Nat → σ → Prop)
    (hstep : ∀ i j st, i < rows → j < cols → Inv (i * cols + j) st →
      ∃ st', body i j st = some st' ∧ Inv (i * cols + j + 1) st')
    (st0 : σ) (h0 : Inv 0 st0) :
    ∃ st, forLoopM rows (fun i st => forLoopM cols (fun j st => body i j st) st) st0 = some st ∧
      Inv (rows * cols) st := by
  have inner : ∀ i, i < rows → ∀ n, n ≤ cols → ∀ st, Inv (i * cols) st →
      ∃ st', forLoopM n (fun j st => body i j st) st = some st' ∧ Inv (i * cols + n) st' := by
    intro i hi n
    induction n with
    | zero => intro _ st hst; exact ⟨st, rfl, hst⟩
    | succ n ih =>
      intro hn st hst
      obtain ⟨st1, h1, h2⟩ := ih (by omega) st hst
      obtain ⟨st2, h3, h4⟩ := hstep i n st1 hi (by omega) h2
      exact ⟨st2, by simp only [forLoopM, h1, Option.some_bind]; exact h3, h4⟩
  have outer : ∀ n, n ≤ rows →
      ∃ st, forLoopM n (fun i st => forLoopM cols (fun j st => body i j st) st) st0 = some st ∧
        Inv (n * cols) st := by
    intro n
    induction n with
    | zero => intro _; exact ⟨st0, rfl, by simpa using h0⟩
    | succ n ih =>
      intro hn
      obtain ⟨st1, h1, h2⟩ := ih (by omega)
      obtain ⟨st2, h3, h4⟩ := inner n (by omega) cols (le_refl _) st1 h2
      refine ⟨st2, by simp only [forLoopM, h1, Option.some_bind]; exact h3, ?_⟩
      have : (n + 1) * cols = n * cols + cols := by ring
      rw [this]; exact h4
  exact outer rows (le_refl _)

/-! ## Facts about `calcSplit` -/

theorem rowCols_getElem? (m : SparseMat) (r k : Nat) (hk : k < m.count.getD r 0)
    (hb : r * m.maxCols + k < m.buf.length) :
    (m.rowCols r)[k]? = some (m.colAt r k) := by
  rw [SparseMat.rowCols, List.getElem?_map, rowEntries_getElem?, if_pos hk, SparseMat.colAt,
    List.getElem?_eq_getElem hb]
  rfl

theorem findDiag_spec (m : SparseMat) (i cnt : Nat) (hb : i * m.maxCols + cnt ≤ m.buf.length) :
    ∀ n, n ≤ cnt →
    (∃ j, m.findDiag i cnt n = some (some j) ∧ cnt - n ≤ j ∧ j < cnt ∧ m.colAt i j = (i : Int) ∧
      ∀ j1, cnt - n ≤ j1 → j1 < j → m.colAt i j1 ≠ (i : Int)) ∨
    (m.findDiag i cnt n = some none ∧ ∀ j1, cnt - n ≤ j1 → j1 < cnt → m.colAt i j1 ≠ (i : Int)) := by
  intro n
  induction n with
  | zero =>
    intro _
    exact Or.inr ⟨rfl, fun j1 h1 h2 => by omega⟩
  | succ n ih =>
    intro hn
    have hlt : i * m.maxCols + (cnt - (n + 1)) < m.buf.length := by omega
    have hcol : m.colAt i (cnt - (n + 1)) = m.buf[i * m.maxCols + (cnt - (n + 1))].index := by
      simp [SparseMat.colAt, List.getElem?_eq_getElem hlt]
    rw [SparseMat.findDiag, List.getElem?_eq_getElem hlt]
    by_cases he : m.buf[i * m.maxCols + (cnt - (n + 1))].index = (i : Int)
    · left
      refine ⟨cnt - (n + 1), by simp only [he, if_true], le_refl _, by omega, ?_,
        fun j1 h1 h2 => by omega⟩
      rw [hcol]; exact he
    · simp only [he, if_false]
      rcases ih (by omega) with ⟨j, h1, h2, h3, h4, h5⟩ | ⟨h1, h2⟩
      · left
        refine ⟨j, h1, by omega, h3, h4, ?_⟩
        intro j1 g1 g2
        by_cases hj : j1 = cnt - (n + 1)
        · rw [hj, hcol]; exact he
        · exact h5 j1 (by omega) g2
      · right
        refine ⟨h1, ?_⟩
        intro j1 g1 g2
        by_cases hj : j1 = cnt - (n + 1)
        · rw [hj, hcol]; exact he
        · exact h2 j1 (by omega) g2

theorem resizeSplit_length (split : List Int) (rows : Nat) :
    (resizeSplit split rows).length = rows := by
  rw [resizeSplit, List.length_append, List.length_take, List.length_replicate]
  omega

/-- What `calcSplit` computes on a well-formed matrix: a table with one element
per row; for a row with a used entry in its own column, the position of the
first such entry; for any other row, the element that `resize` left there. -/
theorem calcSplit_spec (m : SparseMat) (hwf : m.WF) (init : List Int) :
    ∃ split, m.calcSplit init = some split ∧ split.length = m.rows ∧
      ∀ i, i < m.rows →
        (∃ j : Nat, split[i]? = some (j : Int) ∧ j < m.count.getD i 0 ∧
          (m.rowCols i)[j]? = some (i : Int) ∧
          ∀ j1, j1 < j → (m.rowCols i)[j1]? ≠ some (i : Int)) ∨
        ((i : Int) ∉ m.rowCols i ∧ split[i]? = (resizeSplit init m.rows)[i]?) := by
  obtain ⟨hlen, hcl, hcnt⟩ := hwf
  have key : ∀ n, n ≤ m.rows →
      ∃ split, forLoopM n
        (fun i sp =>
          match m.count[i]? with
          | none => none
          | some cnt =>
            match m.findDiag i cnt cnt with
            | none => none
            | some none => some sp
            | some (some j) => if i < sp.length then some (sp.set i (j : Int)) else none)
        (resizeSplit init m.rows) = some split ∧ split.length = m.rows ∧
        (∀ i, n ≤ i → split[i]? = (resizeSplit init m.rows)[i]?) ∧
        ∀ i, i < n →
          (∃ j : Nat, split[i]? = some (j : Int) ∧ j < m.count.getD i 0 ∧
            (m.rowCols i)[j]? = some (i : Int) ∧
            ∀ j1, j1 < j → (m.rowCols i)[j1]? ≠ some (i : Int)) ∨
          ((i : Int) ∉ m.rowCols i ∧ split[i]? = (resizeSplit init m.rows)[i]?) := by
    intro n
    induction n with
    | zero =>
      intro _
      exact ⟨_, rfl, resizeSplit_length _ _, fun _ _ => rfl, fun i hi => by omega⟩
    | succ n ih =>
      intro hn
      obtain ⟨sp, h1, h2, h3, h4⟩ := ih (by omega)
      have hn1 : n < m.rows := by omega
      have hend := row_end_le m n hlen hn1
      have hc := hcnt n hn1
      have hcs := count_getD_lt_length m.count n (by omega)
      simp only [forLoopM, h1, Option.some_bind, hcs]
      rcases findDiag_spec m n (m.count.getD n 0) (by omega) (m.count.getD n 0) (le_refl _) with
        ⟨j, g1, _, g3, g4, g5⟩ | ⟨g1, g2⟩
      · have hnl : n < sp.length := by omega
        refine ⟨sp.set n (j : Int), by simp only [g1, hnl, if_true], by rw [List.length_set, h2],
          ?_, ?_⟩
        · intro i hi
          rw [List.getElem?_set_ne (by omega)]
          exact h3 i (by omega)
        · intro i hi
          by_cases hin : i = n
          · subst hin
            left
            refine ⟨j, List.getElem?_set_self hnl, g3, ?_, ?_⟩
            · rw [rowCols_getElem? m i j g3 (by omega), g4]
            · intro j1 hj1
              rw [rowCols_getElem? m i j1 (by omega) (by omega)]
              intro he
              exact g5 j1 (by omega) hj1 (Option.some.inj he)
          · rw [List.getElem?_set_ne (fun h => hin h.symm)]
            exact h4 i (by omega)
      · refine ⟨sp, by simp only [g1], h2, fun i hi => h3 i (by omega), ?_⟩
        intro i hi
        by_cases hin : i = n
        · subst hin
          right
          refine ⟨?_, h3 i (le_refl _)⟩
          intro hmem
          obtain ⟨j1, hj1, hj2⟩ := List.getElem_of_mem hmem
          have hj3 : j1 < m.count.getD i 0 := by
            have := rowEntries_length_le m i
            rw [SparseMat.rowCols, List.length_map] at hj1
            omega
          have h5 := rowCols_getElem? m i j1 hj3 (by omega)
          rw [List.getElem?_eq_getElem hj1, hj2] at h5
          exact g2 j1 (by omega) hj3 (Option.some.inj h5).symm
        · exact h4 i (by omega)
  obtain ⟨split, h1, h2, _, h4⟩ := key m.rows (le_refl _)
  exact ⟨split, h1, h2, h4⟩

/-! ## The assembled system -/

theorem makeIndex_some (mask : Mat Nat) (index : Mat Int) (count : Nat)
    (h : makeIndex mask = some (index, count)) :
    mask.hasData = true ∧ IndexOK mask index ∧ count = trueBefore mask (mask.rows * mask.cols) := by
  have hd : mask.hasData = true := by
    by_contra hd
    rw [Bool.not_eq_true] at hd
    rw [makeIndex, if_pos hd] at h
    exact Option.noConfusion h
  obtain ⟨index1, h1, h2, h3, h4⟩ := makeIndex_eq mask hd
  rw [h1] at h
  obtain ⟨rfl, rfl⟩ := Prod.mk.inj (Option.some.inj h)
  exact ⟨hd, ⟨h2, h3, h4⟩, rfl⟩

theorem hasData_iff {α : Type} (m : Mat α) : m.hasData = true ↔ m.rows ≠ 0 ∧ m.cols ≠ 0 := by
  rw [Mat.hasData, decide_eq_true_iff]

theorem create_count_getD (A0 : SparseMat) (n r : Nat) :
    (A0.create (n : Int) 8).count.getD r 0 = 0 := by
  have hg : ¬ ((n : Int) < 0 ∨ (8 : Int) < 0) := by omega
  rw [SparseMat.create, if_neg hg]
  simp only [Int.toNat_ofNat, List.getD_eq_getElem?_getD, List.getElem?_replicate]
  by_cases h : r < n
  · rw [if_pos h]; rfl
  · rw [if_neg h]; rfl

theorem create_facts (A0 : SparseMat) (n : Nat) :
    (A0.create (n : Int) 8).WF ∧ (A0.create (n : Int) 8).rows = n ∧
      (A0.create (n : Int) 8).maxCols = 8 := by
  have hc := create_count_getD A0 n
  have hg : ¬ ((n : Int) < 0 ∨ (8 : Int) < 0) := by omega
  rw [SparseMat.create, if_neg hg] at hc ⊢
  refine ⟨⟨?_, ?_, ?_⟩, ?_, ?_⟩
  · simp
  · simp
  · intro r _
    rw [hc r]
    exact Nat.zero_le _
  · simp
  · rfl

/-- On the index grid of the mask, `getEquation` runs to its end and leaves the
loop invariant at the last position. -/
theorem getEquation_inv (src dst mask : Mat Nat) (index : Mat Int) (A0 : SparseMat)
    (hd : mask.hasData = true) (hix : IndexOK mask index)
    (hs : src.rows = mask.rows ∧ src.cols = mask.cols ∧ dst.rows = mask.rows ∧
      dst.cols = mask.cols) :
    ∃ st, getEquation src dst mask index (trueBefore mask (mask.rows * mask.cols)) A0 = some st ∧
      GEInv src dst mask index (mask.rows * mask.cols) st := by
  obtain ⟨hs1, hs2, hs3, hs4⟩ := hs
  have hmd := (hasData_iff mask).mp hd
  have hsd : src.hasData = true := (hasData_iff src).mpr (by rw [hs1, hs2]; exact hmd)
  have hdd : dst.hasData = true := (hasData_iff dst).mpr (by rw [hs3, hs4]; exact hmd)
  have hid : index.hasData = true := (hasData_iff index).mpr (by rw [hix.1, hix.2.1]; exact hmd)
  have hg1 : ¬ (src.hasData = false ∨ dst.hasData = false ∨ mask.hasData = false ∨
      index.hasData = false) := by
    rw [hsd, hdd, hd, hid]; simp
  have hg2 : ¬ ¬ (src.rows = dst.rows ∧ src.cols = dst.cols ∧ src.rows = mask.rows ∧
      src.cols = mask.cols ∧ src.rows = index.rows ∧ src.cols = index.cols) := by
    rw [hs1, hs2, hs3, hs4, hix.1, hix.2.1]; simp
  rw [getEquation, if_neg hg1, if_neg hg2, hs1, hs2]
  obtain ⟨c1, c2, c3⟩ := create_facts A0 (trueBefore mask (mask.rows * mask.cols))
  apply nested_forLoopM mask.rows mask.cols (getEquationPixel src dst mask index)
    (GEInv src dst mask index)
  · intro i j st hi hj hinv
    exact getEquation_step src dst mask index hix hs1 hs2 i j hi hj st hinv
  · refine ⟨c1, c2, c3, by simp, by simp, ?_⟩
    intro i j _ _ _
    exact ⟨fun h => by omega, fun _ => create_count_getD A0 _ _⟩

/-- Claim C1.  With the index grid that `makeIndex` builds from the mask,
`getEquation` returns a system in which, for every masked pixel `(i, j)` and
`k = index[i][j]`: the used entries of row `k` of `A` are, up to their order,
one `(index[n], -1)` for each in-bounds 4-neighbour `n` with a true mask and
the diagonal entry `(k, number of in-bounds 4-neighbours)`; `b[k]` is the sum
of `src(i,j) - src(n)` over the in-bounds neighbours plus the sum of `dst(n)`
over those with a false mask; and `x[k] = dst(i,j)`. -/
theorem getEquation_assembles (src dst mask : Mat Nat) (index : Mat Int) (count : Nat)
    (A0 : SparseMat) (hmk : makeIndex mask = some (index, count))
    (hs : src.rows = mask.rows ∧ src.cols = mask.cols ∧ dst.rows = mask.rows ∧
      dst.cols = mask.cols) :
    ∃ A b x, getEquation src dst mask index count A0 = some (A, b, x) ∧
      A.rows = count ∧ b.length = count ∧ x.length = count ∧
      ∀ i j, i < mask.rows → j < mask.cols → mask.px i j ≠ 0 →
        ∃ k : Nat, index.px i j = (k : Int) ∧ k < count ∧
          (A.rowEntries k).Perm
            (((neighbours mask.rows mask.cols i j).filter
                (fun n => decide (mask.px n.1 n.2 ≠ 0))).map
              (fun n => (⟨index.px n.1 n.2, -1⟩ : IndexedValue)) ++
              [⟨(k : Int), ((neighbours mask.rows mask.cols i j).length : ℚ)⟩]) ∧
          b[k]? = some
            (((((neighbours mask.rows mask.cols i j).map
                  (fun n => (src.px i j : Int) - (src.px n.1 n.2 : Int))).sum +
                (((neighbours mask.rows mask.cols i j).filter
                  (fun n => decide (mask.px n.1 n.2 = 0))).map
                  (fun n => (dst.px n.1 n.2 : Int))).sum : Int)) : ℚ) ∧
          x[k]? = some ((dst.px i j : Nat) : ℚ) := by
  obtain ⟨hd, hix, rfl⟩ := makeIndex_some mask index count hmk
  obtain ⟨⟨A, b, x⟩, h1, h2, h3, h4, h5, h6, h7⟩ := getEquation_inv src dst mask index A0 hd hix hs
  refine ⟨A, b, x, h1, h3, h5, h6, ?_⟩
  intro i j hi hj hm
  obtain ⟨e1, e2, e3, e4, e5⟩ := (h7 i j hi hj hm).1 (pos_lt _ _ i j hi hj)
  have hidx : index.px i j = (trueBefore mask (i * mask.cols + j) : Int) := by
    rw [hix.2.2 i j hi hj, if_pos hm]
  refine ⟨trueBefore mask (i * mask.cols + j), hidx,
    trueBefore_lt mask _ _ (pos_lt _ _ i j hi hj) (maskAt_true mask i j hj hm), ?_, e4, e5⟩
  rw [← hidx]
  exact e1

theorem cell_of_row (mask : Mat Nat) (k : Nat)
    (hk : k < trueBefore mask (mask.rows * mask.cols)) :
    ∃ i j, i < mask.rows ∧ j < mask.cols ∧ mask.px i j ≠ 0 ∧
      trueBefore mask (i * mask.cols + j) = k := by
  obtain ⟨p, hp1, hp2, hp3⟩ := trueBefore_surj mask _ k hk
  have hcpos : 0 < mask.cols := by
    rcases Nat.eq_zero_or_pos mask.cols with h0 | h0
    · rw [h0] at hp1; simp at hp1
    · exact h0
  have hpe : p / mask.cols * mask.cols + p % mask.cols = p := by
    rw [Nat.mul_comm]; exact Nat.div_add_mod p mask.cols
  refine ⟨p / mask.cols, p % mask.cols,
    Nat.div_lt_of_lt_mul (by rw [Nat.mul_comm]; exact hp1), Nat.mod_lt _ hcpos, ?_, ?_⟩
  · simpa [maskAt] using hp2
  · rw [hpe, hp3]

/-- The columns of the entries a masked pixel's row is to hold are row numbers,
and the only entry among them in the pixel's own column is the diagonal one. -/
theorem expectedRow_entries (mask : Mat Nat) (index : Mat Int) (hix : IndexOK mask index)
    (i j : Nat) (hi : i < mask.rows) (hj : j < mask.cols) (hm : mask.px i j ≠ 0)
    (e : IndexedValue) (he : e ∈ expectedRow mask index i j) :
    (0 ≤ e.index ∧ e.index < (trueBefore mask (mask.rows * mask.cols) : Int)) ∧
    (e.index = index.px i j →
      e = ⟨index.px i j, ((neighbours mask.rows mask.cols i j).length : ℚ)⟩) ∧
    (e.index ≠ index.px i j → e.value = -1) := by
  have hcellidx : ∀ a c, a < mask.rows → c < mask.cols → mask.px a c ≠ 0 →
      0 ≤ index.px a c ∧ index.px a c < (trueBefore mask (mask.rows * mask.cols) : Int) := by
    intro a c ha hc hm1
    rw [hix.2.2 a c ha hc, if_pos hm1]
    exact ⟨Int.natCast_nonneg _,
      by exact_mod_cast trueBefore_lt mask _ _ (pos_lt _ _ a c ha hc) (maskAt_true mask a c hc hm1)⟩
  rw [expectedRow, List.mem_append] at he
  rcases he with he | he
  · obtain ⟨n, hn, rfl⟩ := List.mem_map.mp he
    obtain ⟨hn1, hn2⟩ := List.mem_filter.mp hn
    obtain ⟨g1, g2, g3⟩ := neighbours_mem _ _ i j hi hj n hn1
    have hmn : mask.px n.1 n.2 ≠ 0 := of_decide_eq_true hn2
    refine ⟨hcellidx _ _ g1 g2 hmn, ?_, fun _ => rfl⟩
    intro heq
    exfalso
    obtain ⟨f1, f2⟩ := index_inj mask index hix _ _ _ _ g1 g2 hi hj hmn hm heq
    exact g3 (Prod.ext f1 f2)
  · rw [List.mem_singleton] at he
    subst he
    exact ⟨hcellidx i j hi hj hm, fun _ => rfl, fun h => absurd rfl h⟩

/-- Everything the later results need about the system that `getEquation`
assembles and the split table that `calcSplit` derives from it. -/
theorem assembled_system (src dst mask : Mat Nat) (index : Mat Int) (A0 : SparseMat)
    (hd : mask.hasData = true) (hix : IndexOK mask index)
    (hs : src.rows = mask.rows ∧ src.cols = mask.cols ∧ dst.rows = mask.rows ∧
      dst.cols = mask.cols) :
    ∃ A b x split,
      getEquation src dst mask index (trueBefore mask (mask.rows * mask.cols)) A0 =
        some (A, b, x) ∧
      A.calcSplit [] = some split ∧ A.WF ∧
      A.rows = trueBefore mask (mask.rows * mask.cols) ∧ A.maxCols = 8 ∧
      b.length = trueBefore mask (mask.rows * mask.cols) ∧
      x.length = trueBefore mask (mask.rows * mask.cols) ∧
      split.length = trueBefore mask (mask.rows * mask.cols) ∧
      ∀ i j, i < mask.rows → j < mask.cols → mask.px i j ≠ 0 →
        (A.rowEntries (trueBefore mask (i * mask.cols + j))).Perm (expectedRow mask index i j) ∧
        (A.rowCols (trueBefore mask (i * mask.cols + j))).Pairwise (· < ·) ∧
        A.count.getD (trueBefore mask (i * mask.cols + j)) 0 =
          (expectedRow mask index i j).length ∧
        b[trueBefore mask (i * mask.cols + j)]? =
          some ((rhsOver src dst mask i j (neighbours mask.rows mask.cols i j) : Int) : ℚ) ∧
        x[trueBefore mask (i * mask.cols + j)]? = some ((dst.px i j : Nat) : ℚ) ∧
        ∃ s : Nat, split[trueBefore mask (i * mask.cols + j)]? = some (s : Int) ∧
          s < A.count.getD (trueBefore mask (i * mask.cols + j)) 0 ∧
          (A.rowEntries (trueBefore mask (i * mask.cols + j)))[s]? =
            some ⟨(trueBefore mask (i * mask.cols + j) : Int),
              ((neighbours mask.rows mask.cols i j).length : ℚ)⟩ := by
  obtain ⟨⟨A, b, x⟩, h1, h2, h3, h4, h5, h6, h7⟩ := getEquation_inv src dst mask index A0 hd hix hs
  obtain ⟨split, c1, c2, c3⟩ := calcSplit_spec A h2 []
  refine ⟨A, b, x, split, h1, c1, h2, h3, h4, h5, h6, c2.trans h3, ?_⟩
  intro i j hi hj hm
  obtain ⟨e1, e2, e3, e4, e5⟩ := (h7 i j hi hj hm).1 (pos_lt _ _ i j hi hj)
  refine ⟨e1, e2, e3, e4, e5, ?_⟩
  have hidx : index.px i j = (trueBefore mask (i * mask.cols + j) : Int) := by
    rw [hix.2.2 i j hi hj, if_pos hm]
  have hk : trueBefore mask (i * mask.cols + j) < A.rows := by
    rw [h3]
    exact trueBefore_lt mask _ _ (pos_lt _ _ i j hi hj) (maskAt_true mask i j hj hm)
  have hdiag : (⟨index.px i j, ((neighbours mask.rows mask.cols i j).length : ℚ)⟩ : IndexedValue) ∈
      A.rowEntries (trueBefore mask (i * mask.cols + j)) := by
    rw [e1.mem_iff, expectedRow]
    exact List.mem_append_right _ (List.mem_singleton_self _)
  rcases c3 _ hk with ⟨s, g1, g2, g3, _⟩ | ⟨g1, _⟩
  · refine ⟨s, g1, g2, ?_⟩
    rw [SparseMat.rowCols, List.getElem?_map] at g3
    cases hget : (A.rowEntries (trueBefore mask (i * mask.cols + j)))[s]? with
    | none => rw [hget] at g3; exact Option.noConfusion g3
    | some e =>
      rw [hget] at g3
      have hei : e.index = index.px i j := by
        rw [hidx]; exact Option.some.inj g3
      have hmem : e ∈ expectedRow mask index i j :=
        e1.mem_iff.mp (List.getElem?_mem hget)
      rw [(expectedRow_entries mask index hix i j hi hj hm e hmem).2.1 hei, hidx]
  · exfalso
    apply g1
    rw [SparseMat.rowCols, ← hidx]
    exact List.mem_map_of_mem IndexedValue.index hdiag

/-- Claim C2.  In the matrix that `getEquation` assembles (capacity 8) from the
index grid of `makeIndex`, every row `k` is the row of a masked pixel and is
well formed: its count is the number of inserts made for that pixel (one per
masked in-bounds neighbour and one for the diagonal, so none was dropped) and
at most 5, its used entries are in strictly ascending column order with every
column in `[0, count)`, exactly one of them has column `k`, and `calcSplit`
records the position of that entry, not the sentinel. -/
theorem getEquation_rows_wellformed (src dst mask : Mat Nat) (index : Mat Int) (count : Nat)
    (A0 : SparseMat) (hmk : makeIndex mask = some (index, count))
    (hs : src.rows = mask.rows ∧ src.cols = mask.cols ∧ dst.rows = mask.rows ∧
      dst.cols = mask.cols) :
    ∃ A b x split, getEquation src dst mask index count A0 = some (A, b, x) ∧
      A.rows = count ∧ A.maxCols = 8 ∧ A.calcSplit [] = some split ∧ split.length = count ∧
      ∀ k, k < count →
        (∃ i j, i < mask.rows ∧ j < mask.cols ∧ mask.px i j ≠ 0 ∧ index.px i j = (k : Int) ∧
          A.count.getD k 0 =
            ((neighbours mask.rows mask.cols i j).filter
              (fun n => decide (mask.px n.1 n.2 ≠ 0))).length + 1) ∧
        A.count.getD k 0 ≤ 5 ∧
        (A.rowEntries k).length = A.count.getD k 0 ∧
        (A.rowCols k).Pairwise (· < ·) ∧
        (∀ c ∈ A.rowCols k, 0 ≤ c ∧ c < (count : Int)) ∧
        (A.rowCols k).count (k : Int) = 1 ∧
        ∃ s : Nat, split[k]? = some (s : Int) ∧ s < A.count.getD k 0 ∧
          (A.rowCols k)[s]? = some (k : Int) := by
  obtain ⟨hd, hix, rfl⟩ := makeIndex_some mask index count hmk
  obtain ⟨A, b, x, split, h1, h2, h3, h4, h5, _, _, h8, h9⟩ :=
    assembled_system src dst mask index A0 hd hix hs
  refine ⟨A, b, x, split, h1, h4, h5, h2, h8, ?_⟩
  intro k hk
  obtain ⟨i, j, hi, hj, hm, rfl⟩ := cell_of_row mask k hk
  obtain ⟨e1, e2, e3, _, _, s, g1, g2, g3⟩ := h9 i j hi hj hm
  have hidx : index.px i j = (trueBefore mask (i * mask.cols + j) : Int) := by
    rw [hix.2.2 i j hi hj, if_pos hm]
  have hmemk : (trueBefore mask (i * mask.cols + j) : Int) ∈
      A.rowCols (trueBefore mask (i * mask.cols + j)) := by
    rw [SparseMat.rowCols]
    exact List.mem_map_of_mem IndexedValue.index (List.getElem?_mem g3)
  refine ⟨⟨i, j, hi, hj, hm, hidx, ?_⟩, ?_, ?_, e2, ?_, ?_, s, g1, g2, ?_⟩
  · rw [e3, expectedRow, List.length_append, List.length_map, List.length_singleton]
  · rw [e3]; exact expectedRow_length_le mask index i j
  · rw [rowEntries_length A _ h3 (by rw [h4]; exact hk)]
  · intro c hc
    rw [SparseMat.rowCols] at hc
    obtain ⟨e, he, rfl⟩ := List.mem_map.mp hc
    exact (expectedRow_entries mask index hix i j hi hj hm e (e1.mem_iff.mp he)).1
  · exact List.count_eq_one_of_mem e2.nodup hmemk
  · rw [SparseMat.rowCols, List.getElem?_map, g3]
    rfl

/-! ## Facts about `solve` -/

theorem readAt_natCast {α : Type} (A : List α) (p : Nat) (h : p < A.length) :
    readAt A (p : Int) = some A[p] := by
  have : ¬ ((p : Int) < 0) := by omega
  rw [readAt, if_neg this, Int.toNat_ofNat, List.getElem?_eq_getElem h]

theorem readAt_nonneg {α : Type} (A : List α) (c : Int) (h0 : 0 ≤ c) (h : c.toNat < A.length) :
    readAt A c = some A[c.toNat] := by
  have : ¬ (c < 0) := by omega
  rw [readAt, if_neg this, List.getElem?_eq_getElem h]

theorem getD_of_lt {α : Type} (A : List α) (p : Nat) (d : α) (h : p < A.length) :
    A.getD p d = A[p] := by
  rw [List.getD_eq_getElem?_getD, List.getElem?_eq_getElem h]; rfl

/-- One of the two summation loops of `solve` over `n` slots from slot `lo` of the
row at `base`, all of them in the buffer and with columns inside `x`. -/
theorem dotLoop_spec (A : List IndexedValue) (x : List ℚ) (base lo : Nat) (val : ℚ) :
    ∀ n, (∀ t, t < n → base + lo + t < A.length ∧
      0 ≤ (A.getD (base + lo + t) memsetSlot).index ∧
      (A.getD (base + lo + t) memsetSlot).index.toNat < x.length) →
    dotLoop A x (base : Int) (lo : Int) n val =
      some (val + dot ((A.drop (base + lo)).take n) x) := by
  intro n
  induction n with
  | zero =>
    intro _
    simp [dotLoop, forLoopM, dot]
  | succ n ih =>
    intro h
    have ih1 := ih (fun t ht => h t (by omega))
    obtain ⟨h1, h2, h3⟩ := h n (by omega)
    rw [getD_of_lt _ _ _ h1] at h2 h3
    rw [dotLoop] at ih1 ⊢
    simp only [forLoopM, ih1, Option.some_bind]
    have hpos : (base : Int) + ((lo : Int) + (n : Int)) = ((base + lo + n : Nat) : Int) := by
      push_cast; ring
    rw [hpos, readAt_natCast A _ h1]
    simp only [Option.some_bind]
    rw [readAt_nonneg x _ h2 h3]
    simp only [Option.some_bind, Option.some.injEq]
    rw [List.take_succ, List.getElem?_drop, List.getElem?_eq_getElem h1]
    simp only [dot, Option.toList, List.map_append, List.sum_append, List.map_cons, List.map_nil,
      List.sum_cons, List.sum_nil, add_zero]
    rw [getD_of_lt x _ 0 h3]
    ring

theorem dot_append (l1 l2 : List IndexedValue) (x : List ℚ) :
    dot (l1 ++ l2) x = dot l1 x + dot l2 x := by
  simp only [dot, List.map_append, List.sum_append]

theorem getElem?_of_getD {α : Type} (l : List α) (i : Nat) (d : α) (h : i < l.length) :
    l[i]? = some (l.getD i d) := by
  rw [List.getD_eq_getElem?_getD, List.getElem?_eq_getElem h]; rfl

theorem row_block_le (rows cols i : Nat) (hi : i < rows) : cols * i + cols ≤ rows * cols := by
  calc cols * i + cols = (i + 1) * cols := by ring
    _ ≤ rows * cols := Nat.mul_le_mul_right _ hi

/-- The body of the row loop of `solve` on a well-formed system. -/
theorem solveRow_spec (A : List IndexedValue) (length : List Nat) (split : List Int) (b : List ℚ)
    (rows cols : Nat) (eps : ℚ) (hwf : SolveWF A length split b rows cols) (i : Nat)
    (hi : i < rows) (xs : List ℚ) (hx : xs.length = rows) (cnt : Nat) :
    solveRow A length split b cols eps i (xs, cnt) =
      some (xs.set i (rowUpdate A length split b cols i xs),
        if |rowUpdate A length split b cols i xs - xs.getD i 0| < eps then cnt + 1 else cnt) := by
  obtain ⟨h1, h2, h3, h4, h5⟩ := hwf
  obtain ⟨g1, g2, g3, g4, g5⟩ := h5 i hi
  have hblock := row_block_le rows cols i hi
  obtain ⟨sN, hs⟩ : ∃ sN : Nat, split.getD i (-1) = (sN : Int) :=
    ⟨(split.getD i (-1)).toNat, (Int.toNat_of_nonneg g2).symm⟩
  rw [hs] at g3
  have hsl : sN < length.getD i 0 := by exact_mod_cast g3
  have hcols : ∀ t, t < length.getD i 0 → cols * i + t < A.length ∧
      0 ≤ (A.getD (cols * i + t) memsetSlot).index ∧
      (A.getD (cols * i + t) memsetSlot).index.toNat < xs.length := by
    intro t ht
    obtain ⟨f1, f2⟩ := g5 t ht
    refine ⟨by omega, f1, ?_⟩
    rw [hx]; omega
  have hd1 := dotLoop_spec A xs (cols * i) 0 0 sN (fun t ht => by
    have := hcols t (by omega)
    simpa using this)
  have hd2 := fun v => dotLoop_spec A xs (cols * i) (sN + 1) v (length.getD i 0 - (sN + 1))
    (fun t ht => by
      have := hcols (sN + 1 + t) (by omega)
      simpa [Nat.add_assoc] using this)
  have hsum : dot ((A.drop (cols * i + 0)).take sN) xs +
      dot ((A.drop (cols * i + (sN + 1))).take (length.getD i 0 - (sN + 1))) xs =
      dot ((rowOf A length cols i).eraseIdx sN) xs := by
    rw [List.eraseIdx_eq_take_drop_succ, dot_append, rowOf, List.take_take, List.drop_take,
      List.drop_drop, Nat.add_zero, Nat.min_eq_left (by omega)]
  rw [solveRow]
  simp only [getElem?_of_getD split i (-1) (by omega), getElem?_of_getD length i 0 (by omega),
    getElem?_of_getD b i 0 (by omega), getElem?_of_getD xs i 0 (by omega), hs, Int.toNat_ofNat]
  have hc1 : ((cols : Int) * (i : Int)) = ((cols * i : Nat) : Int) := by push_cast; ring
  have hc2 : ((sN : Int) + 1) = ((sN + 1 : Nat) : Int) := by push_cast; ring
  have hc3 : ((length.getD i 0 : Int) - ((sN + 1 : Nat) : Int)).toNat =
      length.getD i 0 - (sN + 1) := Int.toNat_sub _ _
  have hc4 : (((cols * i : Nat) : Int) + (sN : Int)) = ((cols * i + sN : Nat) : Int) := by
    push_cast; ring
  rw [hc1, hc2, hc3, hc4]
  have hd1' : dotLoop A xs ((cols * i : Nat) : Int) 0 sN 0 =
      some (0 + dot ((A.drop (cols * i + 0)).take sN) xs) := by
    simpa using hd1
  rw [hd1']
  simp only [Option.some_bind]
  have hbnd : cols * i + sN < A.length := by omega
  rw [hd2, readAt_natCast A _ hbnd]
  simp only [Option.some_bind]
  have hval : A[cols * i + sN] = A.getD (cols * i + sN) memsetSlot :=
    (getD_of_lt A _ memsetSlot hbnd).symm
  rw [hval]
  rw [hs, Int.toNat_ofNat] at g4
  rw [if_neg g4, zero_add, hsum, rowUpdate, hs, Int.toNat_ofNat]

theorem getD_set_self (l : List ℚ) (i : Nat) (a : ℚ) (h : i < l.length) :
    (l.set i a).getD i 0 = a := by
  rw [List.getD_eq_getElem?_getD, List.getElem?_set_self h]; rfl

theorem getD_set_ne (l : List ℚ) (i j : Nat) (a : ℚ) (h : i ≠ j) :
    (l.set i a).getD j 0 = l.getD j 0 := by
  rw [List.getD_eq_getElem?_getD, List.getD_eq_getElem?_getD, List.getElem?_set_ne h]

theorem gsRows_succ (A : List IndexedValue) (length : List Nat) (split : List Int) (b : List ℚ)
    (cols n : Nat) (x : List ℚ) :
    gsRows A length split b cols (n + 1) x =
      (gsRows A length split b cols n x).set n
        (rowUpdate A length split b cols n (gsRows A length split b cols n x)) := rfl

theorem gsRows_length (A : List IndexedValue) (length : List Nat) (split : List Int) (b : List ℚ)
    (cols n : Nat) (x : List ℚ) : (gsRows A length split b cols n x).length = x.length := by
  induction n with
  | zero => rfl
  | succ n ih => rw [gsRows_succ, List.length_set, ih]

/-- The first `n` rows of a sweep leave the later components alone. -/
theorem gsRows_getD_ge (A : List IndexedValue) (length : List Nat) (split : List Int)
    (b : List ℚ) (cols n : Nat) (x : List ℚ) (i : Nat) (hi : n ≤ i) :
    (gsRows A length split b cols n x).getD i 0 = x.getD i 0 := by
  induction n with
  | zero => rfl
  | succ n ih => rw [gsRows_succ, getD_set_ne _ _ _ _ (by omega), ih (by omega)]

/-- The component `i` is final once row `i` is done. -/
theorem gsRows_getD_lt (A : List IndexedValue) (length : List Nat) (split : List Int)
    (b : List ℚ) (cols n : Nat) (x : List ℚ) (i : Nat) (hi : i < n) :
    (gsRows A length split b cols n x).getD i 0 =
      (gsRows A length split b cols (i + 1) x).getD i 0 := by
  induction n with
  | zero => omega
  | succ n ih =>
    rcases Nat.eq_or_lt_of_le (Nat.lt_succ_iff.mp hi) with h | h
    · subst h; rfl
    · rw [gsRows_succ, getD_set_ne _ _ _ _ (by omega), ih h]

/-- The row loop of `solve` on a well-formed system: it does not fail, the vector
it leaves is `gsRows`, and its counter equals the number of rows exactly when
every unknown moved by less than `eps`. -/
theorem sweep_rows (A : List IndexedValue) (length : List Nat) (split : List Int) (b : List ℚ)
    (rows cols : Nat) (eps : ℚ) (hwf : SolveWF A length split b rows cols) (x : List ℚ)
    (hx : x.length = rows) : ∀ n, n ≤ rows →
    ∃ cnt, forLoopM n (solveRow A length split b cols eps) (x, 0) =
        some (gsRows A length split b cols n x, cnt) ∧ cnt ≤ n ∧
      (cnt = n ↔ ∀ i, i < n →
        |(gsRows A length split b cols n x).getD i 0 - x.getD i 0| < eps) := by
  intro n
  induction n with
  | zero =>
    intro _
    exact ⟨0, rfl, le_refl _, ⟨fun _ i hi => by omega, fun _ => rfl⟩⟩
  | succ n ih =>
    intro hn
    obtain ⟨cnt, h1, h2, h3⟩ := ih (by omega)
    have hlen : (gsRows A length split b cols n x).length = rows := by
      rw [gsRows_length, hx]
    have hstep := solveRow_spec A length split b rows cols eps hwf n (by omega)
      (gsRows A length split b cols n x) hlen cnt
    rw [gsRows_getD_ge _ _ _ _ _ _ _ _ (le_refl _)] at hstep
    have hnew : (gsRows A length split b cols (n + 1) x).getD n 0 =
        rowUpdate A length split b cols n (gsRows A length split b cols n x) := by
      rw [gsRows_succ, getD_set_self _ _ _ (by omega)]
    have hold : ∀ i, i < n → (gsRows A length split b cols (n + 1) x).getD i 0 =
        (gsRows A length split b cols n x).getD i 0 := by
      intro i hi
      rw [gsRows_succ, getD_set_ne _ _ _ _ (by omega)]
    refine ⟨_, by simp only [forLoopM, h1, Option.some_bind, hstep]; rfl, ?_, ?_⟩
    · split_ifs <;> omega
    · by_cases hc : |rowUpdate A length split b cols n (gsRows A length split b cols n x) -
          x.getD n 0| < eps
      · rw [if_pos hc]
        constructor
        · intro he i hi
          rcases Nat.eq_or_lt_of_le (Nat.lt_succ_iff.mp hi) with h | h
          · subst h; rw [hnew]; exact hc
          · rw [hold i h]; exact h3.mp (by omega) i h
        · intro hall
          have : cnt = n := h3.mpr (fun i hi => by rw [← hold i hi]; exact hall i (by omega))
          omega
      · rw [if_neg hc]
        constructor
        · intro he; omega
        · intro hall
          exfalso
          apply hc
          rw [← hnew]
          exact hall n (by omega)

/-- One sweep of `solve` on a well-formed system. -/
theorem sweep_spec (A : List IndexedValue) (length : List Nat) (split : List Int) (b : List ℚ)
    (rows cols : Nat) (eps : ℚ) (hwf : SolveWF A length split b rows cols) (x : List ℚ)
    (hx : x.length = rows) :
    ∃ cnt, sweep A length split b rows cols eps x =
        some (gsRows A length split b cols rows x, cnt) ∧
      (cnt = rows ↔ AllClose rows eps x (gsRows A length split b cols rows x)) :=
  let ⟨cnt, h1, _, h3⟩ := sweep_rows A length split b rows cols eps hwf x hx rows (le_refl _)
  ⟨cnt, h1, h3⟩

/-- The iteration loop of `solve` on a well-formed system, started with `n`
iterations to go: it makes `m ≤ n` sweeps, each the full row loop `gsRows`,
it ends by its `break` exactly when the last sweep moved every unknown by
less than `eps`, no earlier sweep did so, and without a `break` it makes all
`n` sweeps. -/
theorem solveLoop_spec (A : List IndexedValue) (length : List Nat) (split : List Int)
    (b : List ℚ) (rows cols : Nat) (eps : ℚ) (hwf : SolveWF A length split b rows cols) :
    ∀ (n iter : Nat) (x : List ℚ), x.length = rows →
    ∃ r m, solveLoop A length split b rows cols eps n iter x = some r ∧
      r.sweeps = iter + m ∧ m ≤ n ∧
      r.x = (gsRows A length split b cols rows)^[m] x ∧
      (∀ k, k + 1 < m →
        ¬ AllClose rows eps ((gsRows A length split b cols rows)^[k] x)
          ((gsRows A length split b cols rows)^[k + 1] x)) ∧
      (r.converged = true ↔ 0 < m ∧
        AllClose rows eps ((gsRows A length split b cols rows)^[m - 1] x)
          ((gsRows A length split b cols rows)^[m] x)) ∧
      (r.converged = false → m = n) := by
  intro n
  induction n with
  | zero =>
    intro iter x _
    refine ⟨⟨x, iter, false⟩, 0, rfl, rfl, le_refl _, rfl, fun k hk => by omega, ?_, fun _ => rfl⟩
    constructor
    · intro h; exact absurd h (by simp)
    · intro h; omega
  | succ n ih =>
    intro iter x hx
    obtain ⟨cnt, h1, h2⟩ := sweep_spec A length split b rows cols eps hwf x hx
    by_cases hc : cnt = rows
    · refine ⟨⟨gsRows A length split b cols rows x, iter + 1, true⟩, 1, ?_, rfl, by omega, rfl,
        fun k hk => by omega, ?_, fun h => absurd h (by simp)⟩
      · simp only [solveLoop, h1, hc, if_true]
      · constructor
        · intro _; exact ⟨by omega, h2.mp hc⟩
        · intro _; rfl
    · have hx1 : (gsRows A length split b cols rows x).length = rows := by
        rw [gsRows_length, hx]
      obtain ⟨r, m, g1, g2, g3, g4, g5, g6, g7⟩ := ih (iter + 1) _ hx1
      refine ⟨r, m + 1, ?_, by omega, by omega, ?_, ?_, ?_, fun h => by rw [g7 h]⟩
      · simp only [solveLoop, h1, hc, if_false]
        exact g1
      · rw [g4, Function.iterate_succ_apply]
      · intro k hk
        cases k with
        | zero => exact fun h => hc (h2.mpr h)
        | succ k =>
          have := g5 k (by omega)
          rw [Function.iterate_succ_apply, Function.iterate_succ_apply]
          exact this
      · rw [g6]
        cases m with
        | zero =>
          constructor
          · intro h; omega
          · intro h; exact absurd (h2.mpr h.2) hc
        | succ m =>
          rw [Function.iterate_succ_apply, Nat.add_sub_cancel, Nat.add_sub_cancel,
            Function.iterate_succ_apply]
          constructor
          · intro h; exact ⟨by omega, h.2⟩
          · intro h; exact ⟨by omega, h.2⟩

theorem gsRows_iterate_length (A : List IndexedValue) (length : List Nat) (split : List Int)
    (b : List ℚ) (rows cols : Nat) (x : List ℚ) (k : Nat) :
    ((gsRows A length split b cols rows)^[k] x).length = x.length := by
  induction k with
  | zero => rfl
  | succ k ih => rw [Function.iterate_succ_apply', gsRows_length, ih]

/-! ## `solve` on an assembled system -/

theorem rowOf_eq_rowEntries (m : SparseMat) (k : Nat) :
    rowOf m.buf m.count m.maxCols k = m.rowEntries k := by
  rw [rowOf, SparseMat.rowEntries, Nat.mul_comm]

theorem buf_getD_of_rowEntries (m : SparseMat) (k j : Nat) (e : IndexedValue)
    (h : (m.rowEntries k)[j]? = some e) : m.buf.getD (m.maxCols * k + j) memsetSlot = e := by
  rw [rowEntries_getElem?] at h
  by_cases hj : j < m.count.getD k 0
  · rw [if_pos hj] at h
    rw [List.getD_eq_getElem?_getD, Nat.mul_comm, h]
    rfl
  · rw [if_neg hj] at h
    exact Option.noConfusion h

/-- In an image with at least two pixels, the system that `getEquation` assembles
is one that `solve` accepts, with `calcSplit`'s table. -/
theorem assembled_solveWF (mask : Mat Nat) (index : Mat Int) (hix : IndexOK mask index)
    (h2 : 2 ≤ mask.rows * mask.cols) (A : SparseMat) (b : List ℚ) (split : List Int)
    (hwf : A.WF) (hrows : A.rows = trueBefore mask (mask.rows * mask.cols))
    (hmc : A.maxCols = 8) (hbl : b.length = trueBefore mask (mask.rows * mask.cols))
    (hsl : split.length = trueBefore mask (mask.rows * mask.cols))
    (hcells : ∀ i j, i < mask.rows → j < mask.cols → mask.px i j ≠ 0 →
      (A.rowEntries (trueBefore mask (i * mask.cols + j))).Perm (expectedRow mask index i j) ∧
      A.count.getD (trueBefore mask (i * mask.cols + j)) 0 =
        (expectedRow mask index i j).length ∧
      ∃ s : Nat, split[trueBefore mask (i * mask.cols + j)]? = some (s : Int) ∧
        s < A.count.getD (trueBefore mask (i * mask.cols + j)) 0 ∧
        (A.rowEntries (trueBefore mask (i * mask.cols + j)))[s]? =
          some ⟨(trueBefore mask (i * mask.cols + j) : Int),
            ((neighbours mask.rows mask.cols i j).length : ℚ)⟩) :
    SolveWF A.buf A.count split b A.rows A.maxCols := by
  refine ⟨hwf.2.1, by rw [hsl, hrows], by rw [hbl, hrows], by rw [hwf.1], ?_⟩
  intro k hk
  rw [hrows] at hk
  obtain ⟨i, j, hi, hj, hm, rfl⟩ := cell_of_row mask k hk
  obtain ⟨e1, e3, s, g1, g2, g3⟩ := hcells i j hi hj hm
  have hsp : split.getD (trueBefore mask (i * mask.cols + j)) (-1) = (s : Int) := by
    rw [List.getD_eq_getElem?_getD, g1]; rfl
  have hlen5 := expectedRow_length_le mask index i j
  refine ⟨by rw [e3, hmc]; omega, by rw [hsp]; exact Int.natCast_nonneg _,
    by rw [hsp]; exact_mod_cast g2, ?_, ?_⟩
  · rw [hsp, Int.toNat_ofNat, buf_getD_of_rowEntries A _ s _ g3]
    have := neighbours_length_pos mask.rows mask.cols i j hi hj h2
    show ((neighbours mask.rows mask.cols i j).length : ℚ) ≠ 0
    exact_mod_cast (by omega : (neighbours mask.rows mask.cols i j).length ≠ 0)
  · intro t ht
    have hrl := rowEntries_length A _ hwf (by rw [hrows]; exact hk)
    have htl : t < (A.rowEntries (trueBefore mask (i * mask.cols + j))).length := by
      rw [hrl]; exact ht
    have hget := List.getElem?_eq_getElem htl
    rw [buf_getD_of_rowEntries A _ t _ hget, hrows]
    exact (expectedRow_entries mask index hix i j hi hj hm _
      (e1.mem_iff.mp (List.getElem_mem htl))).1

/-- Claim C8 as amended.  In every image with at least two pixels, for every
mask and every masked pixel, the diagonal coefficient of the pixel's row in
the matrix that `getEquation` assembles (the entry that `calcSplit` locates)
is the number of in-bounds neighbours of the pixel and is at least 1; and
`solve` on the assembled system, which fails on a zero divisor, returns a
result for every starting vector, every `maxIters` and every `eps`. -/
theorem diagonal_at_least_one (src dst mask : Mat Nat) (index : Mat Int) (count : Nat)
    (A0 : SparseMat) (hmk : makeIndex mask = some (index, count))
    (hs : src.rows = mask.rows ∧ src.cols = mask.cols ∧ dst.rows = mask.rows ∧
      dst.cols = mask.cols)
    (h2 : 2 ≤ mask.rows * mask.cols) :
    ∃ A b x split, getEquation src dst mask index count A0 = some (A, b, x) ∧
      A.calcSplit [] = some split ∧
      (∀ i j, i < mask.rows → j < mask.cols → mask.px i j ≠ 0 →
        ∃ k s : Nat, index.px i j = (k : Int) ∧ split[k]? = some (s : Int) ∧
          (A.rowEntries k)[s]? =
            some ⟨(k : Int), ((neighbours mask.rows mask.cols i j).length : ℚ)⟩ ∧
          1 ≤ (neighbours mask.rows mask.cols i j).length) ∧
      ∀ (x0 : List ℚ) (maxIters : Int) (eps : ℚ), x0.length = count →
        ∃ r, solve A.buf A.count split b x0 A.rows A.maxCols maxIters eps = some r := by
  obtain ⟨hd, hix, rfl⟩ := makeIndex_some mask index count hmk
  obtain ⟨A, b, x, split, h1, c1, h3, h4, h5, h6, _, h8, h9⟩ :=
    assembled_system src dst mask index A0 hd hix hs
  have hswf := assembled_solveWF mask index hix h2 A b split h3 h4 h5 h6 h8
    (fun i j hi hj hm =>
      let ⟨e1, _, e3, _, _, e6⟩ := h9 i j hi hj hm
      ⟨e1, e3, e6⟩)
  refine ⟨A, b, x, split, h1, c1, ?_, ?_⟩
  · intro i j hi hj hm
    obtain ⟨_, _, _, _, _, s, g1, _, g3⟩ := h9 i j hi hj hm
    refine ⟨trueBefore mask (i * mask.cols + j), s, ?_, g1, g3,
      neighbours_length_pos mask.rows mask.cols i j hi hj h2⟩
    rw [hix.2.2 i j hi hj, if_pos hm]
  · intro x0 maxIters eps hx0
    obtain ⟨r, m, g1, _⟩ :=
      solveLoop_spec A.buf A.count split b A.rows A.maxCols eps hswf maxIters.toNat 0 x0
        (by rw [hx0, h4])
    exact ⟨r, g1⟩

/-! ## A flat source in a flat destination -/

theorem dot_perm (es1 es2 : List IndexedValue) (x : List ℚ) (h : es1.Perm es2) :
    dot es1 x = dot es2 x :=
  (h.map _).sum_eq

theorem dot_replicate (N : Nat) (D : ℚ) (es : List IndexedValue)
    (h : ∀ e ∈ es, 0 ≤ e.index ∧ e.index < (N : Int)) :
    dot es (List.replicate N D) = (es.map IndexedValue.value).sum * D := by
  induction es with
  | nil => simp [dot]
  | cons e es ih =>
    have h1 := h e (List.mem_cons_self _ _)
    have h2 : e.index.toNat < N := by omega
    have ih1 := ih (fun a ha => h a (List.mem_cons_of_mem _ ha))
    rw [dot] at ih1 ⊢
    simp only [List.map_cons, List.sum_cons, ih1]
    rw [List.getD_eq_getElem?_getD, List.getElem?_replicate, if_pos h2]
    simp only [Option.getD_some]
    ring

theorem perm_cons_eraseIdx {α : Type} (l : List α) (s : Nat) (a : α) (h : l[s]? = some a) :
    l.Perm (a :: l.eraseIdx s) := by
  obtain ⟨hs, rfl⟩ := List.getElem?_eq_some.mp h
  rw [List.eraseIdx_eq_take_drop_succ]
  have : l = l.take s ++ l[s] :: l.drop (s + 1) := by
    rw [List.getElem_cons_drop, List.take_append_drop]
  exact (List.Perm.of_eq this).trans List.perm_middle

theorem set_replicate_self (N n : Nat) (D : ℚ) :
    (List.replicate N D).set n D = List.replicate N D := by
  apply List.ext_getElem?
  intro k
  rw [List.getElem?_set, List.getElem?_replicate, List.length_replicate]
  by_cases h1 : n = k
  · subst h1
    rw [if_pos rfl]
  · rw [if_neg h1]

/-- With a constant source, the right-hand side of a masked pixel is the sum of
the destination values of its neighbours outside the mask. -/
theorem rhsOver_flat (src dst mask : Mat Nat) (S D : Nat) (i j : Nat)
    (hsij : src.px i j = S) (L : List (Nat × Nat))
    (hsrc : ∀ n ∈ L, src.px n.1 n.2 = S)
    (hdst : ∀ n ∈ L, mask.px n.1 n.2 = 0 → dst.px n.1 n.2 = D) :
    rhsOver src dst mask i j L =
      ((L.filter (fun n => decide (mask.px n.1 n.2 = 0))).length : Int) * (D : Int) := by
  induction L with
  | nil => simp [rhsOver]
  | cons n L ih =>
    have ih1 := ih (fun a ha => hsrc a (List.mem_cons_of_mem _ ha))
      (fun a ha => hdst a (List.mem_cons_of_mem _ ha))
    have hn := hsrc n (List.mem_cons_self _ _)
    rw [rhsOver] at ih1 ⊢
    by_cases hm : mask.px n.1 n.2 = 0
    · have hd := hdst n (List.mem_cons_self _ _) hm
      simp only [List.map_cons, List.sum_cons, List.filter_cons, decide_eq_true hm, if_true,
        List.length_cons, hsij, hn, hd] at ih1 ⊢
      push_cast
      linarith
    · simp only [List.map_cons, List.sum_cons, List.filter_cons, decide_eq_false hm,
        Bool.false_eq_true, if_false, hsij, hn] at ih1 ⊢
      linarith

theorem filter_length_add (L : List (Nat × Nat)) (mask : Mat Nat) :
    (L.filter (fun n => decide (mask.px n.1 n.2 ≠ 0))).length +
      (L.filter (fun n => decide (mask.px n.1 n.2 = 0))).length = L.length := by
  induction L with
  | nil => rfl
  | cons n L ih =>
    by_cases hm : mask.px n.1 n.2 = 0
    · have h1 : decide (mask.px n.1 n.2 ≠ 0) = false := decide_eq_false (by simp [hm])
      simp only [List.filter_cons, h1, decide_eq_true hm, if_true, Bool.false_eq_true, if_false,
        List.length_cons]
      omega
    · have h1 : decide (mask.px n.1 n.2 ≠ 0) = true := decide_eq_true hm
      simp only [List.filter_cons, h1, decide_eq_false hm, if_true, Bool.false_eq_true, if_false,
        List.length_cons]
      omega

theorem sum_values_minus_one (index : Mat Int) (L : List (Nat × Nat)) :
    ((L.map (fun n => (⟨index.px n.1 n.2, -1⟩ : IndexedValue))).map IndexedValue.value).sum =
      -(L.length : ℚ) := by
  induction L with
  | nil => simp
  | cons n L ih =>
    simp only [List.map_cons, List.sum_cons, ih, List.length_cons]
    push_cast
    ring

/-- Claim C9.  In an image with at least two pixels, with a source of constant
value `S` and a destination that is `D` at every pixel outside the mask: the
constant vector `(D, ..., D)` satisfies every equation of the assembled system
exactly (`degree(k) * D - D * (number of masked neighbours of k) = b[k]`, the
left side being row `k` of `A` applied to that vector), and `solve` started
from that vector returns it unchanged for every `maxIters` and every `eps`. -/
theorem constant_solution (src dst mask : Mat Nat) (index : Mat Int) (count : Nat)
    (A0 : SparseMat) (S D : Nat) (hmk : makeIndex mask = some (index, count))
    (hs : src.rows = mask.rows ∧ src.cols = mask.cols ∧ dst.rows = mask.rows ∧
      dst.cols = mask.cols)
    (h2 : 2 ≤ mask.rows * mask.cols)
    (hsrc : ∀ i j, i < mask.rows → j < mask.cols → src.px i j = S)
    (hdst : ∀ i j, i < mask.rows → j < mask.cols → mask.px i j = 0 → dst.px i j = D) :
    ∃ A b x split, getEquation src dst mask index count A0 = some (A, b, x) ∧
      A.calcSplit [] = some split ∧
      (∀ i j, i < mask.rows → j < mask.cols → mask.px i j ≠ 0 →
        ∃ k : Nat, index.px i j = (k : Int) ∧
          b[k]? = some
            (((neighbours mask.rows mask.cols i j).length : ℚ) * (D : ℚ) -
              (D : ℚ) * (((neighbours mask.rows mask.cols i j).filter
                (fun n => decide (mask.px n.1 n.2 ≠ 0))).length : ℚ)) ∧
          dot (A.rowEntries k) (List.replicate count (D : ℚ)) =
            ((neighbours mask.rows mask.cols i j).length : ℚ) * (D : ℚ) -
              (D : ℚ) * (((neighbours mask.rows mask.cols i j).filter
                (fun n => decide (mask.px n.1 n.2 ≠ 0))).length : ℚ)) ∧
      ∀ (maxIters : Int) (eps : ℚ),
        ∃ r, solve A.buf A.count split b (List.replicate count (D : ℚ)) A.rows A.maxCols
            maxIters eps = some r ∧
          r.x = List.replicate count (D : ℚ) := by
  obtain ⟨hd, hix, rfl⟩ := makeIndex_some mask index count hmk
  obtain ⟨A, b, x, split, h1, c1, h3, h4, h5, h6, _, h8, h9⟩ :=
    assembled_system src dst mask index A0 hd hix hs
  have hswf := assembled_solveWF mask index hix h2 A b split h3 h4 h5 h6 h8
    (fun i j hi hj hm =>
      let ⟨e1, _, e3, _, _, e6⟩ := h9 i j hi hj hm
      ⟨e1, e3, e6⟩)
  -- the right-hand side of a masked pixel
  have hrhs : ∀ i j, i < mask.rows → j < mask.cols →
      ((rhsOver src dst mask i j (neighbours mask.rows mask.cols i j) : Int) : ℚ) =
        ((neighbours mask.rows mask.cols i j).length : ℚ) * (D : ℚ) -
          (D : ℚ) * (((neighbours mask.rows mask.cols i j).filter
            (fun n => decide (mask.px n.1 n.2 ≠ 0))).length : ℚ) := by
    intro i j hi hj
    rw [rhsOver_flat src dst mask S D i j (hsrc i j hi hj) _
      (fun n hn => hsrc n.1 n.2 (neighbours_mem _ _ i j hi hj n hn).1
        (neighbours_mem _ _ i j hi hj n hn).2.1)
      (fun n hn => hdst n.1 n.2 (neighbours_mem _ _ i j hi hj n hn).1
        (neighbours_mem _ _ i j hi hj n hn).2.1)]
    have := filter_length_add (neighbours mask.rows mask.cols i j) mask
    rw [← this]
    push_cast
    ring
  -- the two sums over a row, at the constant vector
  have hrange : ∀ i j, i < mask.rows → j < mask.cols → mask.px i j ≠ 0 →
      ∀ e ∈ expectedRow mask index i j,
        0 ≤ e.index ∧ e.index < (trueBefore mask (mask.rows * mask.cols) : Int) :=
    fun i j hi hj hm e he => (expectedRow_entries mask index hix i j hi hj hm e he).1
  have hrowdot : ∀ i j, i < mask.rows → j < mask.cols → mask.px i j ≠ 0 →
      dot (A.rowEntries (trueBefore mask (i * mask.cols + j)))
          (List.replicate (trueBefore mask (mask.rows * mask.cols)) (D : ℚ)) =
        ((neighbours mask.rows mask.cols i j).length : ℚ) * (D : ℚ) -
          (D : ℚ) * (((neighbours mask.rows mask.cols i j).filter
            (fun n => decide (mask.px n.1 n.2 ≠ 0))).length : ℚ) := by
    intro i j hi hj hm
    rw [dot_perm _ _ _ (h9 i j hi hj hm).1, dot_replicate _ _ _ (hrange i j hi hj hm), expectedRow,
      List.map_append, List.sum_append, sum_values_minus_one]
    simp only [List.map_cons, List.map_nil, List.sum_cons, List.sum_nil, add_zero]
    ring
  have hoffdot : ∀ i j, i < mask.rows → j < mask.cols → mask.px i j ≠ 0 → ∀ s : Nat,
      (A.rowEntries (trueBefore mask (i * mask.cols + j)))[s]? =
        some ⟨(trueBefore mask (i * mask.cols + j) : Int),
          ((neighbours mask.rows mask.cols i j).length : ℚ)⟩ →
      dot ((A.rowEntries (trueBefore mask (i * mask.cols + j))).eraseIdx s)
          (List.replicate (trueBefore mask (mask.rows * mask.cols)) (D : ℚ)) =
        -(D : ℚ) * (((neighbours mask.rows mask.cols i j).filter
            (fun n => decide (mask.px n.1 n.2 ≠ 0))).length : ℚ) := by
    intro i j hi hj hm s hsget
    have hidx : index.px i j = (trueBefore mask (i * mask.cols + j) : Int) := by
      rw [hix.2.2 i j hi hj, if_pos hm]
    have hp1 := perm_cons_eraseIdx _ s _ hsget
    have hp2 : ((⟨(trueBefore mask (i * mask.cols + j) : Int),
        ((neighbours mask.rows mask.cols i j).length : ℚ)⟩ : IndexedValue) ::
        (A.rowEntries (trueBefore mask (i * mask.cols + j))).eraseIdx s).Perm
        (⟨index.px i j, ((neighbours mask.rows mask.cols i j).length : ℚ)⟩ ::
          ((neighbours mask.rows mask.cols i j).filter
            (fun n => decide (mask.px n.1 n.2 ≠ 0))).map
              (fun n => (⟨index.px n.1 n.2, -1⟩ : IndexedValue))) := by
      refine hp1.symm.trans ((h9 i j hi hj hm).1.trans ?_)
      rw [expectedRow]
      exact List.perm_append_comm
    rw [hidx] at hp2
    have hp3 := hp2.cons_inv
    rw [dot_perm _ _ _ hp3, dot_replicate, sum_values_minus_one]
    · ring
    · intro e he
      apply hrange i j hi hj hm e
      rw [expectedRow]
      exact List.mem_append_left _ he
  refine ⟨A, b, x, split, h1, c1, ?_, ?_⟩
  · intro i j hi hj hm
    obtain ⟨_, _, _, e4, _, _⟩ := h9 i j hi hj hm
    refine ⟨trueBefore mask (i * mask.cols + j), by rw [hix.2.2 i j hi hj, if_pos hm], ?_,
      hrowdot i j hi hj hm⟩
    rw [e4, hrhs i j hi hj]
  · intro maxIters eps
    -- every row of a sweep writes `D` again
    have hrow : ∀ k, k < A.rows →
        rowUpdate A.buf A.count split b A.maxCols k
          (List.replicate (trueBefore mask (mask.rows * mask.cols)) (D : ℚ)) = (D : ℚ) := by
      intro k hk
      rw [h4] at hk
      obtain ⟨i, j, hi, hj, hm, rfl⟩ := cell_of_row mask k hk
      obtain ⟨_, _, _, e4, _, s, g1, _, g3⟩ := h9 i j hi hj hm
      have hsp : split.getD (trueBefore mask (i * mask.cols + j)) (-1) = (s : Int) := by
        rw [List.getD_eq_getElem?_getD, g1]; rfl
      have hb : b.getD (trueBefore mask (i * mask.cols + j)) 0 =
          ((rhsOver src dst mask i j (neighbours mask.rows mask.cols i j) : Int) : ℚ) := by
        rw [List.getD_eq_getElem?_getD, e4]; rfl
      have hdeg := neighbours_length_pos mask.rows mask.cols i j hi hj h2
      have hdeg0 : ((neighbours mask.rows mask.cols i j).length : ℚ) ≠ 0 := by
        exact_mod_cast (by omega : (neighbours mask.rows mask.cols i j).length ≠ 0)
      rw [rowUpdate, hsp, Int.toNat_ofNat, rowOf_eq_rowEntries, buf_getD_of_rowEntries A _ s _ g3,
        hb, hrhs i j hi hj, hoffdot i j hi hj hm s g3]
      show _ / ((neighbours mask.rows mask.cols i j).length : ℚ) = _
      field_simp
    have hfix : ∀ n, n ≤ A.rows →
        gsRows A.buf A.count split b A.maxCols n
          (List.replicate (trueBefore mask (mask.rows * mask.cols)) (D : ℚ)) =
          List.replicate (trueBefore mask (mask.rows * mask.cols)) (D : ℚ) := by
      intro n
      induction n with
      | zero => intro _; rfl
      | succ n ih =>
        intro hn
        rw [gsRows_succ, ih (by omega), hrow n (by omega), set_replicate_self]
    obtain ⟨r, m, g1, _, _, g4, _⟩ :=
      solveLoop_spec A.buf A.count split b A.rows A.maxCols eps hswf maxIters.toNat 0
        (List.replicate (trueBefore mask (mask.rows * mask.cols)) (D : ℚ))
        (by rw [List.length_replicate, h4])
    refine ⟨r, g1, ?_⟩
    rw [g4]
    exact Function.iterate_fixed (hfix A.rows (le_refl _)) m

/-! ## Running `solve` again -/

theorem abs_values_sum_nonneg (E : List IndexedValue) :
    0 ≤ (E.map (fun e => |e.value|)).sum := by
  induction E with
  | nil => simp
  | cons e E ih =>
    simp only [List.map_cons, List.sum_cons]
    have := abs_nonneg e.value
    linarith

theorem dot_cons_sub (e : IndexedValue) (E : List IndexedValue) (u w : List ℚ) :
    dot (e :: E) u - dot (e :: E) w =
      e.value * (u.getD e.index.toNat 0 - w.getD e.index.toNat 0) + (dot E u - dot E w) := by
  simp only [dot, List.map_cons, List.sum_cons]
  ring

theorem dot_diff_le (E : List IndexedValue) (u w : List ℚ) (eps : ℚ)
    (h : ∀ e ∈ E, |u.getD e.index.toNat 0 - w.getD e.index.toNat 0| < eps) :
    |dot E u - dot E w| ≤ eps * (E.map (fun e => |e.value|)).sum := by
  induction E with
  | nil => simp [dot]
  | cons e E ih =>
    have ih1 := ih (fun a ha => h a (List.mem_cons_of_mem _ ha))
    have h1 := h e (List.mem_cons_self _ _)
    rw [dot_cons_sub]
    simp only [List.map_cons, List.sum_cons]
    have h2 : |e.value * (u.getD e.index.toNat 0 - w.getD e.index.toNat 0)| ≤ eps * |e.value| := by
      rw [abs_mul, mul_comm]
      exact mul_le_mul_of_nonneg_right (le_of_lt h1) (abs_nonneg _)
    have h3 := abs_add (e.value * (u.getD e.index.toNat 0 - w.getD e.index.toNat 0))
      (dot E u - dot E w)
    linarith

theorem dot_diff_lt_of_pos (E : List IndexedValue) (u w : List ℚ) (eps : ℚ)
    (h : ∀ e ∈ E, |u.getD e.index.toNat 0 - w.getD e.index.toNat 0| < eps)
    (hpos : 0 < (E.map (fun e => |e.value|)).sum) :
    |dot E u - dot E w| < eps * (E.map (fun e => |e.value|)).sum := by
  induction E with
  | nil => simp at hpos
  | cons e E ih =>
    have hrest := dot_diff_le E u w eps (fun a ha => h a (List.mem_cons_of_mem _ ha))
    have h1 := h e (List.mem_cons_self _ _)
    rw [dot_cons_sub]
    simp only [List.map_cons, List.sum_cons] at hpos ⊢
    have h3 := abs_add (e.value * (u.getD e.index.toNat 0 - w.getD e.index.toNat 0))
      (dot E u - dot E w)
    rcases (abs_nonneg e.value).lt_or_eq with hv | hv
    · have h2 : |e.value * (u.getD e.index.toNat 0 - w.getD e.index.toNat 0)| < eps * |e.value| := by
        rw [abs_mul, mul_comm]
        exact mul_lt_mul_of_pos_right h1 hv
      linarith
    · have hv0 : e.value = 0 := abs_eq_zero.mp hv.symm
      have ih1 := ih (fun a ha => h a (List.mem_cons_of_mem _ ha)) (by rw [← hv] at hpos; linarith)
      rw [hv0] at h3 ⊢
      simp only [zero_mul, abs_zero, zero_add] at h3 ⊢
      linarith

/-- Two vectors that differ by less than `eps` at every column of the entries
`E`, whose absolute coefficients sum to at most `Dv > 0`, give sums that differ
by less than `eps * Dv`. -/
theorem dot_diff_lt (E : List IndexedValue) (u w : List ℚ) (eps Dv : ℚ) (heps : 0 < eps)
    (h : ∀ e ∈ E, |u.getD e.index.toNat 0 - w.getD e.index.toNat 0| < eps)
    (hS : (E.map (fun e => |e.value|)).sum ≤ Dv) (hD : 0 < Dv) :
    |dot E u - dot E w| < eps * Dv := by
  rcases (abs_values_sum_nonneg E).lt_or_eq with hpos | hzero
  · have h1 := dot_diff_lt_of_pos E u w eps h hpos
    have h2 : eps * (E.map (fun e => |e.value|)).sum ≤ eps * Dv :=
      mul_le_mul_of_nonneg_left hS (le_of_lt heps)
    linarith
  · have h1 := dot_diff_le E u w eps h
    rw [← hzero, mul_zero] at h1
    have h2 : 0 < eps * Dv := mul_pos heps hD
    linarith

theorem mem_rowOf (A : List IndexedValue) (length : List Nat) (cols i : Nat) (e : IndexedValue)
    (he : e ∈ rowOf A length cols i) :
    ∃ t, t < length.getD i 0 ∧ e = A.getD (cols * i + t) memsetSlot := by
  obtain ⟨t, ht, rfl⟩ := List.getElem_of_mem he
  rw [rowOf, List.length_take, List.length_drop] at ht
  refine ⟨t, by omega, ?_⟩
  rw [List.getD_eq_getElem?_getD, List.getElem?_eq_getElem (by omega)]
  simp only [rowOf, List.getElem_take, List.getElem_drop, Option.getD_some]

theorem gsRows_getD_final (A : List IndexedValue) (length : List Nat) (split : List Int)
    (b : List ℚ) (rows cols : Nat) (x : List ℚ) (hx : x.length = rows) (i n : Nat)
    (hi : i < n) (hn : n ≤ rows) :
    (gsRows A length split b cols n x).getD i 0 =
      rowUpdate A length split b cols i (gsRows A length split b cols i x) := by
  rw [gsRows_getD_lt _ _ _ _ _ _ _ _ hi, gsRows_succ,
    getD_set_self _ _ _ (by rw [gsRows_length, hx]; omega)]

/-- On a well-formed, weakly diagonally dominant system a sweep that follows a
sweep which moved every unknown by less than `eps` also moves every unknown
by less than `eps`. -/
theorem sweep_contracts (A : List IndexedValue) (length : List Nat) (split : List Int)
    (b : List ℚ) (rows cols : Nat) (eps : ℚ) (hwf : SolveWF A length split b rows cols)
    (hdd : WeakDiagDominant A length split rows cols) (heps : 0 < eps) (y : List ℚ)
    (hy : y.length = rows)
    (hc : AllClose rows eps y (gsRows A length split b cols rows y)) :
    AllClose rows eps (gsRows A length split b cols rows y)
      (gsRows A length split b cols rows (gsRows A length split b cols rows y)) := by
  have hz : (gsRows A length split b cols rows y).length = rows := by rw [gsRows_length, hy]
  intro i
  induction i using Nat.strong_induction_on with
  | _ i ih =>
    intro hi
    obtain ⟨_, _, _, _, h5⟩ := hwf
    obtain ⟨_, _, _, g4, g5⟩ := h5 i hi
    rw [gsRows_getD_final A length split b rows cols _ hz i rows hi (le_refl _),
      gsRows_getD_final A length split b rows cols y hy i rows hi (le_refl _)]
    have hdpos : 0 < |(A.getD (cols * i + (split.getD i (-1)).toNat) memsetSlot).value| :=
      abs_pos.mpr g4
    have hbound := dot_diff_lt ((rowOf A length cols i).eraseIdx (split.getD i (-1)).toNat)
      (gsRows A length split b cols i y)
      (gsRows A length split b cols i (gsRows A length split b cols rows y)) eps _ heps
      (by
        intro e he
        obtain ⟨t, ht, rfl⟩ := mem_rowOf A length cols i e (List.mem_of_mem_eraseIdx he)
        obtain ⟨f1, f2⟩ := g5 t ht
        have hcr : (A.getD (cols * i + t) memsetSlot).index.toNat < rows := by omega
        by_cases hci : (A.getD (cols * i + t) memsetSlot).index.toNat < i
        · rw [gsRows_getD_lt _ _ _ _ _ _ _ _ hci,
            ← gsRows_getD_lt _ _ _ _ _ rows _ _ hcr,
            gsRows_getD_lt _ _ _ _ _ i (gsRows A length split b cols rows y) _ hci,
            ← gsRows_getD_lt _ _ _ _ _ rows (gsRows A length split b cols rows y) _ hcr, abs_sub_comm]
          exact ih _ hci hcr
        · rw [gsRows_getD_ge _ _ _ _ _ _ _ _ (by omega), gsRows_getD_ge _ _ _ _ _ _ _ _ (by omega),
            abs_sub_comm]
          exact hc _ hcr)
      (hdd i hi) hdpos
    rw [rowUpdate, rowUpdate, ← sub_div, abs_div, div_lt_iff₀ hdpos]
    have : b.getD i 0 - dot ((rowOf A length cols i).eraseIdx (split.getD i (-1)).toNat)
          (gsRows A length split b cols i (gsRows A length split b cols rows y)) -
        (b.getD i 0 - dot ((rowOf A length cols i).eraseIdx (split.getD i (-1)).toNat)
          (gsRows A length split b cols i y)) =
        dot ((rowOf A length cols i).eraseIdx (split.getD i (-1)).toNat)
          (gsRows A length split b cols i y) -
        dot ((rowOf A length cols i).eraseIdx (split.getD i (-1)).toNat)
          (gsRows A length split b cols i (gsRows A length split b cols rows y)) := by ring
    rw [this]
    exact hbound

/-- Claim C7 as amended.  On a well-formed system that is also weakly diagonally
dominant, with `eps > 0`: when a run of `solve` ends by its convergence test,
a second run from the returned vector (with any `maxIters`) returns a vector
that differs from it by less than `eps` in every component. -/
theorem solve_again_close (A : List IndexedValue) (length : List Nat) (split : List Int)
    (b : List ℚ) (rows cols : Nat) (hwf : SolveWF A length split b rows cols)
    (hdd : WeakDiagDominant A length split rows cols) (eps : ℚ) (heps : 0 < eps)
    (x : List ℚ) (hx : x.length = rows) (maxIters : Int) (r1 : SolveResult)
    (h1 : solve A length split b x rows cols maxIters eps = some r1)
    (hconv : r1.converged = true) (maxIters2 : Int) :
    ∃ r2, solve A length split b r1.x rows cols maxIters2 eps = some r2 ∧
      ∀ i, i < rows → |r2.x.getD i 0 - r1.x.getD i 0| < eps := by
  obtain ⟨r, m, g1, _, _, g4, _, g6, _⟩ :=
    solveLoop_spec A length split b rows cols eps hwf maxIters.toNat 0 x hx
  rw [solve, g1] at h1
  obtain rfl := Option.some.inj h1
  obtain ⟨hm, hclose⟩ := g6.mp hconv
  obtain ⟨m1, rfl⟩ : ∃ m1, m = m1 + 1 := ⟨m - 1, by omega⟩
  rw [Nat.add_sub_cancel, Function.iterate_succ_apply'] at hclose
  rw [Function.iterate_succ_apply'] at g4
  have hy : ((gsRows A length split b cols rows)^[m1] x).length = rows := by
    rw [gsRows_iterate_length, hx]
  have hnext := sweep_contracts A length split b rows cols eps hwf hdd heps _ hy hclose
  rw [← g4] at hnext
  have hrx : r.x.length = rows := by rw [g4, gsRows_length, hy]
  obtain ⟨r2, m2, f1, _, _, f4, f5, _, _⟩ :=
    solveLoop_spec A length split b rows cols eps hwf maxIters2.toNat 0 r.x hrx
  refine ⟨r2, f1, ?_⟩
  have hm2 : m2 ≤ 1 := by
    by_contra hgt
    exact f5 0 (by omega) hnext
  rcases Nat.le_one_iff_eq_zero_or_eq_one.mp hm2 with h0 | h0
  · subst h0
    intro i _
    rw [f4]
    simpa using heps
  · subst h0
    rw [f4]
    exact hnext

/-! ## Facts about `copy` -/

/-- The integer that `saturate_cast` rounds to, before it saturates. -/
theorem saturate_cast_rounds (v : ℚ) :
    ∃ iv : Int, |(iv : ℚ) - v| ≤ 1 / 2 ∧ (v = (⌊v⌋ : ℚ) → iv = ⌊v⌋) ∧
      saturate_cast v = if iv < 0 then 0 else if 255 < iv then 255 else iv.toNat := by
  have hfl : Rat.floor v = ⌊v⌋ := rfl
  have h1 : (⌊v⌋ : ℚ) ≤ v := Int.floor_le v
  have h2 : v < (⌊v⌋ : ℚ) + 1 := Int.lt_floor_add_one v
  rw [saturate_cast]
  simp only [hfl]
  by_cases c1 : v - (⌊v⌋ : ℚ) < 1 / 2
  · refine ⟨⌊v⌋, ?_, fun _ => rfl, by simp only [c1, if_true]⟩
    rw [abs_le]; constructor <;> linarith
  · by_cases c2 : 1 / 2 < v - (⌊v⌋ : ℚ)
    · refine ⟨⌊v⌋ + 1, ?_, fun h => ?_, by simp only [c1, c2, if_true, if_false]⟩
      · rw [abs_le]; push_cast; constructor <;> linarith
      · exfalso; linarith
    · by_cases c3 : ⌊v⌋ % 2 = 0
      · refine ⟨⌊v⌋, ?_, fun _ => rfl, by simp only [c1, c2, c3, if_true, if_false]⟩
        rw [abs_le]; constructor <;> linarith
      · refine ⟨⌊v⌋ + 1, ?_, fun h => ?_, by simp only [c1, c2, c3, if_false]⟩
        · rw [abs_le]; push_cast; constructor <;> linarith
        · exfalso; linarith

theorem saturate_cast_le (v : ℚ) : saturate_cast v ≤ 255 := by
  obtain ⟨iv, _, _, h3⟩ := saturate_cast_rounds v
  rw [h3]
  split_ifs <;> omega

theorem saturate_cast_natCast (n : Nat) (hn : n ≤ 255) : saturate_cast (n : ℚ) = n := by
  obtain ⟨iv, _, h2, h3⟩ := saturate_cast_rounds (n : ℚ)
  have hf : ⌊(n : ℚ)⌋ = (n : Int) := Int.floor_natCast n
  have hiv : iv = (n : Int) := by
    rw [← hf]
    apply h2
    rw [hf]
    norm_cast
  rw [h3, hiv]
  have c1 : ¬ ((n : Int) < 0) := by omega
  have c2 : ¬ (255 < (n : Int)) := by omega
  rw [if_neg c1, if_neg c2, Int.toNat_ofNat]

theorem saturate_cast_low (v : ℚ) (hv : v ≤ 0) : saturate_cast v = 0 := by
  obtain ⟨iv, h1, _, h3⟩ := saturate_cast_rounds v
  rw [abs_le] at h1
  have hiv : iv ≤ 0 := by
    by_contra hc
    have : (1 : ℚ) ≤ (iv : ℚ) := by exact_mod_cast (by omega : 1 ≤ iv)
    linarith [h1.2]
  rw [h3]
  split_ifs <;> omega

theorem saturate_cast_high (v : ℚ) (hv : 255 ≤ v) : saturate_cast v = 255 := by
  obtain ⟨iv, h1, _, h3⟩ := saturate_cast_rounds v
  rw [abs_le] at h1
  have hiv : 255 ≤ iv := by
    by_contra hc
    have : (iv : ℚ) ≤ 254 := by exact_mod_cast (by omega : iv ≤ 254)
    linarith [h1.1]
  rw [h3]
  split_ifs <;> omega

theorem saturate_cast_near (v : ℚ) (h0 : 0 ≤ v) (h255 : v ≤ 255) :
    |(saturate_cast v : ℚ) - v| ≤ 1 / 2 := by
  obtain ⟨iv, h1, _, h3⟩ := saturate_cast_rounds v
  have h1' := abs_le.mp h1
  have hlo : 0 ≤ iv := by
    by_contra hc
    have : (iv : ℚ) ≤ -1 := by exact_mod_cast (by omega : iv ≤ -1)
    linarith [h1'.1]
  have hhi : iv ≤ 255 := by
    by_contra hc
    have : (256 : ℚ) ≤ (iv : ℚ) := by exact_mod_cast (by omega : 256 ≤ iv)
    linarith [h1'.2]
  have c1 : ¬ (iv < 0) := by omega
  have c2 : ¬ (255 < iv) := by omega
  rw [h3, if_neg c1, if_neg c2]
  have : ((iv.toNat : Nat) : ℚ) = (iv : ℚ) := by
    have := Int.toNat_of_nonneg hlo
    exact_mod_cast this
  rw [this]
  exact h1

theorem copy_step (val : List ℚ) (mask : Mat Nat) (index : Mat Int) (dst : Mat Nat)
    (hix : IndexOK mask index) (hv : val.length = trueBefore mask (mask.rows * mask.cols))
    (i j : Nat) (hi : i < mask.rows) (hj : j < mask.cols) (d : Mat Nat)
    (hinv : CopyInv val mask index dst (i * mask.cols + j) d) :
    ∃ d1, (if mask.px i j ≠ 0 then
          (readAt val (index.px i j)).map fun v => d.set i j (saturate_cast v)
        else some d) = some d1 ∧
      CopyInv val mask index dst (i * mask.cols + j + 1) d1 := by
  obtain ⟨h1, h2, h3⟩ := hinv
  by_cases hm : mask.px i j ≠ 0
  · have hidx : index.px i j = (trueBefore mask (i * mask.cols + j) : Int) := by
      rw [hix.2.2 i j hi hj, if_pos hm]
    have hk : trueBefore mask (i * mask.cols + j) < val.length := by
      rw [hv]
      exact trueBefore_lt mask _ _ (pos_lt _ _ i j hi hj) (maskAt_true mask i j hj hm)
    refine ⟨d.set i j (saturate_cast (val.getD (index.px i j).toNat 0)), ?_, h1, h2, ?_⟩
    · rw [if_pos hm, hidx, readAt_natCast val _ hk, Int.toNat_ofNat, getD_of_lt val _ 0 hk]
      rfl
    · intro a c
      show (if a = i ∧ c = j then _ else d.px a c) = _
      by_cases hac : a = i ∧ c = j
      · obtain ⟨rfl, rfl⟩ := hac
        rw [if_pos ⟨rfl, rfl⟩, if_pos ⟨hi, hj, hm, by omega⟩]
      · rw [if_neg hac, h3]
        by_cases hc : a < mask.rows ∧ c < mask.cols ∧ mask.px a c ≠ 0 ∧
            a * mask.cols + c < i * mask.cols + j
        · rw [if_pos hc, if_pos ⟨hc.1, hc.2.1, hc.2.2.1, by omega⟩]
        · rw [if_neg hc, if_neg]
          intro hc2
          apply hc
          refine ⟨hc2.1, hc2.2.1, hc2.2.2.1, ?_⟩
          have hne : a * mask.cols + c ≠ i * mask.cols + j :=
            fun h => hac (pos_inj _ _ _ _ _ hc2.2.1 hj h)
          omega
  · refine ⟨d, by rw [if_neg hm], h1, h2, ?_⟩
    intro a c
    rw [h3]
    by_cases hc : a < mask.rows ∧ c < mask.cols ∧ mask.px a c ≠ 0 ∧
        a * mask.cols + c < i * mask.cols + j
    · rw [if_pos hc, if_pos ⟨hc.1, hc.2.1, hc.2.2.1, by omega⟩]
    · rw [if_neg hc, if_neg]
      intro hc2
      apply hc
      refine ⟨hc2.1, hc2.2.1, hc2.2.2.1, ?_⟩
      have hne : a * mask.cols + c ≠ i * mask.cols + j := by
        intro h
        obtain ⟨rfl, rfl⟩ := pos_inj _ _ _ _ _ hc2.2.1 hj h
        exact hm hc2.2.2.1
      omega

theorem copy_runs (val : List ℚ) (mask : Mat Nat) (index : Mat Int) (dst : Mat Nat)
    (hd : mask.hasData = true) (hix : IndexOK mask index)
    (hv : val.length = trueBefore mask (mask.rows * mask.cols)) (hv0 : val.length ≠ 0)
    (hs : dst.rows = mask.rows ∧ dst.cols = mask.cols) :
    ∃ d, copy val mask index dst = some d ∧
      CopyInv val mask index dst (mask.rows * mask.cols) d := by
  have hmd := (hasData_iff mask).mp hd
  have hdd : dst.hasData = true := (hasData_iff dst).mpr (by rw [hs.1, hs.2]; exact hmd)
  have hid : index.hasData = true := (hasData_iff index).mpr (by rw [hix.1, hix.2.1]; exact hmd)
  have hg1 : ¬ (val.length = 0 ∨ mask.hasData = false ∨ index.hasData = false ∨
      dst.hasData = false) := by
    rw [hd, hid, hdd]; simp [hv0]
  have hg2 : ¬ ¬ (mask.rows = index.rows ∧ mask.cols = index.cols ∧ mask.rows = dst.rows ∧
      mask.cols = dst.cols) := by
    rw [hix.1, hix.2.1, hs.1, hs.2]; simp
  rw [copy, if_neg hg1, if_neg hg2]
  apply nested_forLoopM mask.rows mask.cols
    (fun i j d => if mask.px i j ≠ 0 then
        (readAt val (index.px i j)).map fun v => d.set i j (saturate_cast v)
      else some d)
    (CopyInv val mask index dst)
  · intro i j d hi hj hinv
    exact copy_step val mask index dst hix hv i j hi hj d hinv
  · refine ⟨rfl, rfl, fun a c => ?_⟩
    rw [if_neg (by omega)]

/-- Claim C10.  With the index grid of `makeIndex`, a vector `x` with one value
per unknown and a destination of the mask's size, `copy` (which returns when
there is at least one unknown, and otherwise stops at its assertion without
touching the destination) leaves every mask-false destination pixel as it was
and sets every mask-true pixel `(i, j)` to `x[index[i][j]]` rounded and
saturated; every written value lies in `[0, 255]`; an integer of `[0, 255]` is
written exactly, a value below `0` gives `0`, one above `255` gives `255`, and
in between the written value is within `1/2` of the given one. -/
theorem copy_frame (val : List ℚ) (mask : Mat Nat) (index : Mat Int) (dst : Mat Nat)
    (count : Nat) (hmk : makeIndex mask = some (index, count)) (hv : val.length = count)
    (hs : dst.rows = mask.rows ∧ dst.cols = mask.cols) :
    (count ≠ 0 → ∃ d, copy val mask index dst = some d) ∧
    (∀ i j, i < mask.rows → j < mask.cols → mask.px i j = 0 →
      ((copy val mask index dst).getD dst).px i j = dst.px i j) ∧
    (∀ i j, i < mask.rows → j < mask.cols → mask.px i j ≠ 0 →
      ∃ k : Nat, index.px i j = (k : Int) ∧ k < count ∧
        ((copy val mask index dst).getD dst).px i j = saturate_cast (val.getD k 0) ∧
        ((copy val mask index dst).getD dst).px i j ≤ 255) ∧
    (∀ n : Nat, n ≤ 255 → saturate_cast (n : ℚ) = n) ∧
    (∀ v : ℚ, v ≤ 0 → saturate_cast v = 0) ∧
    (∀ v : ℚ, 255 ≤ v → saturate_cast v = 255) ∧
    (∀ v : ℚ, 0 ≤ v → v ≤ 255 → |(saturate_cast v : ℚ) - v| ≤ 1 / 2) := by
  obtain ⟨hd, hix, rfl⟩ := makeIndex_some mask index count hmk
  refine ⟨?_, ?_, ?_, saturate_cast_natCast, saturate_cast_low, saturate_cast_high,
    saturate_cast_near⟩
  · intro h0
    obtain ⟨d, h1, _⟩ := copy_runs val mask index dst hd hix hv (by rw [hv]; exact h0) hs
    exact ⟨d, h1⟩
  · intro i j hi hj hm
    by_cases h0 : val.length = 0
    · have : copy val mask index dst = none := by
        rw [copy, if_pos (Or.inl h0)]
      rw [this]; rfl
    · obtain ⟨d, h1, _, _, h4⟩ := copy_runs val mask index dst hd hix hv h0 hs
      rw [h1]
      show d.px i j = _
      rw [h4, if_neg (fun hc => hc.2.2.1 hm)]
  · intro i j hi hj hm
    have hk : trueBefore mask (i * mask.cols + j) < trueBefore mask (mask.rows * mask.cols) :=
      trueBefore_lt mask _ _ (pos_lt _ _ i j hi hj) (maskAt_true mask i j hj hm)
    have hidx : index.px i j = (trueBefore mask (i * mask.cols + j) : Int) := by
      rw [hix.2.2 i j hi hj, if_pos hm]
    obtain ⟨d, h1, _, _, h4⟩ := copy_runs val mask index dst hd hix hv (by omega) hs
    have hpx : ((copy val mask index dst).getD dst).px i j =
        saturate_cast (val.getD (trueBefore mask (i * mask.cols + j)) 0) := by
      rw [h1]
      show d.px i j = _
      rw [h4, if_pos ⟨hi, hj, hm, pos_lt _ _ i j hi hj⟩, hidx, Int.toNat_ofNat]
    exact ⟨_, hidx, hk, hpx, by rw [hpx]; exact saturate_cast_le _⟩

/-! ## The claims at concrete inputs -/

/-- Claim C3, the failing input.  In a fresh 1 × 2 matrix, `insert(0, 5, 1)`
followed by `insert(0, 3, 2)` is two inserts of distinct columns into a row of
capacity two.  The second one shifts from `j = currCount = 1`, so it executes
`rowData[2] = rowData[1]`, a write one slot past the end of the two-slot
buffer: the call has no defined result.  The six inserts of `main` into row 0
of a 2 × 8 matrix, which leave two slots free, give the columns
`1, 2, 3, 5, 6, 8` with the count 6. -/
theorem insert_last_slot_overruns :
    (SparseMat.empty.create 1 2).insertAll 0 [(5, 1), (3, 2)] = none ∧
    ((SparseMat.empty.create 2 8).insertAll 0
        [(5, 1 / 5), (6, 1 / 2), (3, 1), (1, 3), (8, 2), (2, 8)]).map
      (fun m => (m.rowCols 0, m.count)) = some ([1, 2, 3, 5, 6, 8], [6, 0]) := by
  decide

/-- Claim C4, counterexample.  The row `1, 3, 5` of an 8-slot matrix (three
inserts into a fresh 1 × 8 matrix) is ascending and holds fewer than `maxCols`
entries; `insert(0, 3, 1)` appends the second `3` after the `5`, and the row
`1, 3, 5, 3` is not ascending. -/
theorem insert_duplicate_breaks_order :
    (SparseMat.empty.create 1 8).insertAll 0 [(1, 1), (3, 1), (5, 1)] = some rowOneThreeFive ∧
    (rowOneThreeFive.rowCols 0).Pairwise (· ≤ ·) ∧
    rowOneThreeFive.count.getD 0 0 < rowOneThreeFive.maxCols ∧
    (rowOneThreeFive.insert 0 3 1).map (fun m => m.rowCols 0) = some [1, 3, 5, 3] ∧
    ¬ ([1, 3, 5, 3] : List Int).Pairwise (· ≤ ·) := by
  decide

/-- Claim C7, counterexample.  The system `x0 + 2 x1 = 0`, `2 x0 + x1 = 0` is well
formed, its rows are in ascending column order and `split = [0, 1]` points at
their diagonal entries.  From `(-6, 3)` with `eps = 10` the first sweep gives `(-6, 12)`, which
moves the unknowns by `0` and `9`, so `solve` ends by its convergence test.
Run again from `(-6, 12)` with the same `maxIters = 2`, it makes two sweeps
without converging and returns `(-96, 192)`, which is `90` and `180` away. -/
theorem solve_again_moves_far :
    SolveWF growA [2, 2] [0, 1] [0, 0] 2 2 ∧
    (rowOf growA [2, 2] 2 0 = [⟨0, 1⟩, ⟨1, 2⟩] ∧ rowOf growA [2, 2] 2 1 = [⟨0, 2⟩, ⟨1, 1⟩]) ∧
    (0 : ℚ) < 10 ∧
    solve growA [2, 2] [0, 1] [0, 0] [-6, 3] 2 2 2 10 = some ⟨[-6, 12], 1, true⟩ ∧
    solve growA [2, 2] [0, 1] [0, 0] [-6, 12] 2 2 2 10 = some ⟨[-96, 192], 2, false⟩ ∧
    ¬ (|([-96, 192] : List ℚ).getD 0 0 - ([-6, 12] : List ℚ).getD 0 0| ≤ 10) :=
  ⟨by decide, by decide, by decide, by with_unfolding_all decide, by with_unfolding_all decide,
    by with_unfolding_all decide⟩

/-- Claim C8, counterexample.  In a 1 × 1 image whose pixel is masked, the pixel
has no in-bounds neighbour: `getEquation` assembles the single row `(0, 0)`,
whose diagonal coefficient is `0`, not at least `1`, and `solve` has to divide
by it. -/
theorem single_pixel_zero_diagonal :
    makeIndex maskOne = some (indexOne, 1) ∧
    (getEquation maskOne maskOne maskOne indexOne 1 SparseMat.empty).map
      (fun r => (r.1.rowEntries 0, r.1.calcSplit [], r.2.1, r.2.2)) =
        some ([⟨0, 0⟩], some [0], [0], [255]) ∧
    ¬ ((1 : ℚ) ≤ (⟨0, 0⟩ : IndexedValue).value) ∧
    ((getEquation maskOne maskOne maskOne indexOne 1 SparseMat.empty).bind fun r =>
      solve r.1.buf r.1.count [0] r.2.1 r.2.2 r.1.rows r.1.maxCols 1 (1 / 100)) = none :=
  ⟨rfl, by decide, by decide, by with_unfolding_all decide⟩

/-- Claim C1 at the 3 × 3 images `srcA`, `dstA` with the mask `maskA`. -/
theorem getEquation_assembles_witness :
    makeIndex maskA = some (indexA, 2) ∧
    (srcA.rows = maskA.rows ∧ srcA.cols = maskA.cols ∧ dstA.rows = maskA.rows ∧
      dstA.cols = maskA.cols) ∧
    ∃ A b x, getEquation srcA dstA maskA indexA 2 SparseMat.empty = some (A, b, x) ∧
      A.rows = 2 ∧ b.length = 2 ∧ x.length = 2 :=
  ⟨rfl, by decide,
    let ⟨A, b, x, h1, h2, h3, h4, _⟩ :=
      getEquation_assembles srcA dstA maskA indexA 2 SparseMat.empty rfl (by decide)
    ⟨A, b, x, h1, h2, h3, h4⟩⟩

/-- Claim C2 at the 3 × 3 images `srcA`, `dstA` with the mask `maskA`. -/
theorem getEquation_rows_wellformed_witness :
    makeIndex maskA = some (indexA, 2) ∧
    (srcA.rows = maskA.rows ∧ srcA.cols = maskA.cols ∧ dstA.rows = maskA.rows ∧
      dstA.cols = maskA.cols) ∧
    ∃ A b x split, getEquation srcA dstA maskA indexA 2 SparseMat.empty = some (A, b, x) ∧
      A.rows = 2 ∧ A.maxCols = 8 ∧ A.calcSplit [] = some split ∧ split.length = 2 :=
  ⟨rfl, by decide,
    let ⟨A, b, x, split, h1, h2, h3, h4, h5, _⟩ :=
      getEquation_rows_wellformed srcA dstA maskA indexA 2 SparseMat.empty rfl (by decide)
    ⟨A, b, x, split, h1, h2, h3, h4, h5⟩⟩

/-- Claim C4 as amended, at the row `1, 3, 5` and the new column `4`. -/
theorem insert_keeps_ascending_witness :
    rowOneThreeFive.WF ∧ 0 < rowOneThreeFive.rows ∧
    rowOneThreeFive.count.getD 0 0 + 1 < rowOneThreeFive.maxCols ∧
    (4 : Int) ∉ rowOneThreeFive.rowCols 0 ∧
    (rowOneThreeFive.rowCols 0).Pairwise (· ≤ ·) ∧
    ∃ m', rowOneThreeFive.insert ((0 : Nat) : Int) 4 1 = some m' ∧
      (m'.rowCols 0).Pairwise (· ≤ ·) :=
  ⟨by decide, by decide, by decide, by decide, by decide,
    let ⟨m', h1, h2, _⟩ :=
      insert_keeps_ascending rowOneThreeFive 0 4 1 (by decide) (by decide) (by decide)
        (by decide) (by decide)
    ⟨m', h1, h2⟩⟩

/-- Claim C5 at the mask `maskA`. -/
theorem makeIndex_spec_witness :
    maskA.hasData = true ∧
    ∃ index numElems, makeIndex maskA = some (index, numElems) ∧
      index.rows = maskA.rows ∧ index.cols = maskA.cols ∧
      numElems = trueBefore maskA (maskA.rows * maskA.cols) :=
  ⟨by decide,
    let ⟨index, n, h1, h2, h3, h4, _⟩ := makeIndex_spec maskA (by decide)
    ⟨index, n, h1, h2, h3, h4⟩⟩

/-- Claim C7 as amended, at the system `2 x0 = 4`, started from `0`. -/
theorem solve_again_close_witness :
    SolveWF oneA [1] [0] [4] 1 1 ∧ WeakDiagDominant oneA [1] [0] 1 1 ∧ (0 : ℚ) < 1 / 2 ∧
    ([0] : List ℚ).length = 1 ∧
    solve oneA [1] [0] [4] [0] 1 1 3 (1 / 2) = some ⟨[2], 2, true⟩ ∧
    ∃ r2, solve oneA [1] [0] [4] [2] 1 1 3 (1 / 2) = some r2 ∧
      ∀ i, i < 1 → |r2.x.getD i 0 - ([2] : List ℚ).getD i 0| < 1 / 2 :=
  ⟨by decide, by with_unfolding_all decide, by with_unfolding_all decide, by decide,
    by with_unfolding_all decide,
    solve_again_close oneA [1] [0] [4] 1 1 (by decide) (by with_unfolding_all decide) (1 / 2)
      (by with_unfolding_all decide) [0] (by decide) 3 ⟨[2], 2, true⟩
      (by with_unfolding_all decide) rfl 3⟩

/-- Claim C8 as amended, at the 3 × 3 images `srcA`, `dstA` with the mask `maskA`. -/
theorem diagonal_at_least_one_witness :
    makeIndex maskA = some (indexA, 2) ∧
    (srcA.rows = maskA.rows ∧ srcA.cols = maskA.cols ∧ dstA.rows = maskA.rows ∧
      dstA.cols = maskA.cols) ∧
    2 ≤ maskA.rows * maskA.cols ∧
    ∃ A b x split, getEquation srcA dstA maskA indexA 2 SparseMat.empty = some (A, b, x) ∧
      A.calcSplit [] = some split :=
  ⟨rfl, by decide, by decide,
    let ⟨A, b, x, split, h1, h2, _⟩ :=
      diagonal_at_least_one srcA dstA maskA indexA 2 SparseMat.empty rfl (by decide) (by decide)
    ⟨A, b, x, split, h1, h2⟩⟩

/-- Claim C9 at the constant source `srcA` (value 10) and the destination `dstA`,
which is 7 outside the mask `maskA`. -/
theorem constant_solution_witness :
    makeIndex maskA = some (indexA, 2) ∧
    (srcA.rows = maskA.rows ∧ srcA.cols = maskA.cols ∧ dstA.rows = maskA.rows ∧
      dstA.cols = maskA.cols) ∧
    2 ≤ maskA.rows * maskA.cols ∧
    (∀ i j, i < maskA.rows → j < maskA.cols → srcA.px i j = 10) ∧
    (∀ i j, i < maskA.rows → j < maskA.cols → maskA.px i j = 0 → dstA.px i j = 7) ∧
    ∃ A b x split, getEquation srcA dstA maskA indexA 2 SparseMat.empty = some (A, b, x) ∧
      A.calcSplit [] = some split ∧
      ∃ r, solve A.buf A.count split b (List.replicate 2 ((7 : Nat) : ℚ)) A.rows A.maxCols 10
          (1 / 100) = some r ∧
        r.x = List.replicate 2 ((7 : Nat) : ℚ) :=
  ⟨rfl, by decide, by decide,
    fun i j hi hj =>
      (by decide : ∀ i, i < maskA.rows → ∀ j, j < maskA.cols → srcA.px i j = 10) i hi j hj,
    fun i j hi hj =>
      (by decide : ∀ i, i < maskA.rows → ∀ j, j < maskA.cols →
        maskA.px i j = 0 → dstA.px i j = 7) i hi j hj,
    let ⟨A, b, x, split, h1, h2, _, h4⟩ :=
      constant_solution srcA dstA maskA indexA 2 SparseMat.empty 10 7 rfl (by decide) (by decide)
        (fun i j hi hj =>
          (by decide : ∀ i, i < maskA.rows → ∀ j, j < maskA.cols → srcA.px i j = 10) i hi j hj)
        (fun i j hi hj =>
          (by decide : ∀ i, i < maskA.rows → ∀ j, j < maskA.cols →
            maskA.px i j = 0 → dstA.px i j = 7) i hi j hj)
    ⟨A, b, x, split, h1, h2, h4 10 (1 / 100)⟩⟩

/-- Claim C10 at the mask `maskA`, the destination `dstA` and the vector `(7, 300)`. -/
theorem copy_frame_witness :
    makeIndex maskA = some (indexA, 2) ∧ ([7, 300] : List ℚ).length = 2 ∧
    (dstA.rows = maskA.rows ∧ dstA.cols = maskA.cols) ∧
    ∃ d, copy [7, 300] maskA indexA dstA = some d :=
  ⟨rfl, by decide, by decide,
    (copy_frame [7, 300] maskA indexA dstA 2 rfl (by decide) (by decide)).1 (by decide)⟩


/-! ## `insert` in every row that is not full -/

theorem insertShift_overrun (base i n : Nat) (buf : List IndexedValue)
    (h : buf.length ≤ base + (i + n) + 1) :
    SparseMat.insertShift base i (n + 1) buf = none := by
  rw [SparseMat.insertShift]
  have hn : ¬ (base + (i + n) + 1 < buf.length) := by omega
  cases buf[base + (i + n)]? with
  | none => rfl
  | some v => simp only [hn, if_false]

/-- The tail of `insert` once the search has ended at `i`, when the slot that the
shift loop writes first, if it runs, lies in the buffer. -/
theorem insert_tail_inside (buf : List IndexedValue) (base c i : Nat) (e : IndexedValue)
    (hi : i ≤ c) (hb : base + c < buf.length) (hs : i < c → base + c + 1 < buf.length) :
    ∃ buf1, (if i < c then SparseMat.insertShift base i (c + 1 - i) buf else some buf) = some buf1 ∧
      base + i < buf1.length ∧ (buf1.set (base + i) e).length = buf.length ∧
      ∀ p, (buf1.set (base + i) e)[p]? =
        if p = base + i then some e
        else if i < c ∧ base + i < p ∧ p ≤ base + c + 1 then buf[p - 1]?
        else buf[p]? := by
  by_cases hic : i < c
  · exact insert_tail_spec buf base c i e hi (hs hic)
  · refine ⟨buf, by rw [if_neg hic], by omega, by rw [List.length_set], ?_⟩
    intro p
    by_cases hp : p = base + i
    · subst hp
      rw [if_pos rfl, List.getElem?_set_self (by omega)]
    · rw [if_neg hp, List.getElem?_set_ne (fun h => hp h.symm), if_neg (by omega)]

/-- The search of `insert` in a row of a buffer that covers its used slots. -/
theorem insert_found (m : SparseMat) (r c : Nat) (idx : Int)
    (hb : r * m.maxCols + c ≤ m.buf.length) :
    ∃ i, i ≤ c ∧
      (if c > 0 then
        match m.buf[r * m.maxCols]? with
        | none => none
        | some first =>
          if idx > first.index then SparseMat.insertSearch m.buf (r * m.maxCols) c idx (c - 1)
          else some 0
      else some 0) = some i ∧
      ((i = 0 ∧ (c = 0 ∨ idx ≤ m.colAt r 0)) ∨
       (0 < c ∧ m.colAt r 0 < idx ∧ 1 ≤ i ∧
         (i < c → m.colAt r (i - 1) < idx ∧ idx < m.colAt r i) ∧
         ∀ k, 1 ≤ k → k < i → ¬ (m.colAt r (k - 1) < idx ∧ idx < m.colAt r k))) := by
  by_cases hc0 : c > 0
  · have h0 : r * m.maxCols < m.buf.length := by omega
    rw [if_pos hc0, List.getElem?_eq_getElem h0]
    have hcol0 : m.colAt r 0 = m.buf[r * m.maxCols].index := by
      simp [SparseMat.colAt, List.getElem?_eq_getElem h0]
    by_cases hgt : idx > m.buf[r * m.maxCols].index
    · obtain ⟨i, h1, h2, h3, h4, h5⟩ :=
        insertSearch_spec m.buf (r * m.maxCols) c idx hb (c - 1) (by omega)
      refine ⟨i, h3, by simp only [hgt, if_true]; exact h1, Or.inr ⟨hc0, ?_, by omega, ?_, ?_⟩⟩
      · rw [hcol0]; exact hgt
      · intro hic
        exact h4 hic
      · intro k hk1 hk2
        exact h5 k (by omega) hk2
    · refine ⟨0, Nat.zero_le _, by simp only [hgt, if_false], Or.inl ⟨rfl, Or.inr ?_⟩⟩
      rw [hcol0]; omega
  · exact ⟨0, Nat.zero_le _, by rw [if_neg hc0], Or.inl ⟨rfl, Or.inl (by omega)⟩⟩

/-- What `insert` does to any row that is not full.  The search ends at a position
`i`.  When the row holds `maxCols - 1` entries, is the last row of the buffer
and `i` is not the end of the row, the shift loop starts with a write past
the buffer and the call has no result; in every other case the call returns,
and the buffer afterwards is given position by position: the shift loop,
when it runs, also copies slot `c` of the row to slot `c + 1`. -/
theorem insert_cases (m : SparseMat) (r c : Nat) (idx : Int) (v : ℚ)
    (hlen : m.buf.length = m.rows * m.maxCols) (hr : r < m.rows)
    (hc : m.count[r]? = some c) (hcap : c < m.maxCols) :
    ∃ i, i ≤ c ∧
      ((i = 0 ∧ (c = 0 ∨ idx ≤ m.colAt r 0)) ∨
       (0 < c ∧ m.colAt r 0 < idx ∧ 1 ≤ i ∧
         (i < c → m.colAt r (i - 1) < idx ∧ idx < m.colAt r i) ∧
         ∀ k, 1 ≤ k → k < i → ¬ (m.colAt r (k - 1) < idx ∧ idx < m.colAt r k))) ∧
      ((i < c ∧ m.buf.length ≤ r * m.maxCols + c + 1 ∧ m.insert (r : Int) idx v = none) ∨
       (∃ m', m.insert (r : Int) idx v = some m' ∧
        m'.rows = m.rows ∧ m'.maxCols = m.maxCols ∧ m'.count = m.count.set r (c + 1) ∧
        m'.buf.length = m.buf.length ∧
        ∀ p, m'.buf[p]? =
          if p = r * m.maxCols + i then some ⟨idx, v⟩
          else if i < c ∧ r * m.maxCols + i < p ∧ p ≤ r * m.maxCols + c + 1 then m.buf[p - 1]?
          else m.buf[p]?)) := by
  have hend := row_end_le m r hlen hr
  have hguard : ¬ ((r : Int) < 0 ∨ (r : Int) ≥ (m.rows : Int)) := by omega
  have hne : c ≠ m.maxCols := by omega
  obtain ⟨i, hic, hf, hchar⟩ := insert_found m r c idx (by omega)
  refine ⟨i, hic, hchar, ?_⟩
  by_cases hov : i < c ∧ m.buf.length ≤ r * m.maxCols + c + 1
  · left
    refine ⟨hov.1, hov.2, ?_⟩
    rw [SparseMat.insert, if_neg hguard]
    simp only [Int.toNat_ofNat, hc, hne, if_false]
    rw [hf]
    simp only [hov.1, if_true]
    obtain ⟨d, hd⟩ : ∃ d, c + 1 - i = d + 1 := ⟨c - i, by omega⟩
    rw [hd, insertShift_overrun _ _ _ _ (by omega)]
  · right
    obtain ⟨buf1, hs, hlt, hl, hp⟩ :=
      insert_tail_inside m.buf (r * m.maxCols) c i ⟨idx, v⟩ hic (by omega) (by omega)
    refine ⟨({ m with
        buf := buf1.set (r * m.maxCols + i) ⟨idx, v⟩
        count := m.count.set r (c + 1) } : SparseMat), ?_, rfl, rfl, rfl, hl, hp⟩
    rw [SparseMat.insert, if_neg hguard]
    simp only [Int.toNat_ofNat, hc, hne, if_false]
    rw [hf]
    simp only [hs, hlt, if_true]

/-- The fact about `insert` on rows for any row that is not full: whenever the
call returns, the storage invariant holds again, the new entry lands at a
position `i` the search allows, the other used entries of the row keep their
order around it, and every row other than the next one keeps its entries. -/
theorem insert_row_any (m m' : SparseMat) (r : Nat) (idx : Int) (v : ℚ) (hwf : m.WF)
    (hr : r < m.rows) (hcap : m.count.getD r 0 < m.maxCols)
    (hret : m.insert (r : Int) idx v = some m') :
    ∃ i, m'.WF ∧ m'.rows = m.rows ∧
      m'.maxCols = m.maxCols ∧ m'.count = m.count.set r (m.count.getD r 0 + 1) ∧
      i ≤ (m.rowEntries r).length ∧
      m'.rowEntries r = (m.rowEntries r).take i ++ ⟨idx, v⟩ :: (m.rowEntries r).drop i ∧
      (∀ r1, r1 ≠ r → r1 ≠ r + 1 → m'.rowEntries r1 = m.rowEntries r1) ∧
      SearchPos (m.rowCols r) idx i := by
  obtain ⟨hlen, hcl, hcnt⟩ := hwf
  have hrc : r < m.count.length := by omega
  have hc : m.count[r]? = some (m.count.getD r 0) := by
    rw [List.getD_eq_getElem?_getD, List.getElem?_eq_getElem hrc]; rfl
  generalize hcdef : m.count.getD r 0 = c at hc hcap
  obtain ⟨i, hic, hchar, hcase⟩ := insert_cases m r c idx v hlen hr hc hcap
  rcases hcase with ⟨_, _, hnone⟩ | ⟨m1, hins, hrows, hmc, hcount, hbl, hp⟩
  · rw [hnone] at hret
    exact Option.noConfusion hret
  rw [hins] at hret
  obtain rfl := Option.some.inj hret
  have hend := row_end_le m r hlen hr
  have hesl : (m.rowEntries r).length = c := by
    rw [rowEntries_length m r ⟨hlen, hcl, hcnt⟩ hr, hcdef]
  have hcolsl : (m.rowCols r).length = c := by rw [SparseMat.rowCols, List.length_map, hesl]
  refine ⟨i, ⟨?_, ?_, ?_⟩, hrows, hmc, hcount, by omega, ?_, ?_, ?_⟩
  · rw [hbl, hlen, hrows, hmc]
  · rw [hcount, List.length_set, hcl, hrows]
  · intro r1 hr1
    rw [hcount, count_getD_set _ _ _ _ hrc, hmc]
    by_cases h : r1 = r
    · rw [if_pos h]; omega
    · rw [if_neg h]; exact hcnt r1 (by omega)
  · apply List.ext_getElem?
    intro k
    rw [getElem?_insertAt _ _ _ _ (by omega)]
    simp only [rowEntries_getElem?, hcount, count_getD_set _ _ _ _ hrc, hmc, hp, hcdef,
      if_true]
    split_ifs <;> first | rfl | (exfalso; omega) | (congr 1; omega)
  · intro r1 hr1 hr2
    apply List.ext_getElem?
    intro k
    rw [rowEntries_getElem?, rowEntries_getElem?, hcount, count_getD_set _ _ _ _ hrc,
      if_neg hr1, hmc]
    by_cases hk : k < m.count.getD r1 0
    · rw [if_pos hk, if_pos hk, hp]
      have hr1rows : r1 < m.rows := by
        by_contra hge
        have : m.count.getD r1 0 = 0 := by
          rw [List.getD_eq_getElem?_getD, List.getElem?_eq_none (by omega)]; rfl
        omega
      have hk2 := hcnt r1 hr1rows
      rcases Nat.lt_or_gt_of_ne hr1 with hlt | hgt
      · have : r1 * m.maxCols + m.maxCols ≤ r * m.maxCols := by
          calc r1 * m.maxCols + m.maxCols = (r1 + 1) * m.maxCols := by ring
            _ ≤ r * m.maxCols := Nat.mul_le_mul_right _ hlt
        rw [if_neg (by omega), if_neg (by omega)]
      · have : r * m.maxCols + m.maxCols + m.maxCols ≤ r1 * m.maxCols := by
          calc r * m.maxCols + m.maxCols + m.maxCols = (r + 2) * m.maxCols := by ring
            _ ≤ r1 * m.maxCols := Nat.mul_le_mul_right _ (by omega)
        rw [if_neg (by omega), if_neg (by omega)]
    · rw [if_neg hk, if_neg hk]
  · have hcol : ∀ k, k < c → (m.rowCols r).getD k (-1) = m.colAt r k :=
      fun k hk => rowCols_getD m r k (by omega)
    rcases hchar with ⟨h0, h1⟩ | ⟨h0, h1, h2, h3, h4⟩
    · left
      refine ⟨h0, ?_⟩
      rcases h1 with h1 | h1
      · left; omega
      · by_cases hc0 : c = 0
        · left; omega
        · right; rw [hcol 0 (by omega)]; exact h1
    · right
      refine ⟨by omega, by rw [hcol 0 h0]; exact h1, h2, ?_, ?_⟩
      · intro hi
        rw [hcol (i - 1) (by omega), hcol i (by omega)]
        exact h3 (by omega)
      · intro k hk1 hk2
        rw [hcol (k - 1) (by omega), hcol k (by omega)]
        exact h4 k hk1 hk2

/-- Inserting pairs with pairwise distinct columns, none of them in the row yet,
into a row that has room for all of them: whenever every insert returns, the
row holds exactly its old entries and the pairs, and a strictly ascending row
is strictly ascending again. -/
theorem insertAll_any (r : Nat) (pairs : List (Int × ℚ)) : ∀ (m m' : SparseMat),
    m.WF → r < m.rows → m.count.getD r 0 + pairs.length ≤ m.maxCols →
    (pairs.map Prod.fst).Nodup → (∀ p ∈ pairs, p.1 ∉ m.rowCols r) →
    m.insertAll (r : Int) pairs = some m' →
    m'.WF ∧ m'.rows = m.rows ∧ m'.maxCols = m.maxCols ∧
      m'.count.getD r 0 = m.count.getD r 0 + pairs.length ∧
      (m'.rowEntries r).Perm (pairs.map (fun p => ⟨p.1, p.2⟩) ++ m.rowEntries r) ∧
      ((m.rowCols r).Pairwise (· < ·) → (m'.rowCols r).Pairwise (· < ·)) := by
  induction pairs with
  | nil =>
    intro m m' hwf _ _ _ _ hret
    obtain rfl := Option.some.inj hret
    exact ⟨hwf, rfl, rfl, rfl, List.Perm.refl _, fun h => h⟩
  | cons p ps ih =>
    intro m m' hwf hr hcap hnd hnot hret
    simp only [List.length_cons] at hcap
    simp only [List.map_cons, List.nodup_cons] at hnd
    rw [SparseMat.insertAll] at hret
    cases hins : m.insert (r : Int) p.1 p.2 with
    | none => rw [hins] at hret; exact Option.noConfusion hret
    | some m1 =>
      rw [hins, Option.some_bind] at hret
      obtain ⟨i, h2, h3, h4, h5, h6, h7, _, h9⟩ :=
        insert_row_any m m1 r p.1 p.2 hwf hr (by omega) hins
      have hrc : r < m.count.length := by rw [hwf.2.1]; exact hr
      have hc1 : m1.count.getD r 0 = m.count.getD r 0 + 1 := by
        rw [h5, count_getD_set _ _ _ _ hrc, if_pos rfl]
      have hperm1 : (m1.rowEntries r).Perm (⟨p.1, p.2⟩ :: m.rowEntries r) := by
        rw [h7]
        refine List.perm_middle.trans ?_
        rw [List.take_append_drop]
      have hcols1 : (m1.rowCols r).Perm (p.1 :: m.rowCols r) := by
        have := hperm1.map IndexedValue.index
        simpa [SparseMat.rowCols] using this
      have hcolseq : m1.rowCols r = (m.rowCols r).take i ++ p.1 :: (m.rowCols r).drop i := by
        simp only [SparseMat.rowCols, h7, List.map_append, List.map_cons, List.map_take,
          List.map_drop]
      obtain ⟨g2, g3, g4, g5, g7, g9⟩ := ih m1 m' h2 (by rw [h3]; exact hr)
        (by rw [hc1, h4]; omega) hnd.2
        (by
          intro q hq hmem
          rcases List.mem_cons.mp (hcols1.mem_iff.mp hmem) with h | h
          · exact hnd.1 (h ▸ List.mem_map_of_mem Prod.fst hq)
          · exact hnot q (List.mem_cons_of_mem _ hq) h)
        hret
      refine ⟨g2, g3.trans h3, g4.trans h4, by rw [g5, hc1, List.length_cons]; omega, ?_, ?_⟩
      · refine g7.trans ?_
        simp only [List.map_cons, List.cons_append]
        refine (List.Perm.append_left _ hperm1).trans ?_
        exact List.perm_middle
      · intro hs
        apply g9
        rw [hcolseq]
        exact pairwise_insertAt (· < ·) (fun _ _ h => le_of_lt h) (fun _ _ h => h) _ _ _ h9 hs
          (hnot p (List.mem_cons_self _ _))

/-! ## `calcSplit` after inserts -/

theorem resizeSplit_nil_getElem? (rows i : Nat) (hi : i < rows) :
    (resizeSplit [] rows)[i]? = some (-1) := by
  simp [resizeSplit, List.getElem?_replicate, hi]

/-- In a strictly ascending list the position of an element is the number of
elements below it. -/
theorem countP_lt_of_sorted (l : List Int) (hs : l.Pairwise (· < ·)) (j : Nat) (a : Int)
    (h : l[j]? = some a) : l.countP (fun c => decide (c < a)) = j := by
  obtain ⟨hj, ha⟩ := List.getElem?_eq_some.mp h
  have hsplit : l = l.take j ++ a :: l.drop (j + 1) := by
    rw [← ha, List.getElem_cons_drop, List.take_append_drop]
  have hs2 := hs
  rw [hsplit, List.pairwise_append] at hs2
  obtain ⟨_, h2, h3⟩ := hs2
  rw [List.pairwise_cons] at h2
  have e1 : (l.take j).countP (fun c => decide (c < a)) = (l.take j).length := by
    rw [List.countP_eq_length]
    intro c hc
    exact decide_eq_true (h3 c hc a (List.mem_cons_self _ _))
  have e2 : (l.drop (j + 1)).countP (fun c => decide (c < a)) = 0 := by
    rw [List.countP_eq_zero]
    intro c hc
    have := h2.1 c hc
    simp only [decide_eq_true_eq, not_lt]
    omega
  have e3 : (l.take j).length = j := by rw [List.length_take]; omega
  rw [hsplit, List.countP_append, List.countP_cons, e1, e2, e3]
  simp

/-- The table of `calcSplit` for a row that holds pairwise distinct columns in
ascending order, its own among them: the entry of the row is the number of
columns of the row that are smaller than the row number. -/
theorem calcSplit_sorted_row (m : SparseMat) (hwf : m.WF) (r : Nat) (hr : r < m.rows)
    (hs : (m.rowCols r).Pairwise (· < ·)) (hmem : (r : Int) ∈ m.rowCols r) :
    ∃ split, m.calcSplit [] = some split ∧
      split[r]? = some (((m.rowCols r).countP (fun c => decide (c < (r : Int))) : Nat) : Int) := by
  obtain ⟨split, h1, _, h3⟩ := calcSplit_spec m hwf []
  refine ⟨split, h1, ?_⟩
  rcases h3 r hr with ⟨j, g1, _, g3, _⟩ | ⟨g1, _⟩
  · rw [g1, countP_lt_of_sorted _ hs j _ g3]
  · exact absurd hmem g1

/-- Claim C11.  On every well-formed matrix, `calcSplit` with a fresh table returns
a table with one element per row, in which `split[i]` is the position
`j < count[i]` of the first used entry of row `i` whose column is `i`, and `-1`
when the row has no used entry with that column.  In particular, for pairwise
distinct columns that include column `r` and fit an empty row `r`: whenever
the inserts have been made, `split[r]` is the number of inserted columns
smaller than `r`; and with fewer than `maxCols` columns the inserts are
always made. -/
theorem calcSplit_first_diagonal (m : SparseMat) (hwf : m.WF) :
    (∃ split, m.calcSplit [] = some split ∧ split.length = m.rows ∧
      ∀ i, i < m.rows →
        (∃ j : Nat, split[i]? = some (j : Int) ∧ j < m.count.getD i 0 ∧
          (m.rowCols i)[j]? = some (i : Int) ∧
          ∀ j1, j1 < j → (m.rowCols i)[j1]? ≠ some (i : Int)) ∨
        ((i : Int) ∉ m.rowCols i ∧ split[i]? = some (-1))) ∧
    (∀ (r : Nat) (pairs : List (Int × ℚ)), r < m.rows → m.count.getD r 0 = 0 →
      (pairs.map Prod.fst).Nodup → (r : Int) ∈ pairs.map Prod.fst →
      pairs.length ≤ m.maxCols →
      ∀ m1, m.insertAll (r : Int) pairs = some m1 →
        ∃ split1, m1.calcSplit [] = some split1 ∧
          split1[r]? = some (((pairs.filter (fun p => decide (p.1 < (r : Int)))).length : Nat) : Int)) ∧
    (∀ (r : Nat) (pairs : List (Int × ℚ)), r < m.rows → m.count.getD r 0 = 0 →
      (pairs.map Prod.fst).Nodup → pairs.length < m.maxCols →
      ∃ m1, m.insertAll (r : Int) pairs = some m1) := by
  refine ⟨?_, ?_, ?_⟩
  · obtain ⟨split, h1, h2, h3⟩ := calcSplit_spec m hwf []
    refine ⟨split, h1, h2, fun i hi => ?_⟩
    rcases h3 i hi with h | ⟨g1, g2⟩
    · exact Or.inl h
    · exact Or.inr ⟨g1, by rw [g2, resizeSplit_nil_getElem? _ _ hi]⟩
  · intro r pairs hr h0 hnd hmem hlen m1 hret
    have hrow0 := rowEntries_of_count_zero m r h0
    obtain ⟨g1, g2, _, _, g5, g6⟩ := insertAll_any r pairs m m1 hwf hr (by omega) hnd
      (by intro p _; rw [SparseMat.rowCols, hrow0]; simp) hret
    rw [hrow0, List.append_nil] at g5
    have hcols : (m1.rowCols r).Perm (pairs.map Prod.fst) := by
      have := g5.map IndexedValue.index
      simpa [SparseMat.rowCols, List.map_map, Function.comp] using this
    obtain ⟨split1, f1, f2⟩ := calcSplit_sorted_row m1 g1 r (by rw [g2]; exact hr)
      (g6 (by rw [SparseMat.rowCols, hrow0]; exact List.Pairwise.nil))
      (hcols.mem_iff.mpr hmem)
    refine ⟨split1, f1, ?_⟩
    rw [f2, hcols.countP_eq, List.countP_map, List.countP_eq_length_filter]
    rfl
  · intro r pairs hr h0 hnd hlen
    have hrow0 := rowEntries_of_count_zero m r h0
    obtain ⟨m1, g1, _⟩ := insertAll_new_columns r pairs m hwf hr (by omega) hnd
      (by intro p _; rw [SparseMat.rowCols, hrow0]; simp)
    exact ⟨m1, g1⟩
/-- Claim C11 at a fresh 2 × 8 matrix and the columns 3, 1, 0 inserted into row 1. -/
theorem calcSplit_first_diagonal_witness :
    (SparseMat.empty.create 2 8).WF ∧
    (∃ split, (SparseMat.empty.create 2 8).calcSplit [] = some split ∧ split.length = 2) ∧
    ∃ m1, (SparseMat.empty.create 2 8).insertAll ((1 : Nat) : Int) [(3, 1), (1, 4), (0, -1)] =
        some m1 ∧
      ∃ split1, m1.calcSplit [] = some split1 ∧ split1[1]? = some ((1 : Nat) : Int) :=
  ⟨by decide,
    let ⟨⟨split, h1, h2, _⟩, _, _⟩ :=
      calcSplit_first_diagonal (SparseMat.empty.create 2 8) (by decide)
    ⟨split, h1, h2⟩,
    let ⟨_, g2, g3⟩ := calcSplit_first_diagonal (SparseMat.empty.create 2 8) (by decide)
    let ⟨m1, f1⟩ := g3 1 [(3, 1), (1, 4), (0, -1)] (by decide) (by decide) (by decide) (by decide)
    ⟨m1, f1, g2 1 [(3, 1), (1, 4), (0, -1)] (by decide) (by decide) (by decide) (by decide)
      (by decide) m1 f1⟩⟩

/-! ## Dropped inserts -/

/-- Claim C12.  For every matrix, `insert(row, column, value)` with a row index
outside `[0, rows)`, or into a row whose count is already `maxCols`, returns
with the matrix as it was: every slot, every count and both dimensions are
unchanged, and nothing is reported. -/
theorem insert_dropped (m : SparseMat) (row idx : Int) (v : ℚ) :
    (row < 0 ∨ (m.rows : Int) ≤ row → m.insert row idx v = some m) ∧
    (m.count[row.toNat]? = some m.maxCols → m.insert row idx v = some m) := by
  constructor
  · intro h
    have h1 : row < 0 ∨ row ≥ (m.rows : Int) := h
    simp only [SparseMat.insert, h1, if_true]
  · intro h
    by_cases h1 : row < 0 ∨ row ≥ (m.rows : Int)
    · simp only [SparseMat.insert, h1, if_true]
    · simp only [SparseMat.insert, h1, if_false, h, if_true]

/-- Claim C12 at a 1 × 2 matrix whose only row is full, and at the row indices
`5` and `-1`. -/
theorem insert_dropped_witness :
    (fullRow.count[((0 : Int)).toNat]? = some fullRow.maxCols ∧
      fullRow.insert 0 2 7 = some fullRow) ∧
    ((fullRow.rows : Int) ≤ 5 ∧ fullRow.insert 5 2 7 = some fullRow) ∧
    ((-1 : Int) < 0 ∧ fullRow.insert (-1) 2 7 = some fullRow) :=
  ⟨⟨by decide, (insert_dropped fullRow 0 2 7).2 (by decide)⟩,
    ⟨by decide, (insert_dropped fullRow 5 2 7).1 (Or.inr (by decide))⟩,
    ⟨by decide, (insert_dropped fullRow (-1) 2 7).1 (Or.inl (by decide))⟩⟩

/-! ## `create` -/

/-- Claim C17, a failing input.  In the 2 × 2 matrix `twoRows`, built by
`insert(1, 7, 1.0)` and `insert(0, 5, 1.0)`, row 0 holds one entry, fewer than
`maxCols = 2`.  The call `insert(0, 3, 2.0)` returns, and it has written
buffer position 2, which is slot 0 of row 1: the entry `(7, 1)` of row 1 is
replaced by the unused slot that was shifted out of row 0, while `count[1]`
is still 1. -/
theorem insert_overwrites_next_row :
    (((SparseMat.empty.create 2 2).insert 1 7 1).bind fun m => m.insert 0 5 1) = some twoRows ∧
    twoRows.WF ∧ twoRows.count.getD 0 0 < twoRows.maxCols ∧
    twoRows.insert 0 3 2 =
      some ⟨2, 2, [⟨3, 2⟩, ⟨5, 1⟩, memsetSlot, memsetSlot], [2, 1]⟩ ∧
    twoRows.rowEntries 1 = [⟨7, 1⟩] ∧
    (twoRows.insert 0 3 2).map (fun m => m.rowEntries 1) = some [memsetSlot] ∧
    (twoRows.insert 0 3 2).map (fun m => m.buf[1 * 2 + 0]?) ≠ some twoRows.buf[1 * 2 + 0]? := by
  refine ⟨by decide, by decide, by decide, by decide, by decide, by decide, by decide⟩

/-! ## The shape of the assembled rows -/

/-- The entries of an assembled row other than the diagonal one are the entries
`(index(n), -1)` of the masked in-bounds neighbours. -/
theorem offdiag_perm (A : SparseMat) (mask : Mat Nat) (index : Mat Int) (i j k s : Nat)
    (hidx : index.px i j = (k : Int))
    (hp : (A.rowEntries k).Perm (expectedRow mask index i j))
    (hs : (A.rowEntries k)[s]? =
      some ⟨(k : Int), ((neighbours mask.rows mask.cols i j).length : ℚ)⟩) :
    ((A.rowEntries k).eraseIdx s).Perm
      (((neighbours mask.rows mask.cols i j).filter (fun n => decide (mask.px n.1 n.2 ≠ 0))).map
        (fun n => (⟨index.px n.1 n.2, -1⟩ : IndexedValue))) := by
  have h1 := (perm_cons_eraseIdx _ s _ hs).symm.trans hp
  rw [expectedRow, hidx] at h1
  exact (h1.trans (List.perm_append_singleton _ _)).cons_inv

/-- The column of a masked in-bounds neighbour is not the column of the pixel. -/
theorem neighbour_index_ne (mask : Mat Nat) (index : Mat Int) (hix : IndexOK mask index)
    (i j : Nat) (hi : i < mask.rows) (hj : j < mask.cols) (hm : mask.px i j ≠ 0)
    (n : Nat × Nat) (hn : n ∈ neighbours mask.rows mask.cols i j) (hmn : mask.px n.1 n.2 ≠ 0) :
    index.px n.1 n.2 ≠ index.px i j := by
  obtain ⟨h1, h2, h3⟩ := neighbours_mem _ _ i j hi hj n hn
  intro h
  obtain ⟨e1, e2⟩ := index_inj mask index hix n.1 n.2 i j h1 h2 hi hj hmn hm h
  exact h3 (Prod.ext e1 e2)

/-- Claim C13.  In the system that `getEquation` assembles on the index grid of
`makeIndex`, let `k` be the unknown of a masked pixel and `s = split[k]`.  If
the pixel has 4 in-bounds neighbours and all of them are masked, the entry at
`s` is `(k, 4)` and the row has exactly 4 other entries, each with coefficient
`-1` and a column other than `k`.  If the pixel has 2 in-bounds neighbours (as
a corner pixel of an image with at least two rows and two columns has) and
both are outside the mask, the row is the single entry `(k, 2)`. -/
theorem interior_and_corner_rows (src dst mask : Mat Nat) (index : Mat Int) (count : Nat)
    (A0 : SparseMat) (hmk : makeIndex mask = some (index, count))
    (hs : src.rows = mask.rows ∧ src.cols = mask.cols ∧ dst.rows = mask.rows ∧
      dst.cols = mask.cols) :
    ∃ A b x split, getEquation src dst mask index count A0 = some (A, b, x) ∧
      A.calcSplit [] = some split ∧
      ∀ i j, i < mask.rows → j < mask.cols → mask.px i j ≠ 0 →
        ∃ k s : Nat, index.px i j = (k : Int) ∧ k < count ∧ split[k]? = some (s : Int) ∧
          ((neighbours mask.rows mask.cols i j).length = 4 →
            (∀ n ∈ neighbours mask.rows mask.cols i j, mask.px n.1 n.2 ≠ 0) →
            (A.rowEntries k)[s]? = some ⟨(k : Int), 4⟩ ∧
            (A.rowEntries k).length = 5 ∧
            ((A.rowEntries k).eraseIdx s).length = 4 ∧
            ∀ e ∈ (A.rowEntries k).eraseIdx s, e.value = -1 ∧ e.index ≠ (k : Int)) ∧
          ((neighbours mask.rows mask.cols i j).length = 2 →
            (∀ n ∈ neighbours mask.rows mask.cols i j, mask.px n.1 n.2 = 0) →
            A.rowEntries k = [⟨(k : Int), 2⟩] ∧ s = 0) := by
  obtain ⟨hd, hix, rfl⟩ := makeIndex_some mask index count hmk
  obtain ⟨A, b, x, split, h1, h2, _, _, _, _, _, _, h9⟩ :=
    assembled_system src dst mask index A0 hd hix hs
  refine ⟨A, b, x, split, h1, h2, ?_⟩
  intro i j hi hj hm
  obtain ⟨e1, _, e3, _, _, s, f1, f2, f3⟩ := h9 i j hi hj hm
  have hidx : index.px i j = (trueBefore mask (i * mask.cols + j) : Int) := by
    rw [hix.2.2 i j hi hj, if_pos hm]
  have hk := trueBefore_lt mask _ _ (pos_lt _ _ i j hi hj) (maskAt_true mask i j hj hm)
  have hoff := offdiag_perm A mask index i j _ s hidx e1 f3
  refine ⟨_, s, hidx, hk, f1, ?_, ?_⟩
  · intro h4 hall
    have hfil : (neighbours mask.rows mask.cols i j).filter
        (fun n => decide (mask.px n.1 n.2 ≠ 0)) = neighbours mask.rows mask.cols i j := by
      rw [List.filter_eq_self]
      intro n hn
      exact decide_eq_true (hall n hn)
    rw [hfil] at hoff
    refine ⟨?_, ?_, ?_, ?_⟩
    · rw [f3, h4]; rfl
    · rw [e1.length_eq, expectedRow, hfil]
      simp [h4]
    · rw [hoff.length_eq, List.length_map, h4]
    · intro e he
      obtain ⟨n, hn, rfl⟩ := List.mem_map.mp (hoff.mem_iff.mp he)
      refine ⟨rfl, ?_⟩
      rw [← hidx]
      exact neighbour_index_ne mask index hix i j hi hj hm n hn (hall n hn)
  · intro h2n hall
    have hfil : (neighbours mask.rows mask.cols i j).filter
        (fun n => decide (mask.px n.1 n.2 ≠ 0)) = [] := by
      rw [List.filter_eq_nil_iff]
      intro n hn
      simp [hall n hn]
    have hrow : A.rowEntries (trueBefore mask (i * mask.cols + j)) =
        [⟨(trueBefore mask (i * mask.cols + j) : Int), 2⟩] := by
      have := e1
      rw [expectedRow, hfil, List.map_nil, List.nil_append, hidx, h2n] at this
      exact List.perm_singleton.mp this
    refine ⟨hrow, ?_⟩
    have hlen : (expectedRow mask index i j).length = 1 := by
      rw [expectedRow, hfil]; rfl
    omega

/-- Claim C13 at the 3 × 4 mask `maskPlus`, used as source and destination too: the
interior pixel `(1, 2)` and the corner pixel `(0, 0)`. -/
theorem interior_and_corner_rows_witness :
    makeIndex maskPlus = some (indexPlus, 6) ∧
    (maskPlus.rows = maskPlus.rows ∧ maskPlus.cols = maskPlus.cols ∧
      maskPlus.rows = maskPlus.rows ∧ maskPlus.cols = maskPlus.cols) ∧
    neighbours maskPlus.rows maskPlus.cols 1 2 = [(0, 2), (2, 2), (1, 1), (1, 3)] ∧
    neighbours maskPlus.rows maskPlus.cols 0 0 = [(1, 0), (0, 1)] ∧
    ∃ A b x split,
      getEquation maskPlus maskPlus maskPlus indexPlus 6 SparseMat.empty = some (A, b, x) ∧
      A.calcSplit [] = some split ∧
      (∃ k s : Nat, indexPlus.px 1 2 = (k : Int) ∧ (A.rowEntries k)[s]? = some ⟨(k : Int), 4⟩ ∧
        ((A.rowEntries k).eraseIdx s).length = 4) ∧
      ∃ k : Nat, indexPlus.px 0 0 = (k : Int) ∧ A.rowEntries k = [⟨(k : Int), 2⟩] :=
  ⟨rfl, by decide, by decide, by decide,
    let ⟨A, b, x, split, h1, h2, h3⟩ :=
      interior_and_corner_rows maskPlus maskPlus maskPlus indexPlus 6 SparseMat.empty rfl
        (by decide)
    let ⟨k, s, g1, _, _, g4, _⟩ := h3 1 2 (by decide) (by decide) (by decide)
    let ⟨k0, _, f1, _, _, _, f5⟩ := h3 0 0 (by decide) (by decide) (by decide)
    let g := g4 (by decide) (by decide)
    ⟨A, b, x, split, h1, h2, ⟨k, s, g1, g.1, g.2.2.1⟩, k0, f1, (f5 (by decide) (by decide)).1⟩⟩

/-! ## Symmetry and dominance of the assembled matrix -/

theorem mem_neighbours_iff (rows cols i j : Nat) (n : Nat × Nat) :
    n ∈ neighbours rows cols i j ↔
      (n.1 + 1 = i ∧ n.2 = j) ∨ (n.1 = i + 1 ∧ n.1 < rows ∧ n.2 = j) ∨
      (n.1 = i ∧ n.2 + 1 = j) ∨ (n.1 = i ∧ n.2 = j + 1 ∧ n.2 < cols) := by
  obtain ⟨a, c⟩ := n
  rw [neighbours]
  by_cases g1 : i > 0 <;> by_cases g2 : i + 1 < rows <;> by_cases g3 : j > 0 <;>
    by_cases g4 : j + 1 < cols <;>
    simp only [g1, g2, g3, g4, if_true, if_false, List.nil_append, List.append_nil,
      List.singleton_append, List.cons_append, List.mem_cons, List.mem_singleton,
      Prod.mk.injEq, List.not_mem_nil, or_false, false_iff] <;>
    omega

/-- Being an in-bounds 4-neighbour is a symmetric relation on the pixels of the image. -/
theorem neighbours_symm (rows cols i j a c : Nat) (hi : i < rows) (hj : j < cols)
    (h : (a, c) ∈ neighbours rows cols i j) : (i, j) ∈ neighbours rows cols a c := by
  rw [mem_neighbours_iff] at h ⊢
  simp only at h ⊢
  omega

/-- For two different masked pixels, the row of the first holds the entry
`(index of the second, -1)` exactly when the second is a neighbour of the first. -/
theorem offdiag_mem_iff (mask : Mat Nat) (index : Mat Int) (hix : IndexOK mask index)
    (i j a c : Nat) (hi : i < mask.rows) (hj : j < mask.cols) (ha : a < mask.rows)
    (hc : c < mask.cols) (hm : mask.px i j ≠ 0) (hm1 : mask.px a c ≠ 0) (hne : (a, c) ≠ (i, j)) :
    (⟨index.px a c, -1⟩ : IndexedValue) ∈ expectedRow mask index i j ↔
      (a, c) ∈ neighbours mask.rows mask.cols i j := by
  rw [expectedRow, List.mem_append, List.mem_map, List.mem_singleton]
  constructor
  · rintro (⟨n, hn, he⟩ | he)
    · rw [List.mem_filter] at hn
      obtain ⟨hn1, hn2⟩ := hn
      have hmn : mask.px n.1 n.2 ≠ 0 := of_decide_eq_true hn2
      obtain ⟨b1, b2, _⟩ := neighbours_mem _ _ i j hi hj n hn1
      have hidx : index.px n.1 n.2 = index.px a c := congrArg IndexedValue.index he
      obtain ⟨e1, e2⟩ := index_inj mask index hix n.1 n.2 a c b1 b2 ha hc hmn hm1 hidx
      have : n = (a, c) := Prod.ext e1 e2
      rw [← this]
      exact hn1
    · have hidx : index.px a c = index.px i j := congrArg IndexedValue.index he
      obtain ⟨e1, e2⟩ := index_inj mask index hix a c i j ha hc hi hj hm1 hm hidx
      exact absurd (Prod.ext e1 e2) hne
  · intro h
    exact Or.inl ⟨(a, c), List.mem_filter.mpr ⟨h, decide_eq_true hm1⟩, rfl⟩

/-- Claim C20.  In the system that `getEquation` assembles on the index grid of
`makeIndex`, for an image of any size: for unknowns `k ≠ l`, row `k` holds the
entry `(l, -1)` if and only if row `l` holds the entry `(k, -1)`; and for
every masked pixel, with `k` its unknown and `s = split[k]`, the entry at `s`
is the diagonal entry `(k, d)`, every other entry of the row has coefficient
`-1` and the column of another unknown, `d` is at least the number of these
other entries, and it is greater exactly when the pixel has an in-bounds
neighbour outside the mask. -/
theorem assembled_symmetric_dominant (src dst mask : Mat Nat) (index : Mat Int) (count : Nat)
    (A0 : SparseMat) (hmk : makeIndex mask = some (index, count))
    (hs : src.rows = mask.rows ∧ src.cols = mask.cols ∧ dst.rows = mask.rows ∧
      dst.cols = mask.cols) :
    ∃ A b x split, getEquation src dst mask index count A0 = some (A, b, x) ∧
      A.calcSplit [] = some split ∧ A.rows = count ∧
      (∀ k l : Nat, k < count → l < count → k ≠ l →
        ((⟨(l : Int), -1⟩ : IndexedValue) ∈ A.rowEntries k ↔
          (⟨(k : Int), -1⟩ : IndexedValue) ∈ A.rowEntries l)) ∧
      ∀ i j, i < mask.rows → j < mask.cols → mask.px i j ≠ 0 →
        ∃ (k s : Nat) (d : ℚ), index.px i j = (k : Int) ∧ k < count ∧
          split[k]? = some (s : Int) ∧ (A.rowEntries k)[s]? = some ⟨(k : Int), d⟩ ∧
          (∀ e ∈ (A.rowEntries k).eraseIdx s,
            e.value = -1 ∧ e.index ≠ (k : Int) ∧ 0 ≤ e.index ∧ e.index < (count : Int)) ∧
          (((A.rowEntries k).eraseIdx s).length : ℚ) ≤ d ∧
          ((((A.rowEntries k).eraseIdx s).length : ℚ) < d ↔
            ∃ n ∈ neighbours mask.rows mask.cols i j, mask.px n.1 n.2 = 0) := by
  obtain ⟨hd, hix, rfl⟩ := makeIndex_some mask index count hmk
  obtain ⟨A, b, x, split, h1, h2, _, h4, _, _, _, _, h9⟩ :=
    assembled_system src dst mask index A0 hd hix hs
  refine ⟨A, b, x, split, h1, h2, h4, ?_, ?_⟩
  · intro k l hk hl hkl
    obtain ⟨i, j, hi, hj, hm, rfl⟩ := cell_of_row mask k hk
    obtain ⟨a, c, ha, hc, hm1, rfl⟩ := cell_of_row mask l hl
    have hidx1 : index.px i j = (trueBefore mask (i * mask.cols + j) : Int) := by
      rw [hix.2.2 i j hi hj, if_pos hm]
    have hidx2 : index.px a c = (trueBefore mask (a * mask.cols + c) : Int) := by
      rw [hix.2.2 a c ha hc, if_pos hm1]
    have hne : (a, c) ≠ (i, j) := by
      intro h
      obtain ⟨rfl, rfl⟩ := Prod.mk.inj h
      exact hkl rfl
    rw [(h9 i j hi hj hm).1.mem_iff, (h9 a c ha hc hm1).1.mem_iff, ← hidx1, ← hidx2,
      offdiag_mem_iff mask index hix i j a c hi hj ha hc hm hm1 hne,
      offdiag_mem_iff mask index hix a c i j ha hc hi hj hm1 hm (Ne.symm hne)]
    exact ⟨fun h => neighbours_symm _ _ i j a c hi hj h,
      fun h => neighbours_symm _ _ a c i j ha hc h⟩
  · intro i j hi hj hm
    obtain ⟨e1, _, _, _, _, s, f1, _, f3⟩ := h9 i j hi hj hm
    have hidx : index.px i j = (trueBefore mask (i * mask.cols + j) : Int) := by
      rw [hix.2.2 i j hi hj, if_pos hm]
    have hk := trueBefore_lt mask _ _ (pos_lt _ _ i j hi hj) (maskAt_true mask i j hj hm)
    have hoff := offdiag_perm A mask index i j _ s hidx e1 f3
    have hlen := hoff.length_eq
    rw [List.length_map] at hlen
    have hadd := filter_length_add (neighbours mask.rows mask.cols i j) mask
    refine ⟨_, s, _, hidx, hk, f1, f3, ?_, ?_, ?_⟩
    · intro e he
      obtain ⟨n, hn, rfl⟩ := List.mem_map.mp (hoff.mem_iff.mp he)
      rw [List.mem_filter] at hn
      have hmn : mask.px n.1 n.2 ≠ 0 := of_decide_eq_true hn.2
      obtain ⟨b1, b2, _⟩ := neighbours_mem _ _ i j hi hj n hn.1
      refine ⟨rfl, ?_, ?_, ?_⟩
      · rw [← hidx]
        exact neighbour_index_ne mask index hix i j hi hj hm n hn.1 hmn
      · show 0 ≤ index.px n.1 n.2
        rw [hix.2.2 n.1 n.2 b1 b2, if_pos hmn]
        exact Int.natCast_nonneg _
      · show index.px n.1 n.2 < _
        rw [hix.2.2 n.1 n.2 b1 b2, if_pos hmn]
        exact_mod_cast trueBefore_lt mask _ _ (pos_lt _ _ n.1 n.2 b1 b2)
          (maskAt_true mask n.1 n.2 b2 hmn)
    · rw [hlen]
      exact_mod_cast (by omega :
        ((neighbours mask.rows mask.cols i j).filter (fun n => decide (mask.px n.1 n.2 ≠ 0))).length ≤
          (neighbours mask.rows mask.cols i j).length)
    · rw [hlen, Nat.cast_lt]
      constructor
      · intro hlt
        have hpos : 0 < ((neighbours mask.rows mask.cols i j).filter
            (fun n => decide (mask.px n.1 n.2 = 0))).length := by omega
        obtain ⟨n, hn⟩ := List.exists_mem_of_length_pos hpos
        rw [List.mem_filter] at hn
        exact ⟨n, hn.1, of_decide_eq_true hn.2⟩
      · rintro ⟨n, hn, hz⟩
        have hpos : 0 < ((neighbours mask.rows mask.cols i j).filter
            (fun n => decide (mask.px n.1 n.2 = 0))).length :=
          List.length_pos_of_mem (List.mem_filter.mpr ⟨hn, decide_eq_true hz⟩)
        omega

/-- Claim C20 at the 3 × 4 mask `maskPlus`, used as source and destination too: the
matrix has 6 rows, and the row of the corner pixel `(0, 0)`, which has a
neighbour outside the mask, is strictly dominant. -/
theorem assembled_symmetric_dominant_witness :
    makeIndex maskPlus = some (indexPlus, 6) ∧
    (maskPlus.rows = maskPlus.rows ∧ maskPlus.cols = maskPlus.cols ∧
      maskPlus.rows = maskPlus.rows ∧ maskPlus.cols = maskPlus.cols) ∧
    ∃ A b x split,
      getEquation maskPlus maskPlus maskPlus indexPlus 6 SparseMat.empty = some (A, b, x) ∧
      A.calcSplit [] = some split ∧ A.rows = 6 ∧
      ∃ (k s : Nat) (d : ℚ), indexPlus.px 0 0 = (k : Int) ∧
        (A.rowEntries k)[s]? = some ⟨(k : Int), d⟩ ∧
        (((A.rowEntries k).eraseIdx s).length : ℚ) < d :=
  ⟨rfl, by decide,
    let ⟨A, b, x, split, h1, h2, h3, _, h5⟩ :=
      assembled_symmetric_dominant maskPlus maskPlus maskPlus indexPlus 6 SparseMat.empty rfl
        (by decide)
    let ⟨k, s, d, g1, _, _, g4, _, _, g7⟩ := h5 0 0 (by decide) (by decide) (by decide)
    ⟨A, b, x, split, h1, h2, h3, k, s, d, g1, g4, g7.mpr ⟨(1, 0), by decide, by decide⟩⟩⟩

/-! ## Rows with pairwise distinct columns -/

/-- In a row with pairwise distinct columns, dropping the entry at position `s`
leaves the entries whose column is not that entry's. -/
theorem eraseIdx_eq_filter (l : List IndexedValue) (hnd : (l.map IndexedValue.index).Nodup) :
    ∀ (s : Nat) (a : IndexedValue), l[s]? = some a →
      l.eraseIdx s = l.filter (fun e => decide (e.index ≠ a.index)) := by
  induction l with
  | nil => intro s a h; simp at h
  | cons e l ih =>
    rw [List.map_cons, List.nodup_cons] at hnd
    intro s a h
    cases s with
    | zero =>
      simp only [List.getElem?_cons_zero, Option.some.injEq] at h
      subst h
      rw [List.eraseIdx_cons_zero, List.filter_cons]
      simp only [ne_eq, not_true_eq_false, decide_False, Bool.false_eq_true, if_false]
      symm
      rw [List.filter_eq_self]
      intro c hc
      apply decide_eq_true
      intro heq
      exact hnd.1 (heq ▸ List.mem_map_of_mem _ hc)
    | succ s =>
      rw [List.getElem?_cons_succ] at h
      have hne : e.index ≠ a.index := by
        intro heq
        exact hnd.1 (heq ▸ List.mem_map_of_mem _ (List.getElem?_mem h))
      rw [List.eraseIdx_cons_succ, List.filter_cons, if_pos (decide_eq_true hne), ih hnd.2 s a h]

theorem rowOf_getElem? (A : List IndexedValue) (length : List Nat) (cols i t : Nat)
    (ht : t < length.getD i 0) (hA : cols * i + t < A.length) :
    (rowOf A length cols i)[t]? = some (A.getD (cols * i + t) memsetSlot) := by
  rw [rowOf, List.getElem?_take, if_pos ht, List.getElem?_drop]
  exact getElem?_of_getD A _ memsetSlot hA

/-! ## A sweep within `eps` is followed by a sweep within `eps` -/

theorem abs_sum_minus_one (index : Mat Int) (L : List (Nat × Nat)) :
    ((L.map (fun n => (⟨index.px n.1 n.2, -1⟩ : IndexedValue))).map (fun e => |e.value|)).sum =
      (L.length : ℚ) := by
  induction L with
  | nil => simp
  | cons n L ih =>
    rw [List.map_cons, List.map_cons, List.sum_cons, ih, List.length_cons]
    have : |(-1 : ℚ)| = 1 := by rw [abs_neg, abs_one]
    rw [this]
    push_cast
    ring

/-- The system that `getEquation` assembles is weakly diagonally dominant with
respect to `calcSplit`'s table. -/
theorem assembled_dominant (mask : Mat Nat) (index : Mat Int) (hix : IndexOK mask index)
    (A : SparseMat) (split : List Int)
    (hrows : A.rows = trueBefore mask (mask.rows * mask.cols))
    (hcells : ∀ i j, i < mask.rows → j < mask.cols → mask.px i j ≠ 0 →
      (A.rowEntries (trueBefore mask (i * mask.cols + j))).Perm (expectedRow mask index i j) ∧
      ∃ s : Nat, split[trueBefore mask (i * mask.cols + j)]? = some (s : Int) ∧
        (A.rowEntries (trueBefore mask (i * mask.cols + j)))[s]? =
          some ⟨(trueBefore mask (i * mask.cols + j) : Int),
            ((neighbours mask.rows mask.cols i j).length : ℚ)⟩) :
    WeakDiagDominant A.buf A.count split A.rows A.maxCols := by
  intro k hk
  rw [hrows] at hk
  obtain ⟨i, j, hi, hj, hm, rfl⟩ := cell_of_row mask k hk
  obtain ⟨e1, s, g1, g3⟩ := hcells i j hi hj hm
  have hsp : split.getD (trueBefore mask (i * mask.cols + j)) (-1) = (s : Int) := by
    rw [List.getD_eq_getElem?_getD, g1]; rfl
  have hidx : index.px i j = (trueBefore mask (i * mask.cols + j) : Int) := by
    rw [hix.2.2 i j hi hj, if_pos hm]
  have hoff := offdiag_perm A mask index i j _ s hidx e1 g3
  rw [hsp, Int.toNat_ofNat, buf_getD_of_rowEntries A _ s _ g3, rowOf_eq_rowEntries,
    (hoff.map _).sum_eq, abs_sum_minus_one]
  show _ ≤ |((neighbours mask.rows mask.cols i j).length : ℚ)|
  rw [Nat.abs_cast]
  exact_mod_cast List.length_filter_le _ _

/-- Claim C18.  For the system that `getEquation` assembles from an image with at
least two pixels on the index grid of `makeIndex`, with `calcSplit`'s table, in
exact arithmetic: for every `eps > 0` and every vector `x` with one element
per unknown, the sweep from `x` returns a vector `y` and the sweep from `y`
returns a vector `z`, and if every unknown of `y` is within `eps` of `x` then
every unknown of `z` is within `eps` of `y`; the counter of the second sweep
then reaches `rows` as that of the first did.  So when a run of `solve` has
ended by its convergence test, a second run from its result with
`maxIters ≥ 1` makes one sweep and ends by the convergence test. -/
theorem assembled_sweep_stays_close (src dst mask : Mat Nat) (index : Mat Int) (count : Nat)
    (A0 : SparseMat) (hmk : makeIndex mask = some (index, count))
    (hs : src.rows = mask.rows ∧ src.cols = mask.cols ∧ dst.rows = mask.rows ∧
      dst.cols = mask.cols)
    (h2 : 2 ≤ mask.rows * mask.cols) :
    ∃ A b x0 split, getEquation src dst mask index count A0 = some (A, b, x0) ∧
      A.calcSplit [] = some split ∧ A.rows = count ∧
      ∀ eps : ℚ, 0 < eps →
        (∀ x : List ℚ, x.length = count →
          ∃ y z c1 c2,
            sweep A.buf A.count split b A.rows A.maxCols eps x = some (y, c1) ∧
            sweep A.buf A.count split b A.rows A.maxCols eps y = some (z, c2) ∧
            y.length = count ∧ z.length = count ∧
            (c1 = A.rows ↔ ∀ i, i < count → |y.getD i 0 - x.getD i 0| < eps) ∧
            (c2 = A.rows ↔ ∀ i, i < count → |z.getD i 0 - y.getD i 0| < eps) ∧
            ((∀ i, i < count → |y.getD i 0 - x.getD i 0| < eps) →
              ∀ i, i < count → |z.getD i 0 - y.getD i 0| < eps)) ∧
        ∀ (x : List ℚ) (maxIters1 maxIters2 : Int) (r1 : SolveResult), x.length = count →
          solve A.buf A.count split b x A.rows A.maxCols maxIters1 eps = some r1 →
          r1.converged = true → 1 ≤ maxIters2 →
          ∃ r2, solve A.buf A.count split b r1.x A.rows A.maxCols maxIters2 eps = some r2 ∧
            r2.sweeps = 1 ∧ r2.converged = true ∧
            ∀ i, i < count → |r2.x.getD i 0 - r1.x.getD i 0| < eps := by
  obtain ⟨hd, hix, rfl⟩ := makeIndex_some mask index count hmk
  obtain ⟨A, b, x0, split, h1, c1, h3, h4, h5, h6, _, h8, h9⟩ :=
    assembled_system src dst mask index A0 hd hix hs
  have hswf := assembled_solveWF mask index hix h2 A b split h3 h4 h5 h6 h8
    (fun i j hi hj hm =>
      let ⟨e1, _, e3, _, _, e6⟩ := h9 i j hi hj hm
      ⟨e1, e3, e6⟩)
  have hdd := assembled_dominant mask index hix A split h4
    (fun i j hi hj hm =>
      let ⟨e1, _, _, _, _, s, f1, _, f3⟩ := h9 i j hi hj hm
      ⟨e1, s, f1, f3⟩)
  refine ⟨A, b, x0, split, h1, c1, h4, ?_⟩
  intro eps heps
  have hstep : ∀ x : List ℚ, x.length = A.rows →
      AllClose A.rows eps x (gsRows A.buf A.count split b A.maxCols A.rows x) →
      AllClose A.rows eps (gsRows A.buf A.count split b A.maxCols A.rows x)
        (gsRows A.buf A.count split b A.maxCols A.rows
          (gsRows A.buf A.count split b A.maxCols A.rows x)) :=
    fun x hx hc => sweep_contracts A.buf A.count split b A.rows A.maxCols eps hswf hdd heps x hx hc
  constructor
  · intro x hx
    rw [← h4] at hx ⊢
    have hy : (gsRows A.buf A.count split b A.maxCols A.rows x).length = A.rows := by
      rw [gsRows_length, hx]
    obtain ⟨k1, s1, t1⟩ := sweep_spec A.buf A.count split b A.rows A.maxCols eps hswf x hx
    obtain ⟨k2, s2, t2⟩ := sweep_spec A.buf A.count split b A.rows A.maxCols eps hswf _ hy
    exact ⟨_, _, k1, k2, s1, s2, hy, by rw [gsRows_length, hy], t1, t2, hstep x hx⟩
  · intro x maxIters1 maxIters2 r1 hx hrun hconv hm2
    rw [← h4] at hx ⊢
    obtain ⟨r, m, g1, _, _, g4, _, g6, _⟩ :=
      solveLoop_spec A.buf A.count split b A.rows A.maxCols eps hswf maxIters1.toNat 0 x hx
    rw [solve, g1] at hrun
    obtain rfl := Option.some.inj hrun
    obtain ⟨hm, hclose⟩ := g6.mp hconv
    obtain ⟨m1, rfl⟩ : ∃ m1, m = m1 + 1 := ⟨m - 1, by omega⟩
    rw [Nat.add_sub_cancel, Function.iterate_succ_apply'] at hclose
    rw [Function.iterate_succ_apply'] at g4
    have hy : ((gsRows A.buf A.count split b A.maxCols A.rows)^[m1] x).length = A.rows := by
      rw [gsRows_iterate_length, hx]
    have hnext := hstep _ hy hclose
    rw [← g4] at hnext
    have hrx : r.x.length = A.rows := by rw [g4, gsRows_length, hy]
    obtain ⟨k2, s2, t2⟩ := sweep_spec A.buf A.count split b A.rows A.maxCols eps hswf r.x hrx
    obtain ⟨n2, hn2⟩ : ∃ n2, maxIters2.toNat = n2 + 1 := ⟨maxIters2.toNat - 1, by omega⟩
    refine ⟨⟨gsRows A.buf A.count split b A.maxCols A.rows r.x, 1, true⟩, ?_, rfl, rfl, hnext⟩
    rw [solve, hn2, solveLoop, s2]
    simp only [t2.mpr hnext, if_true, Nat.zero_add]

/-- Claim C18 at the 3 × 3 images `srcA`, `dstA` with the mask `maskA`, for
`eps = 1 / 100` and the vector `(7, 7)`. -/
theorem assembled_sweep_stays_close_witness :
    makeIndex maskA = some (indexA, 2) ∧
    (srcA.rows = maskA.rows ∧ srcA.cols = maskA.cols ∧ dstA.rows = maskA.rows ∧
      dstA.cols = maskA.cols) ∧
    2 ≤ maskA.rows * maskA.cols ∧ (0 : ℚ) < 1 / 100 ∧ ([7, 7] : List ℚ).length = 2 ∧
    ∃ A b x0 split, getEquation srcA dstA maskA indexA 2 SparseMat.empty = some (A, b, x0) ∧
      A.calcSplit [] = some split ∧ A.rows = 2 ∧
      ∃ y z c1 c2,
        sweep A.buf A.count split b A.rows A.maxCols (1 / 100) [7, 7] = some (y, c1) ∧
        sweep A.buf A.count split b A.rows A.maxCols (1 / 100) y = some (z, c2) ∧
        ((∀ i, i < 2 → |y.getD i 0 - ([7, 7] : List ℚ).getD i 0| < 1 / 100) →
          ∀ i, i < 2 → |z.getD i 0 - y.getD i 0| < 1 / 100) :=
  ⟨rfl, by decide, by decide, by with_unfolding_all decide, by decide,
    let ⟨A, b, x0, split, h1, h2, h3, h4⟩ :=
      assembled_sweep_stays_close srcA dstA maskA indexA 2 SparseMat.empty rfl (by decide)
        (by decide)
    let ⟨y, z, c1, c2, g1, g2, _, _, _, _, g7⟩ :=
      (h4 (1 / 100) (by with_unfolding_all decide)).1 [7, 7] (by decide)
    ⟨A, b, x0, split, h1, h2, h3, y, z, c1, c2, g1, g2, g7⟩⟩

/-! ## A single unknown -/

theorem neighbours_four (rows cols i j : Nat) (h : (neighbours rows cols i j).length = 4) :
    0 < i ∧ i + 1 < rows ∧ 0 < j ∧ j + 1 < cols := by
  rw [neighbours] at h
  by_cases g1 : i > 0 <;> by_cases g2 : i + 1 < rows <;> by_cases g3 : j > 0 <;>
    by_cases g4 : j + 1 < cols <;>
    simp [g1, g2, g3, g4] at h ⊢

theorem list_eq_singleton {α : Type} (l : List α) (a : α) (h1 : l.length = 1)
    (h2 : l[0]? = some a) : l = [a] := by
  match l, h1, h2 with
  | [c], _, h2 =>
    simp only [List.getElem?_cons_zero, Option.some.injEq] at h2
    rw [h2]

/-- A mask with exactly one true cell has exactly one unknown. -/
theorem trueBefore_single (mask : Mat Nat) (i j : Nat) (hi : i < mask.rows) (hj : j < mask.cols)
    (hone : ∀ a c, a < mask.rows → c < mask.cols → (mask.px a c ≠ 0 ↔ a = i ∧ c = j)) :
    trueBefore mask (mask.rows * mask.cols) = 1 ∧ trueBefore mask (i * mask.cols + j) = 0 := by
  have hm : mask.px i j ≠ 0 := (hone i j hi hj).mpr ⟨rfl, rfl⟩
  have hk := trueBefore_lt mask _ _ (pos_lt _ _ i j hi hj) (maskAt_true mask i j hj hm)
  have hall : ∀ k, k < trueBefore mask (mask.rows * mask.cols) →
      k = trueBefore mask (i * mask.cols + j) := by
    intro k hk1
    obtain ⟨a, c, ha, hc, hm1, rfl⟩ := cell_of_row mask k hk1
    obtain ⟨rfl, rfl⟩ := (hone a c ha hc).mp hm1
    rfl
  have h0 := hall 0 (by omega)
  refine ⟨?_, h0.symm⟩
  by_contra hne
  have h1 := hall 1 (by omega)
  omega

/-- Claim C14.  For an image in which exactly one pixel `(i, j)` is masked, that
pixel has 4 in-bounds neighbours, the source has the same value at the pixel
and at its four neighbours, and the destination is `v` at the four
neighbours: `makeIndex` counts one unknown, `getEquation` assembles the single
row `(0, 4)` with `b[0] = 4 * v` and the warm start `x[0] = dst(i, j)`,
`calcSplit` gives `split[0] = 0`, and `solve` on them with any `maxIters ≥ 1`
and any `eps` returns `x[0] = v`, whatever `dst(i, j)` is. -/
theorem single_pixel_solution (src dst mask : Mat Nat) (index : Mat Int) (count : Nat)
    (A0 : SparseMat) (i j v : Nat) (hmk : makeIndex mask = some (index, count))
    (hs : src.rows = mask.rows ∧ src.cols = mask.cols ∧ dst.rows = mask.rows ∧
      dst.cols = mask.cols)
    (hi : i < mask.rows) (hj : j < mask.cols)
    (hone : ∀ a c, a < mask.rows → c < mask.cols → (mask.px a c ≠ 0 ↔ a = i ∧ c = j))
    (h4 : (neighbours mask.rows mask.cols i j).length = 4)
    (hsrc : ∀ n ∈ neighbours mask.rows mask.cols i j, src.px n.1 n.2 = src.px i j)
    (hdst : ∀ n ∈ neighbours mask.rows mask.cols i j, dst.px n.1 n.2 = v) :
    count = 1 ∧ index.px i j = 0 ∧
    ∃ A b x split, getEquation src dst mask index count A0 = some (A, b, x) ∧
      A.calcSplit [] = some split ∧ A.rows = 1 ∧
      A.rowEntries 0 = [⟨0, 4⟩] ∧ b = [4 * (v : ℚ)] ∧ x = [((dst.px i j : Nat) : ℚ)] ∧
      split = [0] ∧
      ∀ (maxIters : Int) (eps : ℚ), 1 ≤ maxIters →
        ∃ r, solve A.buf A.count split b x A.rows A.maxCols maxIters eps = some r ∧
          r.x = [(v : ℚ)] := by
  obtain ⟨hd, hix, rfl⟩ := makeIndex_some mask index count hmk
  obtain ⟨hcount, hk0⟩ := trueBefore_single mask i j hi hj hone
  have hm : mask.px i j ≠ 0 := (hone i j hi hj).mpr ⟨rfl, rfl⟩
  have hidx : index.px i j = 0 := by
    rw [hix.2.2 i j hi hj, if_pos hm, hk0]; rfl
  obtain ⟨q1, q2, q3, q4⟩ := neighbours_four _ _ i j h4
  have h2 : 2 ≤ mask.rows * mask.cols := by
    have : 2 * 1 ≤ mask.rows * mask.cols := Nat.mul_le_mul (by omega) (by omega)
    omega
  obtain ⟨A, b, x, split, h1, c1, h3, hr, h5, h6, h7, h8, h9⟩ :=
    assembled_system src dst mask index A0 hd hix hs
  have hswf := assembled_solveWF mask index hix h2 A b split h3 hr h5 h6 h8
    (fun i j hi hj hm =>
      let ⟨e1, _, e3, _, _, e6⟩ := h9 i j hi hj hm
      ⟨e1, e3, e6⟩)
  obtain ⟨e1, _, e3, e4, e5, s, f1, f2, f3⟩ := h9 i j hi hj hm
  rw [hk0] at e1 e3 e4 e5 f1 f2 f3
  rw [hcount] at h1 hr h6 h7 h8 ⊢
  have hunm : ∀ n ∈ neighbours mask.rows mask.cols i j, mask.px n.1 n.2 = 0 := by
    intro n hn
    obtain ⟨b1, b2, b3⟩ := neighbours_mem _ _ i j hi hj n hn
    by_contra hne
    obtain ⟨r1, r2⟩ := (hone n.1 n.2 b1 b2).mp hne
    exact b3 (Prod.ext r1 r2)
  have hfil : (neighbours mask.rows mask.cols i j).filter
      (fun n => decide (mask.px n.1 n.2 ≠ 0)) = [] := by
    rw [List.filter_eq_nil_iff]
    intro n hn
    simp [hunm n hn]
  have hexp : expectedRow mask index i j = [⟨0, 4⟩] := by
    rw [expectedRow, hfil, List.map_nil, List.nil_append, hidx, h4]
    rfl
  have hrow : A.rowEntries 0 = [⟨0, 4⟩] := by
    rw [hexp] at e1
    exact List.perm_singleton.mp e1
  have hs0 : s = 0 := by
    rw [hexp] at e3
    rw [e3] at f2
    simp only [List.length_singleton] at f2
    omega
  subst hs0
  have hsplit : split = [0] := list_eq_singleton split 0 h8 f1
  have hrhs : ((rhsOver src dst mask i j (neighbours mask.rows mask.cols i j) : Int) : ℚ) =
      4 * (v : ℚ) := by
    rw [rhsOver_flat src dst mask (src.px i j) v i j rfl _ hsrc (fun n hn _ => hdst n hn)]
    have hadd := filter_length_add (neighbours mask.rows mask.cols i j) mask
    rw [hfil, List.length_nil, Nat.zero_add, h4] at hadd
    rw [hadd]
    push_cast
    ring
  have hb : b = [4 * (v : ℚ)] := by
    rw [hrhs] at e4
    exact list_eq_singleton b _ h6 e4
  have hx : x = [((dst.px i j : Nat) : ℚ)] := list_eq_singleton x _ h7 e5
  refine ⟨rfl, hidx, A, b, x, split, h1, c1, hr, hrow, hb, hx, hsplit, ?_⟩
  intro maxIters eps hmax
  have hG : ∀ y : List ℚ, y.length = 1 →
      gsRows A.buf A.count split b A.maxCols A.rows y = [(v : ℚ)] := by
    intro y hy
    have hupd : rowUpdate A.buf A.count split b A.maxCols 0 y = (v : ℚ) := by
      have hd0 : A.buf.getD (A.maxCols * 0 + 0) memsetSlot = ⟨0, 4⟩ := by
        apply buf_getD_of_rowEntries
        rw [hrow]
        rfl
      rw [rowUpdate, rowOf_eq_rowEntries, hrow, hsplit, hb]
      simp only [List.getD_cons_zero, Int.toNat_zero, List.eraseIdx_cons_zero, hd0]
      simp [dot]
    rw [hr]
    show (y.set 0 (rowUpdate A.buf A.count split b A.maxCols 0 y)) = _
    rw [hupd]
    match y, hy with
    | [c], _ => rfl
  obtain ⟨r, m, g1, _, _, g4, _, g6, g7⟩ :=
    solveLoop_spec A.buf A.count split b A.rows A.maxCols eps hswf maxIters.toNat 0 x
      (by rw [h7, hr])
  refine ⟨r, g1, ?_⟩
  have hmpos : 0 < m := by
    cases hc : r.converged with
    | true => exact (g6.mp hc).1
    | false =>
      rw [g7 hc]
      omega
  obtain ⟨m1, rfl⟩ : ∃ m1, m = m1 + 1 := ⟨m - 1, by omega⟩
  rw [g4, Function.iterate_succ_apply']
  apply hG
  rw [gsRows_iterate_length, h7]

/-- Claim C14 at the 3 × 3 mask `maskDot`, the constant source `srcA` and the
destination `dstDot`, which is 7 around the masked pixel and 99 at it. -/
theorem single_pixel_solution_witness :
    makeIndex maskDot = some (indexDot, 1) ∧
    (srcA.rows = maskDot.rows ∧ srcA.cols = maskDot.cols ∧ dstDot.rows = maskDot.rows ∧
      dstDot.cols = maskDot.cols) ∧
    (∀ a c, a < maskDot.rows → c < maskDot.cols → (maskDot.px a c ≠ 0 ↔ a = 1 ∧ c = 1)) ∧
    (neighbours maskDot.rows maskDot.cols 1 1).length = 4 ∧
    (∀ n ∈ neighbours maskDot.rows maskDot.cols 1 1, srcA.px n.1 n.2 = srcA.px 1 1) ∧
    (∀ n ∈ neighbours maskDot.rows maskDot.cols 1 1, dstDot.px n.1 n.2 = 7) ∧
    dstDot.px 1 1 = 99 ∧
    ∃ A b x split, getEquation srcA dstDot maskDot indexDot 1 SparseMat.empty = some (A, b, x) ∧
      A.calcSplit [] = some split ∧ A.rowEntries 0 = [⟨0, 4⟩] ∧ b = [4 * ((7 : Nat) : ℚ)] ∧
      ∃ r, solve A.buf A.count split b x A.rows A.maxCols 5 (1 / 100) = some r ∧
        r.x = [((7 : Nat) : ℚ)] :=
  ⟨rfl, by decide,
    fun a c ha hc =>
      (by decide : ∀ a, a < maskDot.rows → ∀ c, c < maskDot.cols →
        (maskDot.px a c ≠ 0 ↔ a = 1 ∧ c = 1)) a ha c hc,
    by decide, by decide, by decide, by decide,
    let ⟨_, _, A, b, x, split, h1, h2, _, h4, h5, _, _, h8⟩ :=
      single_pixel_solution srcA dstDot maskDot indexDot 1 SparseMat.empty 1 1 7 rfl (by decide)
        (by decide) (by decide)
        (fun a c ha hc =>
          (by decide : ∀ a, a < maskDot.rows → ∀ c, c < maskDot.cols →
            (maskDot.px a c ≠ 0 ↔ a = 1 ∧ c = 1)) a ha c hc)
        (by decide) (by decide) (by decide)
    ⟨A, b, x, split, h1, h2, h4, h5, h8 5 (1 / 100) (by decide)⟩⟩

/-! ## The destination at masked pixels -/

/-- Two loops whose bodies keep a relation between their states, failing
together, keep it and fail together. -/
theorem forLoopM_rel {σ : Type} (R : σ → σ → Prop) (f g : Nat → σ → Option σ) (n : Nat)
    (hstep : ∀ k, k < n → ∀ s t, R s t →
      (f k s = none ∧ g k t = none) ∨ ∃ s1 t1, f k s = some s1 ∧ g k t = some t1 ∧ R s1 t1)
    (s t : σ) (h : R s t) :
    (forLoopM n f s = none ∧ forLoopM n g t = none) ∨
      ∃ s1 t1, forLoopM n f s = some s1 ∧ forLoopM n g t = some t1 ∧ R s1 t1 := by
  induction n with
  | zero => exact Or.inr ⟨s, t, rfl, rfl, h⟩
  | succ n ih =>
    rcases ih (fun k hk => hstep k (by omega)) with ⟨h1, h2⟩ | ⟨s1, t1, h1, h2, h3⟩
    · left
      simp only [forLoopM, h1, h2, Option.none_bind, and_self]
    · simp only [forLoopM, h1, h2, Option.some_bind]
      exact hstep n (by omega) s1 t1 h3

/-- Two runs that continue from the same intermediate result. -/
theorem bind_rel {α β : Type} (P : β → β → Prop) (o : Option α) (f g : α → Option β)
    (h : ∀ a, (f a = none ∧ g a = none) ∨ ∃ s1 t1, f a = some s1 ∧ g a = some t1 ∧ P s1 t1) :
    (o.bind f = none ∧ o.bind g = none) ∨
      ∃ s1 t1, o.bind f = some s1 ∧ o.bind g = some t1 ∧ P s1 t1 := by
  cases o with
  | none => exact Or.inl ⟨rfl, rfl⟩
  | some a => exact h a

/-- A neighbour block reads the destination only at a neighbour outside the mask. -/
theorem neighbourBlock_dst (src dst1 dst2 mask : Mat Nat) (index : Mat Int)
    (currIndex currSrcVal : Int) (ni nj : Nat)
    (h : mask.px ni nj = 0 → dst1.px ni nj = dst2.px ni nj) (s : SparseMat × Nat × Int) :
    neighbourBlock src dst1 mask index currIndex currSrcVal ni nj s =
      neighbourBlock src dst2 mask index currIndex currSrcVal ni nj s := by
  rw [neighbourBlock, neighbourBlock]
  by_cases hm : mask.px ni nj ≠ 0
  · rw [if_pos hm, if_pos hm]
  · rw [if_neg hm, if_neg hm, h (not_not.mp hm)]

/-- The pixel body of `getEquation` on two destinations that agree outside the
mask: from states with the same `A` and `b` and equally long `x`, the two runs
fail together or give states with the same `A` and `b` and equally long `x`. -/
theorem getEquationPixel_dst (src dst1 dst2 mask : Mat Nat) (index : Mat Int)
    (hr : src.rows = mask.rows) (hc : src.cols = mask.cols)
    (hagree : ∀ i j, i < mask.rows → j < mask.cols → mask.px i j = 0 →
      dst1.px i j = dst2.px i j)
    (i j : Nat) (hi : i < mask.rows) (hj : j < mask.cols)
    (s t : SparseMat × List ℚ × List ℚ)
    (h : s.1 = t.1 ∧ s.2.1 = t.2.1 ∧ s.2.2.length = t.2.2.length) :
    (getEquationPixel src dst1 mask index i j s = none ∧
      getEquationPixel src dst2 mask index i j t = none) ∨
    ∃ s1 t1, getEquationPixel src dst1 mask index i j s = some s1 ∧
      getEquationPixel src dst2 mask index i j t = some t1 ∧
      s1.1 = t1.1 ∧ s1.2.1 = t1.2.1 ∧ s1.2.2.length = t1.2.2.length := by
  obtain ⟨A, b, x1⟩ := s
  obtain ⟨A2, b2, x2⟩ := t
  obtain ⟨rfl, rfl, hlen⟩ := h
  simp only at hlen
  rw [getEquationPixel, getEquationPixel]
  by_cases hm : mask.px i j ≠ 0
  · rw [if_pos hm, if_pos hm]
    have e1 : ∀ u, (if i > 0 then
          neighbourBlock src dst1 mask index (index.px i j) (src.px i j : Int) (i - 1) j u
        else some u) =
        (if i > 0 then
          neighbourBlock src dst2 mask index (index.px i j) (src.px i j : Int) (i - 1) j u
        else some u) := by
      intro u
      by_cases g : i > 0
      · rw [if_pos g, if_pos g]
        exact neighbourBlock_dst _ _ _ _ _ _ _ _ _ (hagree _ _ (by omega) hj) u
      · rw [if_neg g, if_neg g]
    have e2 : ∀ u, (if i + 1 < src.rows then
          neighbourBlock src dst1 mask index (index.px i j) (src.px i j : Int) (i + 1) j u
        else some u) =
        (if i + 1 < src.rows then
          neighbourBlock src dst2 mask index (index.px i j) (src.px i j : Int) (i + 1) j u
        else some u) := by
      intro u
      by_cases g : i + 1 < src.rows
      · rw [if_pos g, if_pos g]
        exact neighbourBlock_dst _ _ _ _ _ _ _ _ _ (hagree _ _ (by omega) hj) u
      · rw [if_neg g, if_neg g]
    have e3 : ∀ u, (if j > 0 then
          neighbourBlock src dst1 mask index (index.px i j) (src.px i j : Int) i (j - 1) u
        else some u) =
        (if j > 0 then
          neighbourBlock src dst2 mask index (index.px i j) (src.px i j : Int) i (j - 1) u
        else some u) := by
      intro u
      by_cases g : j > 0
      · rw [if_pos g, if_pos g]
        exact neighbourBlock_dst _ _ _ _ _ _ _ _ _ (hagree _ _ hi (by omega)) u
      · rw [if_neg g, if_neg g]
    have e4 : ∀ u, (if j + 1 < src.cols then
          neighbourBlock src dst1 mask index (index.px i j) (src.px i j : Int) i (j + 1) u
        else some u) =
        (if j + 1 < src.cols then
          neighbourBlock src dst2 mask index (index.px i j) (src.px i j : Int) i (j + 1) u
        else some u) := by
      intro u
      by_cases g : j + 1 < src.cols
      · rw [if_pos g, if_pos g]
        exact neighbourBlock_dst _ _ _ _ _ _ _ _ _ (hagree _ _ hi (by omega)) u
      · rw [if_neg g, if_neg g]
    simp only [e1, e2, e3, e4]
    refine bind_rel _ _ _ _ (fun u1 => ?_)
    refine bind_rel _ _ _ _ (fun u2 => ?_)
    refine bind_rel _ _ _ _ (fun u3 => ?_)
    refine bind_rel _ _ _ _ (fun u4 => ?_)
    refine bind_rel _ _ _ _ (fun A5 => ?_)
    refine bind_rel _ _ _ _ (fun b1 => ?_)
    rw [setAt, setAt, hlen]
    by_cases g : 0 ≤ index.px i j ∧ (index.px i j).toNat < x2.length
    · rw [if_pos g, if_pos g]
      refine Or.inr ⟨_, _, rfl, rfl, rfl, rfl, ?_⟩
      simp only [List.length_set]
      exact hlen
    · rw [if_neg g, if_neg g]
      exact Or.inl ⟨rfl, rfl⟩
  · rw [if_neg hm, if_neg hm]
    exact Or.inr ⟨_, _, rfl, rfl, rfl, rfl, hlen⟩

/-- The runs of `getEquation` on two destinations that agree outside the mask
fail together or return the same `A` and `b`. -/
theorem getEquation_dst_rel (src dst1 dst2 mask : Mat Nat) (index : Mat Int)
    (count : Nat) (A0 : SparseMat)
    (hdim : dst1.rows = dst2.rows ∧ dst1.cols = dst2.cols)
    (hagree : ∀ i j, i < mask.rows → j < mask.cols → mask.px i j = 0 →
      dst1.px i j = dst2.px i j) :
    (getEquation src dst1 mask index count A0).map (fun r => (r.1, r.2.1, r.2.2.length)) =
      (getEquation src dst2 mask index count A0).map (fun r => (r.1, r.2.1, r.2.2.length)) := by
  have hhd : dst1.hasData = dst2.hasData := by
    rw [Mat.hasData, Mat.hasData, hdim.1, hdim.2]
  rw [getEquation, getEquation, hhd, hdim.1, hdim.2]
  by_cases g1 : src.hasData = false ∨ dst2.hasData = false ∨ mask.hasData = false ∨
      index.hasData = false
  · rw [if_pos g1, if_pos g1]
  · rw [if_neg g1, if_neg g1]
    by_cases g2 : ¬ (src.rows = dst2.rows ∧ src.cols = dst2.cols ∧ src.rows = mask.rows ∧
        src.cols = mask.cols ∧ src.rows = index.rows ∧ src.cols = index.cols)
    · rw [if_pos g2, if_pos g2]
    · rw [if_neg g2, if_neg g2]
      obtain ⟨_, _, hr, hc, _, _⟩ := not_not.mp g2
      have hloop := forLoopM_rel
        (fun s t : SparseMat × List ℚ × List ℚ =>
          s.1 = t.1 ∧ s.2.1 = t.2.1 ∧ s.2.2.length = t.2.2.length)
        (fun i st => forLoopM src.cols (fun j st => getEquationPixel src dst1 mask index i j st) st)
        (fun i st => forLoopM src.cols (fun j st => getEquationPixel src dst2 mask index i j st) st)
        src.rows
        (fun i hi s t hst =>
          forLoopM_rel _ _ _ src.cols
            (fun j hj s1 t1 hst1 =>
              getEquationPixel_dst src dst1 dst2 mask index hr hc hagree i j (by omega) (by omega)
                s1 t1 hst1)
            s t hst)
        (A0.create (count : Int) 8, List.replicate count 0, List.replicate count 0)
        (A0.create (count : Int) 8, List.replicate count 0, List.replicate count 0)
        ⟨rfl, rfl, rfl⟩
      rcases hloop with ⟨h1, h2⟩ | ⟨s1, t1, h1, h2, h3, h4, h5⟩
      · rw [h1, h2]
      · rw [h1, h2, Option.map_some', Option.map_some', h3, h4, h5]

/-- Claim C19.  For every source image, mask and index grid, and every two
destination images of the same size that agree at every pixel outside the
mask, the two calls of `getEquation` fail together or both return, and then
with the same matrix `A` and the same right-hand side `b`; their vectors `x`
have the same length and may differ.  On the index grid of `makeIndex`, with
images of the mask's size, both calls return. -/
theorem getEquation_ignores_masked_dst (src dst1 dst2 mask : Mat Nat) (index : Mat Int)
    (count : Nat) (A0 : SparseMat)
    (hdim : dst1.rows = dst2.rows ∧ dst1.cols = dst2.cols)
    (hagree : ∀ i j, i < mask.rows → j < mask.cols → mask.px i j = 0 →
      dst1.px i j = dst2.px i j) :
    (getEquation src dst1 mask index count A0).map (fun r => (r.1, r.2.1, r.2.2.length)) =
      (getEquation src dst2 mask index count A0).map (fun r => (r.1, r.2.1, r.2.2.length)) ∧
    (makeIndex mask = some (index, count) →
      (src.rows = mask.rows ∧ src.cols = mask.cols ∧ dst1.rows = mask.rows ∧
        dst1.cols = mask.cols) →
      ∃ A b x1 x2, getEquation src dst1 mask index count A0 = some (A, b, x1) ∧
        getEquation src dst2 mask index count A0 = some (A, b, x2) ∧
        x1.length = count ∧ x2.length = count ∧
        ∀ i j, i < mask.rows → j < mask.cols → mask.px i j ≠ 0 →
          ∃ k : Nat, index.px i j = (k : Int) ∧
            x1[k]? = some ((dst1.px i j : Nat) : ℚ) ∧ x2[k]? = some ((dst2.px i j : Nat) : ℚ)) := by
  have heq := getEquation_dst_rel src dst1 dst2 mask index count A0 hdim hagree
  refine ⟨heq, ?_⟩
  intro hmk hs
  obtain ⟨hd, hix, rfl⟩ := makeIndex_some mask index count hmk
  obtain ⟨A, b, x1, _, h1, _, _, _, _, _, h7, _, h9⟩ :=
    assembled_system src dst1 mask index A0 hd hix hs
  obtain ⟨A2, b2, x2, _, k1, _, _, _, _, _, k7, _, k9⟩ :=
    assembled_system src dst2 mask index A0 hd hix
      ⟨hs.1, hs.2.1, by rw [← hdim.1]; exact hs.2.2.1, by rw [← hdim.2]; exact hs.2.2.2⟩
  rw [h1, k1, Option.map_some', Option.map_some'] at heq
  obtain ⟨rfl, hb⟩ := Prod.mk.inj (Option.some.inj heq)
  obtain ⟨rfl, _⟩ := Prod.mk.inj hb
  refine ⟨A, b, x1, x2, h1, k1, h7, k7, ?_⟩
  intro i j hi hj hm
  refine ⟨trueBefore mask (i * mask.cols + j), ?_, (h9 i j hi hj hm).2.2.2.2.1,
    (k9 i j hi hj hm).2.2.2.2.1⟩
  rw [hix.2.2 i j hi hj, if_pos hm]

/-- Claim C19 at the 3 × 3 mask `maskDot` and the destinations `dstDot` and
`dstDotFive`, which are 99 and 5 at the masked pixel and 7 elsewhere: the same
`A` and `b`, and the starting vectors `[99]` and `[5]`. -/
theorem getEquation_ignores_masked_dst_witness :
    (dstDot.rows = dstDotFive.rows ∧ dstDot.cols = dstDotFive.cols) ∧
    (∀ i j, i < maskDot.rows → j < maskDot.cols → maskDot.px i j = 0 →
      dstDot.px i j = dstDotFive.px i j) ∧
    dstDot.px 1 1 ≠ dstDotFive.px 1 1 ∧
    makeIndex maskDot = some (indexDot, 1) ∧
    (srcA.rows = maskDot.rows ∧ srcA.cols = maskDot.cols ∧ dstDot.rows = maskDot.rows ∧
      dstDot.cols = maskDot.cols) ∧
    ∃ A b x1 x2, getEquation srcA dstDot maskDot indexDot 1 SparseMat.empty = some (A, b, x1) ∧
      getEquation srcA dstDotFive maskDot indexDot 1 SparseMat.empty = some (A, b, x2) :=
  ⟨by decide,
    fun i j hi hj =>
      (by decide : ∀ i, i < maskDot.rows → ∀ j, j < maskDot.cols → maskDot.px i j = 0 →
        dstDot.px i j = dstDotFive.px i j) i hi j hj,
    by decide, rfl, by decide,
    let ⟨A, b, x1, x2, h1, h2, _⟩ :=
      (getEquation_ignores_masked_dst srcA dstDot dstDotFive maskDot indexDot 1 SparseMat.empty
        (by decide)
        (fun i j hi hj =>
          (by decide : ∀ i, i < maskDot.rows → ∀ j, j < maskDot.cols → maskDot.px i j = 0 →
            dstDot.px i j = dstDotFive.px i j) i hi j hj)).2 rfl (by decide)
    ⟨A, b, x1, x2, h1, h2⟩⟩

/-! ## Facts about `solve` in `double` arithmetic -/

theorem getD_set_same {α : Type} (l : List α) (i : Nat) (a d : α) (h : i < l.length) :
    (l.set i a).getD i d = a := by
  rw [List.getD_eq_getElem?_getD, List.getElem?_set_self h]; rfl

theorem getD_set_other {α : Type} (l : List α) (i j : Nat) (a d : α) (h : i ≠ j) :
    (l.set i a).getD j d = l.getD j d := by
  rw [List.getD_eq_getElem?_getD, List.getD_eq_getElem?_getD, List.getElem?_set_ne h]

theorem sumDouble_append (l1 l2 : List IndexedValue) (x : List Double) (acc : Double) :
    sumDouble (l1 ++ l2) x acc = sumDouble l2 x (sumDouble l1 x acc) := by
  simp only [sumDouble, List.foldl_append]

/-- One of the two summation loops of `solve` in `double` arithmetic over `n`
slots from slot `lo` of the row at `base`, all of them in the buffer and with
columns inside `x`. -/
theorem dotLoopDouble_spec (A : List IndexedValue) (x : List Double) (base lo : Nat)
    (val : Double) :
    ∀ n, (∀ t, t < n → base + lo + t < A.length ∧
      0 ≤ (A.getD (base + lo + t) memsetSlot).index ∧
      (A.getD (base + lo + t) memsetSlot).index.toNat < x.length) →
    dotLoopDouble A x (base : Int) (lo : Int) n val =
      some (sumDouble ((A.drop (base + lo)).take n) x val) := by
  intro n
  induction n with
  | zero =>
    intro _
    simp [dotLoopDouble, forLoopM, sumDouble]
  | succ n ih =>
    intro h
    have ih1 := ih (fun t ht => h t (by omega))
    obtain ⟨h1, h2, h3⟩ := h n (by omega)
    rw [getD_of_lt _ _ _ h1] at h2 h3
    rw [dotLoopDouble] at ih1 ⊢
    simp only [forLoopM, ih1, Option.some_bind]
    have hpos : (base : Int) + ((lo : Int) + (n : Int)) = ((base + lo + n : Nat) : Int) := by
      push_cast; ring
    rw [hpos, readAt_natCast A _ h1]
    simp only [Option.some_bind]
    rw [readAt_nonneg x _ h2 h3]
    simp only [Option.some_bind, Option.some.injEq]
    rw [List.take_succ, List.getElem?_drop, List.getElem?_eq_getElem h1, sumDouble_append]
    simp only [sumDouble, Option.toList, List.foldl_cons, List.foldl_nil]
    rw [getD_of_lt x _ Double.nan h3]

/-- The body of the row loop of `solve` in `double` arithmetic on a well-formed system. -/
theorem solveRowDouble_spec (A : List IndexedValue) (length : List Nat) (split : List Int)
    (b : List ℚ) (rows cols : Nat) (eps : ℚ) (hwf : SolveWF A length split b rows cols) (i : Nat)
    (hi : i < rows) (xs : List Double) (hx : xs.length = rows) (cnt : Nat) :
    solveRowDouble A length split b cols eps i (xs, cnt) =
      some (xs.set i (rowUpdateDouble A length split b cols i xs),
        if ((rowUpdateDouble A length split b cols i xs).sub (xs.getD i Double.nan)).absLt eps = true
        then cnt + 1 else cnt) := by
  obtain ⟨h1, h2, h3, h4, h5⟩ := hwf
  obtain ⟨g1, g2, g3, g4, g5⟩ := h5 i hi
  have hblock := row_block_le rows cols i hi
  obtain ⟨sN, hs⟩ : ∃ sN : Nat, split.getD i (-1) = (sN : Int) :=
    ⟨(split.getD i (-1)).toNat, (Int.toNat_of_nonneg g2).symm⟩
  rw [hs] at g3
  have hsl : sN < length.getD i 0 := by exact_mod_cast g3
  have hcols : ∀ t, t < length.getD i 0 → cols * i + t < A.length ∧
      0 ≤ (A.getD (cols * i + t) memsetSlot).index ∧
      (A.getD (cols * i + t) memsetSlot).index.toNat < xs.length := by
    intro t ht
    obtain ⟨f1, f2⟩ := g5 t ht
    refine ⟨by omega, f1, ?_⟩
    rw [hx]; omega
  have hd1 := dotLoopDouble_spec A xs (cols * i) 0 (Double.fin 0) sN (fun t ht => by
    have := hcols t (by omega)
    simpa using this)
  have hd2 := fun v => dotLoopDouble_spec A xs (cols * i) (sN + 1) v (length.getD i 0 - (sN + 1))
    (fun t ht => by
      have := hcols (sN + 1 + t) (by omega)
      simpa [Nat.add_assoc] using this)
  have hsum : sumDouble ((A.drop (cols * i + (sN + 1))).take (length.getD i 0 - (sN + 1))) xs
        (sumDouble ((A.drop (cols * i + 0)).take sN) xs (Double.fin 0)) =
      sumDouble ((rowOf A length cols i).eraseIdx sN) xs (Double.fin 0) := by
    rw [List.eraseIdx_eq_take_drop_succ, sumDouble_append, rowOf, List.take_take, List.drop_take,
      List.drop_drop, Nat.min_eq_left (by omega)]
    rfl
  rw [solveRowDouble]
  simp only [getElem?_of_getD split i (-1) (by omega), getElem?_of_getD length i 0 (by omega),
    getElem?_of_getD b i 0 (by omega), getElem?_of_getD xs i Double.nan (by omega), hs,
    Int.toNat_ofNat]
  have hc1 : ((cols : Int) * (i : Int)) = ((cols * i : Nat) : Int) := by push_cast; ring
  have hc2 : ((sN : Int) + 1) = ((sN + 1 : Nat) : Int) := by push_cast; ring
  have hc3 : ((length.getD i 0 : Int) - ((sN + 1 : Nat) : Int)).toNat =
      length.getD i 0 - (sN + 1) := Int.toNat_sub _ _
  have hc4 : (((cols * i : Nat) : Int) + (sN : Int)) = ((cols * i + sN : Nat) : Int) := by
    push_cast; ring
  rw [hc1, hc2, hc3, hc4]
  have hd1' : dotLoopDouble A xs ((cols * i : Nat) : Int) 0 sN (Double.fin 0) =
      some (sumDouble ((A.drop (cols * i + 0)).take sN) xs (Double.fin 0)) := by
    simpa using hd1
  rw [hd1']
  simp only [Option.some_bind]
  have hbnd : cols * i + sN < A.length := by omega
  rw [hd2, readAt_natCast A _ hbnd]
  simp only [Option.some_bind]
  have hval : A[cols * i + sN] = A.getD (cols * i + sN) memsetSlot :=
    (getD_of_lt A _ memsetSlot hbnd).symm
  rw [hval]
  rw [hs, Int.toNat_ofNat] at g4
  rw [if_neg g4, hsum, rowUpdateDouble, hs, Int.toNat_ofNat]

theorem gsRowsDouble_succ (A : List IndexedValue) (length : List Nat) (split : List Int)
    (b : List ℚ) (cols n : Nat) (x : List Double) :
    gsRowsDouble A length split b cols (n + 1) x =
      (gsRowsDouble A length split b cols n x).set n
        (rowUpdateDouble A length split b cols n (gsRowsDouble A length split b cols n x)) := rfl

theorem gsRowsDouble_length (A : List IndexedValue) (length : List Nat) (split : List Int)
    (b : List ℚ) (cols n : Nat) (x : List Double) :
    (gsRowsDouble A length split b cols n x).length = x.length := by
  induction n with
  | zero => rfl
  | succ n ih => rw [gsRowsDouble_succ, List.length_set, ih]

/-- The first `n` rows of a sweep leave the later components alone. -/
theorem gsRowsDouble_getD_ge (A : List IndexedValue) (length : List Nat) (split : List Int)
    (b : List ℚ) (cols n : Nat) (x : List Double) (i : Nat) (hi : n ≤ i) :
    (gsRowsDouble A length split b cols n x).getD i Double.nan = x.getD i Double.nan := by
  induction n with
  | zero => rfl
  | succ n ih => rw [gsRowsDouble_succ, getD_set_other _ _ _ _ _ (by omega), ih (by omega)]

/-- The component `i` is final once row `i` is done. -/
theorem gsRowsDouble_getD_lt (A : List IndexedValue) (length : List Nat) (split : List Int)
    (b : List ℚ) (cols n : Nat) (x : List Double) (i : Nat) (hi : i < n) :
    (gsRowsDouble A length split b cols n x).getD i Double.nan =
      (gsRowsDouble A length split b cols (i + 1) x).getD i Double.nan := by
  induction n with
  | zero => omega
  | succ n ih =>
    rcases Nat.eq_or_lt_of_le (Nat.lt_succ_iff.mp hi) with h | h
    · subst h; rfl
    · rw [gsRowsDouble_succ, getD_set_other _ _ _ _ _ (by omega), ih h]

theorem gsRowsDouble_getD_final (A : List IndexedValue) (length : List Nat) (split : List Int)
    (b : List ℚ) (rows cols : Nat) (x : List Double) (hx : x.length = rows) (i n : Nat)
    (hi : i < n) (hn : n ≤ rows) :
    (gsRowsDouble A length split b cols n x).getD i Double.nan =
      rowUpdateDouble A length split b cols i (gsRowsDouble A length split b cols i x) := by
  rw [gsRowsDouble_getD_lt _ _ _ _ _ _ _ _ hi, gsRowsDouble_succ,
    getD_set_same _ _ _ _ (by rw [gsRowsDouble_length, hx]; omega)]

/-- The row loop of `solve` in `double` arithmetic on a well-formed system: it
does not fail, the vector it leaves is `gsRowsDouble`, and its counter equals
the number of rows exactly when every unknown passed the test against `eps`. -/
theorem sweepDouble_rows (A : List IndexedValue) (length : List Nat) (split : List Int)
    (b : List ℚ) (rows cols : Nat) (eps : ℚ) (hwf : SolveWF A length split b rows cols)
    (x : List Double) (hx : x.length = rows) : ∀ n, n ≤ rows →
    ∃ cnt, forLoopM n (solveRowDouble A length split b cols eps) (x, 0) =
        some (gsRowsDouble A length split b cols n x, cnt) ∧ cnt ≤ n ∧
      (cnt = n ↔ ∀ i, i < n →
        (((gsRowsDouble A length split b cols n x).getD i Double.nan).sub
          (x.getD i Double.nan)).absLt eps = true) := by
  intro n
  induction n with
  | zero =>
    intro _
    exact ⟨0, rfl, le_refl _, ⟨fun _ i hi => by omega, fun _ => rfl⟩⟩
  | succ n ih =>
    intro hn
    obtain ⟨cnt, h1, h2, h3⟩ := ih (by omega)
    have hlen : (gsRowsDouble A length split b cols n x).length = rows := by
      rw [gsRowsDouble_length, hx]
    have hstep := solveRowDouble_spec A length split b rows cols eps hwf n (by omega)
      (gsRowsDouble A length split b cols n x) hlen cnt
    rw [gsRowsDouble_getD_ge _ _ _ _ _ _ _ _ (le_refl _)] at hstep
    have hnew : (gsRowsDouble A length split b cols (n + 1) x).getD n Double.nan =
        rowUpdateDouble A length split b cols n (gsRowsDouble A length split b cols n x) := by
      rw [gsRowsDouble_succ, getD_set_same _ _ _ _ (by omega)]
    have hold : ∀ i, i < n → (gsRowsDouble A length split b cols (n + 1) x).getD i Double.nan =
        (gsRowsDouble A length split b cols n x).getD i Double.nan := by
      intro i hi
      rw [gsRowsDouble_succ, getD_set_other _ _ _ _ _ (by omega)]
    refine ⟨_, by simp only [forLoopM, h1, Option.some_bind, hstep]; rfl, ?_, ?_⟩
    · split_ifs <;> omega
    · by_cases hc : ((rowUpdateDouble A length split b cols n
          (gsRowsDouble A length split b cols n x)).sub (x.getD n Double.nan)).absLt eps = true
      · rw [if_pos hc]
        constructor
        · intro he i hi
          rcases Nat.eq_or_lt_of_le (Nat.lt_succ_iff.mp hi) with h | h
          · subst h; rw [hnew]; exact hc
          · rw [hold i h]; exact h3.mp (by omega) i h
        · intro hall
          have : cnt = n := h3.mpr (fun i hi => by rw [← hold i hi]; exact hall i (by omega))
          omega
      · rw [if_neg hc]
        constructor
        · intro he; omega
        · intro hall
          exfalso
          apply hc
          rw [← hnew]
          exact hall n (by omega)

/-- One sweep of `solve` in `double` arithmetic on a well-formed system. -/
theorem sweepDouble_spec (A : List IndexedValue) (length : List Nat) (split : List Int)
    (b : List ℚ) (rows cols : Nat) (eps : ℚ) (hwf : SolveWF A length split b rows cols)
    (x : List Double) (hx : x.length = rows) :
    ∃ cnt, sweepDouble A length split b rows cols eps x =
        some (gsRowsDouble A length split b cols rows x, cnt) ∧
      (cnt = rows ↔ AllCloseDouble rows eps x (gsRowsDouble A length split b cols rows x)) :=
  let ⟨cnt, h1, _, h3⟩ := sweepDouble_rows A length split b rows cols eps hwf x hx rows (le_refl _)
  ⟨cnt, h1, h3⟩

/-- The iteration loop of `solve` in `double` arithmetic on a well-formed
system, started with `n` iterations to go: it makes `m ≤ n` sweeps, each the
full row loop, it ends by its `break` exactly when the last sweep passed the
test against `eps` in every row, no earlier sweep did so, and without a
`break` it makes all `n` sweeps. -/
theorem solveLoopDouble_spec (A : List IndexedValue) (length : List Nat) (split : List Int)
    (b : List ℚ) (rows cols : Nat) (eps : ℚ) (hwf : SolveWF A length split b rows cols) :
    ∀ (n iter : Nat) (x : List Double), x.length = rows →
    ∃ r m, solveLoopDouble A length split b rows cols eps n iter x = some r ∧
      r.sweeps = iter + m ∧ m ≤ n ∧
      r.x = (gsRowsDouble A length split b cols rows)^[m] x ∧
      (∀ k, k + 1 < m →
        ¬ AllCloseDouble rows eps ((gsRowsDouble A length split b cols rows)^[k] x)
          ((gsRowsDouble A length split b cols rows)^[k + 1] x)) ∧
      (r.converged = true ↔ 0 < m ∧
        AllCloseDouble rows eps ((gsRowsDouble A length split b cols rows)^[m - 1] x)
          ((gsRowsDouble A length split b cols rows)^[m] x)) ∧
      (r.converged = false → m = n) := by
  intro n
  induction n with
  | zero =>
    intro iter x _
    refine ⟨⟨x, iter, false⟩, 0, rfl, rfl, le_refl _, rfl, fun k hk => by omega, ?_, fun _ => rfl⟩
    constructor
    · intro h; exact absurd h (by simp)
    · intro h; omega
  | succ n ih =>
    intro iter x hx
    obtain ⟨cnt, h1, h2⟩ := sweepDouble_spec A length split b rows cols eps hwf x hx
    by_cases hc : cnt = rows
    · refine ⟨⟨gsRowsDouble A length split b cols rows x, iter + 1, true⟩, 1, ?_, rfl, by omega,
        rfl, fun k hk => by omega, ?_, fun h => absurd h (by simp)⟩
      · simp only [solveLoopDouble, h1, hc, if_true]
      · constructor
        · intro _; exact ⟨by omega, h2.mp hc⟩
        · intro _; rfl
    · have hx1 : (gsRowsDouble A length split b cols rows x).length = rows := by
        rw [gsRowsDouble_length, hx]
      obtain ⟨r, m, g1, g2, g3, g4, g5, g6, g7⟩ := ih (iter + 1) _ hx1
      refine ⟨r, m + 1, ?_, by omega, by omega, ?_, ?_, ?_, fun h => by rw [g7 h]⟩
      · simp only [solveLoopDouble, h1, hc, if_false]
        exact g1
      · rw [g4, Function.iterate_succ_apply]
      · intro k hk
        cases k with
        | zero => exact fun h => hc (h2.mpr h)
        | succ k =>
          have := g5 k (by omega)
          rw [Function.iterate_succ_apply, Function.iterate_succ_apply]
          exact this
      · rw [g6]
        cases m with
        | zero =>
          constructor
          · intro h; omega
          · intro h; exact absurd (h2.mpr h.2) hc
        | succ m =>
          rw [Function.iterate_succ_apply, Nat.add_sub_cancel, Nat.add_sub_cancel,
            Function.iterate_succ_apply]
          constructor
          · intro h; exact ⟨by omega, h.2⟩
          · intro h; exact ⟨by omega, h.2⟩

theorem gsRowsDouble_iterate_length (A : List IndexedValue) (length : List Nat)
    (split : List Int) (b : List ℚ) (rows cols : Nat) (x : List Double) (k : Nat) :
    ((gsRowsDouble A length split b cols rows)^[k] x).length = x.length := by
  induction k with
  | zero => rfl
  | succ k ih => rw [Function.iterate_succ_apply', gsRowsDouble_length, ih]

/-- Claim C6.  On every well-formed system `solve`, run in `double` arithmetic,
returns a result for every starting `x`, every `maxIters` and every `eps`.  It
makes at most `maxIters` sweeps, each one the row loop of the program; it
stops right after the first sweep in which every unknown passed the test
`fabs(val - x[i]) < eps` and otherwise makes exactly `maxIters` sweeps; and with
`maxIters ≤ 0` it returns `x` unchanged. -/
theorem solveDouble_terminates (A : List IndexedValue) (length : List Nat) (split : List Int)
    (b : List ℚ) (rows cols : Nat) (hwf : SolveWF A length split b rows cols) (x : List Double)
    (hx : x.length = rows) (maxIters : Int) (eps : ℚ) :
    ∃ r, solveDouble A length split b x rows cols maxIters eps = some r ∧
      r.sweeps ≤ maxIters.toNat ∧
      r.x = (gsRowsDouble A length split b cols rows)^[r.sweeps] x ∧
      (∀ k, k < r.sweeps → ∃ cnt,
        sweepDouble A length split b rows cols eps
            ((gsRowsDouble A length split b cols rows)^[k] x) =
          some ((gsRowsDouble A length split b cols rows)^[k + 1] x, cnt)) ∧
      (∀ k, k + 1 < r.sweeps →
        ¬ AllCloseDouble rows eps ((gsRowsDouble A length split b cols rows)^[k] x)
          ((gsRowsDouble A length split b cols rows)^[k + 1] x)) ∧
      (r.converged = true ↔ 0 < r.sweeps ∧
        AllCloseDouble rows eps ((gsRowsDouble A length split b cols rows)^[r.sweeps - 1] x)
          ((gsRowsDouble A length split b cols rows)^[r.sweeps] x)) ∧
      (r.converged = false → r.sweeps = maxIters.toNat) ∧
      (maxIters ≤ 0 → r.x = x ∧ r.sweeps = 0) := by
  obtain ⟨r, m, h1, h2, h3, h4, h5, h6, h7⟩ :=
    solveLoopDouble_spec A length split b rows cols eps hwf maxIters.toNat 0 x hx
  rw [Nat.zero_add] at h2
  rw [← h2] at h3 h4 h5 h6 h7
  refine ⟨r, h1, h3, h4, ?_, h5, h6, h7, ?_⟩
  · intro k _
    have hlen : ((gsRowsDouble A length split b cols rows)^[k] x).length = rows := by
      rw [gsRowsDouble_iterate_length, hx]
    obtain ⟨cnt, g1, _⟩ := sweepDouble_spec A length split b rows cols eps hwf _ hlen
    exact ⟨cnt, by rw [Function.iterate_succ_apply']; exact g1⟩
  · intro hle
    have h0 : maxIters.toNat = 0 := Int.toNat_eq_zero.mpr hle
    have hs : r.sweeps = 0 := by omega
    exact ⟨by rw [h4, hs]; rfl, hs⟩

/-- Claim C15.  On a well-formed system whose rows are in strictly ascending
column order, with `split[i]` the position of the entry of row `i` in column
`i`, one sweep of `solve`, run in `double` arithmetic, returns a vector `y` of
the same length in which, for every row `i`, `y[i] = (b[i] - Σ a * xcur[c]) / d`
as the machine evaluates it: `d` is the coefficient of the only entry of the
row in column `i`, the sum runs from `0` over all other used entries `(c, a)` of
the row in slot order, each product and each partial sum rounded, and
`xcur[c]` is `y[c]`, the value the sweep has already written, for `c < i`, and
`x[c]`, the value from before the sweep, for `c > i`. -/
theorem sweepDouble_gauss_seidel (A : List IndexedValue) (length : List Nat) (split : List Int)
    (b : List ℚ) (rows cols : Nat) (eps : ℚ) (hwf : SolveWF A length split b rows cols)
    (hasc : ∀ i, i < rows →
      ((rowOf A length cols i).map IndexedValue.index).Pairwise (· < ·))
    (hdiag : ∀ i, i < rows →
      (A.getD (cols * i + (split.getD i (-1)).toNat) memsetSlot).index = (i : Int))
    (x : List Double) (hx : x.length = rows) :
    ∃ y cnt, sweepDouble A length split b rows cols eps x = some (y, cnt) ∧ y.length = rows ∧
      ∀ i, i < rows → ∃ d : ℚ, d ≠ 0 ∧
        (⟨(i : Int), d⟩ : IndexedValue) ∈ rowOf A length cols i ∧
        (∀ e ∈ rowOf A length cols i, e.index = (i : Int) → e = ⟨(i : Int), d⟩) ∧
        y.getD i Double.nan =
          ((Double.fin (b.getD i 0)).sub
            (((rowOf A length cols i).filter (fun e => decide (e.index ≠ (i : Int)))).foldl
              (fun acc e => acc.add ((Double.fin e.value).mul
                (if e.index < (i : Int) then y.getD e.index.toNat Double.nan
                 else x.getD e.index.toNat Double.nan)))
              (Double.fin 0))).div (Double.fin d) := by
  obtain ⟨cnt, h1, _⟩ := sweepDouble_spec A length split b rows cols eps hwf x hx
  refine ⟨_, cnt, h1, by rw [gsRowsDouble_length, hx], ?_⟩
  intro i hi
  obtain ⟨_, _, _, w4, w5⟩ := hwf
  obtain ⟨g1, g2, g3, g4, g5⟩ := w5 i hi
  have hsl : (split.getD i (-1)).toNat < length.getD i 0 := by omega
  have hA : cols * i + (split.getD i (-1)).toNat < A.length := by
    have := row_block_le rows cols i hi
    omega
  have hrow := rowOf_getElem? A length cols i _ hsl hA
  have hnd : ((rowOf A length cols i).map IndexedValue.index).Nodup :=
    (hasc i hi).imp (fun h => ne_of_lt h)
  have hent : A.getD (cols * i + (split.getD i (-1)).toNat) memsetSlot =
      ⟨(i : Int), (A.getD (cols * i + (split.getD i (-1)).toNat) memsetSlot).value⟩ := by
    rw [← hdiag i hi]
  have hmem : (⟨(i : Int), (A.getD (cols * i + (split.getD i (-1)).toNat) memsetSlot).value⟩ :
      IndexedValue) ∈ rowOf A length cols i := by
    rw [← hent]
    exact List.getElem?_mem hrow
  refine ⟨_, g4, hmem, ?_, ?_⟩
  · intro e he hei
    exact List.inj_on_of_nodup_map hnd he hmem hei
  · rw [gsRowsDouble_getD_final A length split b rows cols x hx i rows hi (le_refl _),
      rowUpdateDouble, eraseIdx_eq_filter _ hnd _ _ hrow, hdiag i hi, sumDouble]
    congr 2
    apply List.foldl_ext
    intro acc e he
    obtain ⟨t, ht, rfl⟩ := mem_rowOf A length cols i e (List.mem_of_mem_filter he)
    obtain ⟨f1, f2⟩ := g5 t ht
    have hcr : (A.getD (cols * i + t) memsetSlot).index.toNat < rows := by omega
    by_cases hci : (A.getD (cols * i + t) memsetSlot).index < (i : Int)
    · have hci1 : (A.getD (cols * i + t) memsetSlot).index.toNat < i := by omega
      rw [if_pos hci, gsRowsDouble_getD_lt _ _ _ _ _ _ _ _ hci1,
        ← gsRowsDouble_getD_lt _ _ _ _ _ rows _ _ hcr]
    · rw [if_neg hci, gsRowsDouble_getD_ge _ _ _ _ _ _ _ _ (by omega)]

/-- Claim C6 at the system `x0 + x1 = 10^16`, `x1 = 1`, started from `(10^16, 1)` with
`eps = 1 / 2` and `maxIters = 5`.  The first sweep computes `10^16 - 1`, which
rounds to `10^16`, so the run in `double` arithmetic ends after one sweep; in
exact arithmetic the same system takes two. -/
theorem solveDouble_terminates_witness :
    SolveWF bigA [2, 1] [0, 0] [10 ^ 16, 1] 2 2 ∧
    ([Double.fin (10 ^ 16), Double.fin 1] : List Double).length = 2 ∧
    (∃ r, solveDouble bigA [2, 1] [0, 0] [10 ^ 16, 1] [Double.fin (10 ^ 16), Double.fin 1] 2 2 5
        (1 / 2) = some r ∧ r.sweeps ≤ (5 : Int).toNat) ∧
    solveDouble bigA [2, 1] [0, 0] [10 ^ 16, 1] [Double.fin (10 ^ 16), Double.fin 1] 2 2 5
      (1 / 2) = some ⟨[Double.fin (10 ^ 16), Double.fin 1], 1, true⟩ ∧
    solve bigA [2, 1] [0, 0] [10 ^ 16, 1] [10 ^ 16, 1] 2 2 5 (1 / 2) =
      some ⟨[10 ^ 16 - 1, 1], 2, true⟩ :=
  ⟨by decide, by decide,
    let ⟨r, h1, h2, _⟩ :=
      solveDouble_terminates bigA [2, 1] [0, 0] [10 ^ 16, 1] 2 2 (by decide)
        [Double.fin (10 ^ 16), Double.fin 1] (by decide) 5 (1 / 2)
    ⟨r, h1, h2⟩,
    by decide!, by decide!⟩

/-- Claim C15 at the system `3 x0 + x1 = 1`, `x0 + 3 x1 = 1`, swept from `(0, 0)`: the
sweep writes the `double` nearest to `1 / 3` and then the rounded
`(1 - x0) / 3`; in exact arithmetic the values are `1 / 3` and `2 / 9`. -/
theorem sweepDouble_gauss_seidel_witness :
    SolveWF thirdA [2, 2] [0, 1] [1, 1] 2 2 ∧
    (∀ i, i < 2 → ((rowOf thirdA [2, 2] 2 i).map IndexedValue.index).Pairwise (· < ·)) ∧
    (∀ i, i < 2 →
      (thirdA.getD (2 * i + (([0, 1] : List Int).getD i (-1)).toNat) memsetSlot).index =
        (i : Int)) ∧
    ([Double.fin 0, Double.fin 0] : List Double).length = 2 ∧
    (∃ y cnt, sweepDouble thirdA [2, 2] [0, 1] [1, 1] 2 2 (1 / 100) [Double.fin 0, Double.fin 0] =
        some (y, cnt) ∧ y.length = 2) ∧
    sweepDouble thirdA [2, 2] [0, 1] [1, 1] 2 2 (1 / 100) [Double.fin 0, Double.fin 0] =
      some ([Double.fin (6004799503160661 / 18014398509481984),
        Double.fin (8006399337547549 / 36028797018963968)], 0) ∧
    sweep thirdA [2, 2] [0, 1] [1, 1] 2 2 (1 / 100) [0, 0] = some ([1 / 3, 2 / 9], 0) :=
  ⟨by decide, by decide, by decide, by decide,
    let ⟨y, cnt, h1, h2, _⟩ :=
      sweepDouble_gauss_seidel thirdA [2, 2] [0, 1] [1, 1] 2 2 (1 / 100) (by decide) (by decide)
        (by decide) [Double.fin 0, Double.fin 0] (by decide)
    ⟨y, cnt, h1, h2⟩,
    by decide!, by decide!⟩

end PoissonImageEditing
